import Mathlib

/-!
Shallow embedding of the `sloth_num` crate (repository MyselfLeo/pilosa):
`src/core.rs` — unsigned big-int primitives over little-endian base-10
digit vectors — and `src/big_num.rs` — the signed, scaled `BigNum` layer —
together with proofs and refutations of the specification's claims.

Modelling conventions:
* machine integers (`u8`, `u32`, `usize`, `i64`) are `Nat` / `Int`;
  wrapping casts and wrapping subtractions of release-mode Rust are written
  out explicitly as `% 2 ^ 32` / `% 2 ^ 64` at the places they can occur;
* functions that return `Result` in Rust are `Except String` with the
  `assert_err!` message; a panic reachable inside such a function is an
  error string starting with `panic:`;
* loops whose termination depends on the data carry explicit fuel; the
  fuel is always shown to be sufficient on the inputs a theorem is about.
-/

namespace SlothNum

/-- `core::ub_clean` / `core::ub_cleaned`: pop most-significant (trailing)
zero digits, keeping one digit if the value is zero and the vector was
nonempty; an empty vector stays empty. -/
def ub_clean (l : List Nat) : List Nat :=
  let r := l.reverse.dropWhile (· == 0)
  if r.isEmpty then if l.isEmpty then [] else [0] else r.reverse

/-- `core::ub_cleaned` is the by-value variant of `ub_clean` with the very
same loop body. -/
def ub_cleaned (l : List Nat) : List Nat := ub_clean l

/-- The digit loop of `core::ub_is_lower` (`zip(u, v).rev()`), taken on the
reversed — most-significant-first — digit lists. -/
def isLowerRev : List Nat → List Nat → Bool
  | a :: us, b :: vs => if a < b then true else if b < a then false else isLowerRev us vs
  | _, _ => false

/-- `core::ub_is_lower`: true if `u < v`; compares lengths first (shorter ⇒
lower), then digit by digit from the most significant end. -/
def ub_is_lower (u v : List Nat) : Bool :=
  if u.length < v.length then true
  else if v.length < u.length then false
  else isLowerRev u.reverse v.reverse

/-- The digit-wise addition loop of `core::ub_add`: walks the (longer) list
`u` with carry `k`, pairing each digit with the matching digit of `v`
(0 once `v` is exhausted); the final carry is emitted as one extra digit. -/
def addLoop : List Nat → List Nat → Nat → List Nat
  | [], _, k => [k]
  | d :: us, vs, k =>
    let t := d + vs.headD 0 + k
    t % 10 :: addLoop us vs.tail (t / 10)

/-- `core::ub_add` after the swap that makes `u` the longer operand. -/
def ub_add_go (u v : List Nat) : List Nat :=
  if u = [0] then ub_cleaned v
  else if v = [0] then ub_cleaned u
  else ub_clean (addLoop u v 0)

/-- `core::ub_add`: cleaned sum of two unsigned big ints. -/
def ub_add (u v : List Nat) : List Nat :=
  if u.length < v.length then ub_add_go v u else ub_add_go u v

/-- The digit-wise subtraction loop of `core::ub_sub` with borrow
`k ∈ {0, -1}`: each output digit is `(u_j - v_j + k).rem_euclid(10)` and the
new borrow is `-1` exactly when `u_j - v_j + k < 0` (only a single borrow,
whatever the size of the minuend digit — faithful to the Rust source).
Returns the digits and the final borrow. -/
def subLoop : List Nat → List Nat → Int → (List Nat × Int)
  | [], _, k => ([], k)
  | d :: us, vs, k =>
    let t : Int := (d : Int) - (vs.headD 0 : Int) + k
    let p := subLoop us vs.tail (if t < 0 then -1 else 0)
    ((t.emod 10).toNat :: p.1, p.2)

/-- `core::ub_sub`: requires equal lengths (else the `assert_err!` error);
the final-borrow `panic!("Expected u >= v")` is modelled as an error. -/
def ub_sub (u v : List Nat) : Except String (List Nat) :=
  if u.length ≠ v.length then
    .error "Both unsigned big ints must have the same amount of digits"
  else if v = [0] then .ok u
  else
    let p := subLoop u v 0
    if p.2 ≠ 0 then .error "panic: Expected u >= v" else .ok p.1

/-- Inner loop of `core::ub_mul` for one digit `q` of `v`: walks `u`,
reading the current accumulator digits `ws` (the slice `w[j..]`) and the
carry `k`; returns the `m + 1` replacement digits for `w[j..j+m]`. -/
def mulRow : List Nat → List Nat → Nat → Nat → List Nat
  | [], _, _, k => [k]
  | d :: us, ws, q, k =>
    let t := d * q + ws.headD 0 + k
    t % 10 :: mulRow us ws.tail q (t / 10)

/-- Outer loop of `core::ub_mul` over the digits of `v` (index `j`): a zero
digit only writes `w[j+m] = 0` (a no-op on a still-zero slot), any other
digit replaces `w[j..j+m]` by the `mulRow` result. -/
def mulLoop (u : List Nat) : List Nat → Nat → List Nat → List Nat
  | [], _, w => w
  | q :: vs, j, w =>
    let w' :=
      if q = 0 then w.set (j + u.length) 0
      else w.take j ++ mulRow u (w.drop j) q 0 ++ w.drop (j + u.length + 1)
    mulLoop u vs (j + 1) w'

/-- `core::ub_mul` after the swap that makes `u` the longer operand. -/
def ub_mul_go (u v : List Nat) : List Nat :=
  if v = [1] then u
  else if u = [1] then v
  else if u = [0] ∨ v = [0] then [0]
  else ub_clean (mulLoop u v 0 (List.replicate (u.length + v.length) 0))

/-- `core::ub_mul`: schoolbook multiplication of two digit vectors. -/
def ub_mul (u v : List Nat) : List Nat :=
  if u.length < v.length then ub_mul_go v u else ub_mul_go u v

/-- The most-significant-first digit loop of `core::ub_shortdiv`: input is
the reversed digit list, `r` the running remainder; returns the quotient
digits (most significant first) and the final remainder. -/
def shortDivLoop (v : Nat) : List Nat → Nat → (List Nat × Nat)
  | [], r => ([], r)
  | d :: us, r =>
    let x := r * 10 + d
    let p := shortDivLoop v us (x % v)
    (x / v :: p.1, p.2)

/-- `core::ub_shortdiv`: divide an unsigned big int by one digit `v`. -/
def ub_shortdiv (u : List Nat) (v : Nat) : Except String (List Nat × Nat) :=
  if v = 0 then .error "Division by zero"
  else if v = 1 then .ok (ub_cleaned u, 0)
  else
    let p := shortDivLoop v u.reverse 0
    .ok (ub_clean p.1.reverse, p.2)

/-- `core::is_power_of_ten`: `some k` iff the most significant digit is 1
and all other digits are 0 (so `b = 10 ^ k` for cleaned `b`). -/
def is_power_of_ten (b : List Nat) : Option Nat :=
  match b.getLast? with
  | some 1 =>
    if (b.take (b.length - 1)).all (· == 0) then some (b.length - 1) else none
  | _ => none

/-- The `q_est` correction loop of `inner_div` (the labelled `'do_while`
loop): decrement `q_est` and grow `r_est` by `v1` while `q_est = 10` or
`q_est * v2 > 10 * r_est + u3`, breaking out as soon as the grown `r_est`
reaches 10. `v1, v2` are the top two digits of the divisor, `u3` the third
digit of the current remainder slice. Structural recursion on `q_est`
(the guard forces `q_est ≥ 1` before a decrement). -/
def correct (v1 v2 u3 : Nat) : Nat → Nat → Nat
  | 0, _ => 0
  | q + 1, r =>
    if q + 1 = 10 ∨ (q + 1) * v2 > 10 * r + u3 then
      if r + v1 ≥ 10 then q else correct v1 v2 u3 q (r + v1)
    else q + 1

/-- `Vec::resize(k, 0)`: truncate or pad with zeros to length exactly `k`. -/
def resize (l : List Nat) (k : Nat) : List Nat :=
  l.take k ++ List.replicate (k - l.length) 0

/-- One iteration (position `j`) of the main loop of `inner_div`: returns
the updated working dividend and the recorded quotient digit, or `none`
when one of the `.expect` calls on `ub_sub` would panic. Rust's indexing
`u[j+n]`, `v[n-1]`, … is total here (`getD … 0`); every theorem below only
uses it where the index is shown to be in bounds, as in the source. The
caller (`ub_div`) has asserted `v[n-1] ≥ 5`, so the `top2 / v1` division is
never by zero. -/
def innerDivStep (v : List Nat) (n j : Nat) (u : List Nat) :
    Option (List Nat × Nat) :=
  let top2 := u.getD (j + n) 0 * 10 + u.getD (j + n - 1) 0
  let v1 := v.getD (n - 1) 0
  let q_est := correct v1 (v.getD (n - 2) 0) (u.getD (j + n - 2) 0)
    (top2 / v1) (top2 % v1)
  let u_slice := (u.drop j).take (n + 1)
  let v_slice := resize (ub_mul v [q_est]) (n + 1)
  let borrow := ub_is_lower u_slice v_slice
  let subRes : Except String (List Nat) :=
    if borrow then
      match ub_sub v_slice u_slice with
      | .error e => .error e
      | .ok lhs =>
        match ub_sub (List.replicate (n + 1) 0 ++ [1]) (lhs ++ [0]) with
        | .error e => .error e
        | .ok sub2 => .ok (sub2.take (n + 1))
    else ub_sub u_slice v_slice
  match subRes with
  | .error _ => none
  | .ok sub =>
    let u1 := u.take j ++ sub.take n ++ u.drop (j + n)
    if borrow then
      let add := ub_add (v ++ [0]) ((u1.drop j).take (n + 1))
      some (u1.take j ++ add.take n ++ u1.drop (j + n), q_est - 1)
    else
      some (u1, q_est)

/-- The main loop of `inner_div`, processing positions `j, j-1, …, 0`;
`q` is the quotient-digit vector being filled in. -/
def innerDivLoop (v : List Nat) (n : Nat) :
    Nat → List Nat → List Nat → Option (List Nat × List Nat)
  | 0, u, q =>
    match innerDivStep v n 0 u with
    | none => none
    | some (u', d) => some (u', q.set 0 d)
  | j + 1, u, q =>
    match innerDivStep v n (j + 1) u with
    | none => none
    | some (u', d) => innerDivLoop v n j u' (q.set (j + 1) d)

/-- `core::inner_div`: the main routine of Knuth's Algorithm D, assuming a
normalised divisor (`ub_div` establishes `v[n-1] ≥ 5` before the call).
Returns the cleaned quotient and the (uncleaned, `n`-digit) remainder;
`none` models the panics of the `.expect` calls. -/
def inner_div (u v : List Nat) : Option (List Nat × List Nat) :=
  let u' := u ++ [0]
  let n := v.length
  let m := u'.length - n - 1
  match innerDivLoop v n m u' (List.replicate (m + 2) 0) with
  | none => none
  | some (uf, q) => some (ub_clean q, resize uf n)

/-- The normalisation correction loop of `ub_div`: while `nv` still has
more than `n` digits with a nonzero top digit, subtract `v` (padded with a
zero digit) and decrement the normaliser. The normaliser itself is the
fuel — it decreases by one per iteration, and reaching 0 with the guard
still true would be the u8 underflow of `normaliser -= 1` (`none`). -/
def normLoop (v : List Nat) (n : Nat) :
    Nat → List Nat → Option (Nat × List Nat)
  | 0, nv =>
    if n < nv.length ∧ nv.getLast? ≠ some 0 then none else some (0, nv)
  | k + 1, nv =>
    if n < nv.length ∧ nv.getLast? ≠ some 0 then
      match ub_sub nv (v ++ [0]) with
      | .error _ => none
      | .ok nv' => normLoop v n k nv'
    else some (k + 1, nv)

/-- `core::ub_div`: multi-digit division. Normalises (Knuth's step D1, via
the `9 / v[n-1]` multiplier and its correction loop), runs `inner_div`,
then unnormalises the remainder with `ub_shortdiv`; the remainder of that
short division must be exactly zero. Rust would panic on `9 / 0`
(uncleaned divisor with a zero top digit); that path is an explicit
`panic:` error here. -/
def ub_div (u v : List Nat) : Except String (List Nat × List Nat) :=
  if ¬ 1 < v.length then .error "v needs to be of length 2 at least"
  else if ¬ v.length ≤ u.length then .error "m can't be negative"
  else
    let n := v.length
    if v.getD (n - 1) 0 = 0 then .error "panic: attempt to divide by zero"
    else
      let normaliser0 := 9 / v.getD (n - 1) 0
      match normLoop v n normaliser0 (ub_mul v [normaliser0]) with
      | none => .error "panic: internal error in ub_div"
      | some (normaliser, nv1) =>
        let popped : Except String (List Nat) :=
          if v.length < nv1.length then
            if nv1.getLast? = some 0 then .ok (nv1.take (nv1.length - 1))
            else .error "last is not 0 after normal correction"
          else .ok nv1
        match popped with
        | .error e => .error e
        | .ok nv =>
          let nu0 := ub_mul u [normaliser]
          let nu := if nu0.length = nv.length then nu0 ++ [0] else nu0
          if ¬ 5 ≤ nv.getD (nv.length - 1) 0 then
            .error "last digit of nv < 5"
          else
            match inner_div nu nv with
            | none => .error "panic: internal error in inner_div"
            | some (quotient, remainder0) =>
              match ub_shortdiv remainder0 normaliser with
              | .error _ => .error "panic: internal error in ub_div"
              | .ok (remainder, r0) =>
                if r0 ≠ 0 then .error "r0 != 0"
                else .ok (quotient, remainder)

/-! ## The `BigNum` layer (`src/big_num.rs`) -/

/-- `FLOAT_PRECISION` from `big_num.rs`. -/
def FLOAT_PRECISION : Int := 15

/-- `IMPLICIT_SIGN` from `big_num.rs`. -/
def IMPLICIT_SIGN : Bool := false

/-- `BigNum`: sign, little-endian digit magnitude `abs`, scale `power`
(`power : u32` is a `Nat` here; the wrapping `u32`/`usize` arithmetic of
the source is written out explicitly below). -/
structure BigNum where
  negative : Bool
  abs : List Nat
  power : Nat
  deriving DecidableEq, Repr

/-- Release-mode wrapping `usize` subtraction `a - b` (both < `2 ^ 64`). -/
def wsub64 (a b : Nat) : Nat := (a + 2 ^ 64 - b) % 2 ^ 64

/-- Release-mode wrapping `u32` subtraction `a - b` (both < `2 ^ 32`). -/
def wsub32 (a b : Nat) : Nat := (a + 2 ^ 32 - b) % 2 ^ 32

/-- Wrapping cast `isize`/`i64` → `u32`: the value modulo `2 ^ 32`. -/
def wrapU32 (i : Int) : Nat := (i.emod (2 ^ 32)).toNat

/-- The fractional-zero-trimming loop of `BigNum::clean`: drop
least-significant zero digits while the power is positive. -/
def trimFrac : List Nat → Nat → (List Nat × Nat)
  | 0 :: l, p + 1 => trimFrac l p
  | l, p => (l, p)

/-- `BigNum::is_zero`, total model: the Rust method panics when `abs` is
empty (claim C9, the `isZeroPanics` predicate below); everywhere else it is
`abs.len() == 1 && abs[0] == 0`, and every theorem below only evaluates it
on nonempty magnitudes. -/
def BigNum.is_zero (n : BigNum) : Bool :=
  n.abs.length == 1 && n.abs.headD 1 == 0

/-- The condition under which `BigNum::is_zero` panics
("Error: BigNum does not have any digit"). -/
def isZeroPanics (n : BigNum) : Prop := n.abs = []

/-- The condition under which the Rust `BigNum::clean` panics: its final
`if self.is_zero() && self.negative` check calls `is_zero` after the
fraction-trim loop, which panics when that loop has emptied an initially
nonempty magnitude (every digit zero and `power ≥` the digit count). The
total model `BigNum.clean` below instead lets the empty magnitude
through. -/
def cleanPanics (n : BigNum) : Prop :=
  ¬ n.abs.isEmpty ∧ (trimFrac n.abs n.power).1 = []

/-- `BigNum::clean`: trim fractional zeros, clean the magnitude, force
`negative = false` on zero (and on an empty magnitude, which returns
early). When `cleanPanics` holds of the argument the Rust original panics
inside its final `is_zero` call instead of returning this value. -/
def BigNum.clean (n : BigNum) : BigNum :=
  if n.abs.isEmpty then { n with negative := false }
  else
    let t := trimFrac n.abs n.power
    let a := ub_clean t.1
    ⟨if a = [0] then false else n.negative, a, t.2⟩

/-- `BigNum::new`: validate every digit `< 10`, then clean. -/
def BigNum.new (negative : Bool) (abs : List Nat) (power : Nat) :
    Except String BigNum :=
  if abs.all (· < 10) then .ok (BigNum.clean ⟨negative, abs, power⟩)
  else .error "abs contains a value that is not a Digit"

/-- `BigNum::zero`. -/
def BigNum.zero : BigNum := ⟨false, [0], 0⟩

/-- `BigNum::one`. -/
def BigNum.one : BigNum := ⟨false, [1], 0⟩

/-- `BigNum::is_negative`. -/
def BigNum.is_negative (n : BigNum) : Bool := n.negative

/-- `BigNum::with_power`: raise `power` to `n`, inserting zero digits at
the least-significant end (no-op when `power ≥ n`). -/
def BigNum.with_power (x : BigNum) (n : Nat) : BigNum :=
  if n ≤ x.power then x
  else ⟨x.negative, List.replicate (n - x.power) 0 ++ x.abs, n⟩

/-- `BigNum::same_power`: pad whichever operand has the smaller power. -/
def same_power (n1 n2 : BigNum) : BigNum × BigNum :=
  if n1.power < n2.power then (n1.with_power n2.power, n2)
  else (n1, n2.with_power n1.power)

/-- `BigNum::same_digit_amount`: pad the shorter magnitude with
most-significant zero digits. -/
def same_digit_amount (n1 n2 : BigNum) : BigNum × BigNum :=
  (⟨n1.negative, n1.abs ++ List.replicate (n2.abs.length - n1.abs.length) 0, n1.power⟩,
   ⟨n2.negative, n2.abs ++ List.replicate (n1.abs.length - n2.abs.length) 0, n2.power⟩)

/-- `BigNum::opposite`; the `is_zero` guard keeps `-0` unrepresentable.
(The Rust source panics on an empty magnitude, inside `is_zero`; theorems
below only apply this to nonempty magnitudes.) -/
def BigNum.opposite (n : BigNum) : BigNum :=
  if n.is_zero then n else ⟨!n.negative, n.abs, n.power⟩

/-- `BigNum::are_equal` (`PartialEq`). -/
def are_equal (n1 n2 : BigNum) : Bool :=
  n1.negative == n2.negative && n1.abs == n2.abs && n1.power == n2.power

/-- The digit loop of `is_lower` (index `i` over `0..min_len`, most
significant digit first, on the reversed magnitudes); `neg` flips the
verdicts; `none` means the loop ran through all `min_len` pairs. -/
def islDigits (neg : Bool) : List Nat → List Nat → Option Bool
  | d1 :: l1, d2 :: l2 =>
    if d1 < d2 then some (!neg)
    else if d2 < d1 then some neg
    else islDigits neg l1 l2
  | _, _ => none

/-- `BigNum::is_lower` (`n1 < n2`), faithful to the release-mode source:
the whole-digit counts `abs.len() - power as usize` are wrapping
subtractions. -/
def is_lower (n1 n2 : BigNum) : Bool :=
  if n1.negative && !n2.negative then true
  else if !n1.negative && n2.negative then false
  else
    let neg := n1.negative && n2.negative
    let w1 := wsub64 n1.abs.length n1.power
    let w2 := wsub64 n2.abs.length n2.power
    if w1 ≠ w2 then (if neg then decide (w2 < w1) else decide (w1 < w2))
    else
      match islDigits neg n1.abs.reverse n2.abs.reverse with
      | some b => b
      | none =>
        let min_len := min n1.abs.length n2.abs.length
        if neg then n2.abs.length == min_len && n1.abs.length != min_len
        else n1.abs.length == min_len && n2.abs.length != min_len

/-- `BigNum::is_greater` (`n1 > n2`). -/
def is_greater (n1 n2 : BigNum) : Bool := !are_equal n1 n2 && !is_lower n1 n2

/-- `PartialOrd::partial_cmp` for `BigNum`; the source always returns
`Some`, so the `Option` wrapper is dropped. -/
def partial_cmp (n1 n2 : BigNum) : Ordering :=
  if are_equal n1 n2 then .eq else if is_lower n1 n2 then .lt else .gt

/-- `BigNum::is_power_of_ten`: the magnitude test minus the scale. -/
def BigNum.is_pow_ten (n : BigNum) : Option Int :=
  match is_power_of_ten n.abs with
  | none => none
  | some k => some ((k : Int) - (n.power : Int))

/-- `BigNum::bn_tenpow_div`: divide by `10 ^ power` by bumping the scale.
When `power = 0` the function returns `self` unchanged — including the
sign, whatever `pow_negative` says (claim C2). The `power as u32` cast and
the `u32` addition wrap in release mode. -/
def bn_tenpow_div (n : BigNum) (power : Int) (pow_negative : Bool) : BigNum :=
  if power = 0 then n
  else BigNum.clean
    ⟨n.negative != pow_negative, n.abs, (n.power + wrapU32 power) % 2 ^ 32⟩

/-- `BigNum::bn_mul`. -/
def bn_mul (n1 n2 : BigNum) : BigNum :=
  BigNum.clean
    ⟨n1.negative != n2.negative, ub_mul n1.abs n2.abs, (n1.power + n2.power) % 2 ^ 32⟩

/-- `BigNum::inner_add`: sum of two `BigNum`s of the same sign (the
mismatched-sign `panic!` is `none`). -/
def inner_add (n1 n2 : BigNum) : Option BigNum :=
  if n1.negative != n2.negative then none
  else
    let p := same_power n1 n2
    some (BigNum.clean ⟨p.1.negative, ub_add p.1.abs p.2.abs, p.1.power⟩)

/-- `BigNum::inner_sub`: difference of two positive `BigNum`s; the two
guard `panic!`s (both through the buggy `is_lower`), the `ub_sub` expect
and the `new(...).unwrap()` are `none`. -/
def inner_sub (n1 n2 : BigNum) : Option BigNum :=
  if n1.negative || n2.negative then none
  else if is_lower n1 n2 then none
  else
    let p := same_power n1 n2
    let q := same_digit_amount p.1 p.2
    match ub_sub q.1.abs q.2.abs with
    | .error _ => none
    | .ok w =>
      match BigNum.new false w q.1.power with
      | .error _ => none
      | .ok r => some r.clean

mutual

/-- `BigNum::bn_add`, with fuel for the mutual recursion with `bn_sub`
through the sign dispatch (a `-0` operand makes the Rust source recurse
forever; fuel ≥ 4 is enough for operands without a negative zero). -/
def bn_addF : Nat → BigNum → BigNum → Option BigNum
  | 0, _, _ => none
  | fuel + 1, n1, n2 =>
    match n1.negative, n2.negative with
    | false, false => inner_add n1 n2
    | true, true => inner_add n1 n2
    | true, false => bn_subF fuel n2 n1.opposite
    | false, true => bn_subF fuel n1 n2.opposite

/-- `BigNum::bn_sub` (its result goes through a final `clean`). -/
def bn_subF : Nat → BigNum → BigNum → Option BigNum
  | 0, _, _ => none
  | fuel + 1, n1, n2 =>
    let res : Option BigNum :=
      match n1.negative, n2.negative with
      | false, false =>
        if is_lower n1 n2 then (inner_sub n2 n1).map BigNum.opposite
        else inner_sub n1 n2
      | true, true => bn_subF fuel n2.opposite n1.opposite
      | true, false => bn_addF fuel n1 n2.opposite
      | false, true => bn_addF fuel n1 n2
    res.map BigNum.clean

end

/-- The repeated-subtraction loop of `BigNum::euclidian`; `lf` bounds the
iterations (`none` = the loop has not terminated within the fuel),
`subFuel` goes to the fueled `bn_sub`/`bn_add`. The guard
`&remainder >= &denom` is `ge`, i.e. `!is_lower`. -/
def euclidianLoop (denom : BigNum) (subFuel : Nat) :
    Nat → BigNum → BigNum → Option (BigNum × BigNum)
  | 0, quotient, remainder =>
    if !is_lower remainder denom then none else some (quotient, remainder)
  | lf + 1, quotient, remainder =>
    if !is_lower remainder denom then
      match bn_subF subFuel remainder denom, bn_addF subFuel quotient BigNum.one with
      | some r', some q' => euclidianLoop denom subFuel lf q' r'
      | _, _ => none
    else some (quotient, remainder)

/-- `BigNum::euclidian`, with explicit fuel; the `panic:` error stands for
a loop that needs more fuel than given. -/
def euclidianF (loopFuel subFuel : Nat) (num denom : BigNum) :
    Except String (BigNum × BigNum) :=
  if denom.is_zero then .error "Division by zero"
  else if num.is_negative then .error "The numerator cannot be negative"
  else if denom.is_negative then .error "The denominator cannot be negative"
  else
    match euclidianLoop denom subFuel loopFuel BigNum.zero num with
    | none => .error "panic: loop fuel exhausted"
    | some (q, r) => .ok (q, r)

/-- The precision-padded dividend of `bn_div`: the local mutable `n1`
after the `if delta > 0 { n1.with_power(n1.power + delta as u32) }` step
(`pow` and `delta` are the exact `i64` values; the `delta as u32` cast and
the `u32` addition wrap as in release mode). -/
def bn_div_m1 (n1 n2 : BigNum) : BigNum :=
  let pow : Int := (n1.power : Int) - (n2.power : Int)
  let delta : Int := FLOAT_PRECISION - pow
  if 0 < delta then n1.with_power ((n1.power + wrapU32 delta) % 2 ^ 32)
  else n1

/-- `BigNum::bn_div`. `pow` and `delta` are the exact `i64` values; the
`delta as u32` cast and the final `u32` subtraction
`n1.power - n2.power` wrap as in release mode. -/
def bn_div (n1 n2 : BigNum) : Except String BigNum :=
  if n2.is_zero then .error "Division by zero"
  else
    match n2.is_pow_ten with
    | some p => .ok (bn_tenpow_div n1 p n2.is_negative)
    | none =>
      let sign := n1.negative != n2.negative
      let m1 := bn_div_m1 n1 n2
      let qRes : Except String (List Nat) :=
        if n2.abs.length = 1 then
          match ub_shortdiv m1.abs (n2.abs.headD 0) with
          | .error _ => .error "panic: n2 was not clean when passed to bn_div"
          | .ok p => .ok p.1
        else
          match ub_div m1.abs n2.abs with
          | .error e => .error e
          | .ok p => .ok p.1
      match qRes with
      | .error e => .error e
      | .ok quotient =>
        .ok (BigNum.clean ⟨sign, quotient, wsub32 m1.power n2.power⟩)

/-- The overloaded `/` operator (`impl Div for BigNum`): unwraps `bn_div`;
`none` is the panic of `.unwrap()` (claim C10). -/
def divOp (n1 n2 : BigNum) : Option BigNum :=
  match bn_div n1 n2 with
  | .ok r => some r
  | .error _ => none

/-- `BigNum::bn_pow`, exponent `p : i32`, by squaring; fuel-indexed version
of the Rust recursion `p → p / 2` (`i32` division truncates toward zero,
`Int.tdiv`). `none` propagates a panic of the unwrapping `/` operator. -/
def bn_powF : Nat → BigNum → Int → Option BigNum
  | 0, _, _ => none
  | fuel + 1, n, p =>
    if p = 0 then some BigNum.one
    else if p = 1 then some n
    else
      match bn_powF fuel n (Int.tdiv p 2) with
      | none => none
      | some temp =>
        if Int.tmod p 2 = 0 then some (bn_mul temp temp)
        else if 0 < p then some (bn_mul (bn_mul temp temp) n)
        else divOp (bn_mul temp temp) n

/-- `BigNum::bn_pow` with sufficient fuel (`|p / 2| < |p|` whenever the
recursion happens, so `p.natAbs + 1` levels always suffice). -/
def bn_pow (n : BigNum) (p : Int) : Option BigNum := bn_powF (p.natAbs + 1) n p

/-- `char::to_digit(10)`. -/
def charToDigit (c : Char) : Option Nat :=
  if '0' ≤ c ∧ c ≤ '9' then some (c.toNat - 48) else none

/-- The dot-scanning loop of `from_string`: yields the computed `power`
(`len - i - 1` at the first dot, 0 when there is none) or the double-dot
"Invalid format" error. -/
def dotScan (len : Nat) : List Char → Nat → Bool → Nat → Except String Nat
  | [], _, _, power => .ok power
  | c :: rest, i, dot_found, power =>
    if c = '.' ∧ dot_found then .error "Invalid format"
    else if c = '.' then dotScan len rest (i + 1) true (len - i - 1)
    else dotScan len rest (i + 1) dot_found power

/-- `BigNum::from_string`, on the character list of the input; the final
`new(...).unwrap()` is a `panic:` error (it cannot fire: `to_digit`
produces digits `< 10`). The `power as u32` cast wraps. -/
def from_string (input : List Char) : Except String BigNum :=
  let s0 := input.filter (· ≠ ' ')
  if s0.isEmpty then .error "Empty string"
  else
    let negative0 : Option Bool :=
      match s0.head? with
      | some c =>
        if c = '-' then some true else if c = '+' then some false else none
      | none => none
    let s1 := if negative0.isSome then s0.tail else s0
    match dotScan s1.length s1 0 false 0 with
    | .error e => .error e
    | .ok power =>
      let s2 := s1.filter (· ≠ '.')
      match s2.reverse.mapM charToDigit with
      | none => .error "Invalid format"
      | some a0 =>
        let a := ub_clean a0
        let negative := if a = [0] then some false else negative0
        match BigNum.new (negative.getD IMPLICIT_SIGN) a (power % 2 ^ 32) with
        | .error e => .error ("panic: " ++ e)
        | .ok b => .ok b

/-- Digit value → character (`write!(f, "{}", digit)`). -/
def digitChar (d : Nat) : Char := Char.ofNat (48 + d)

/-- The digit-printing loop of `impl Display for BigNum`: `i` counts up,
the input list is the reversed magnitude (most significant digit first);
a dot is inserted before index `dot_pos as usize` when `i > 0` (for a
negative `dot_pos` the wrapped cast can never equal `i`, matching the
source, where `dot_pos` has been counted up to 0 by then). -/
def fmtDigits (dotPos : Int) : List Nat → Nat → List Char
  | [], _ => []
  | d :: rest, i =>
    (if i = (dotPos.emod (2 ^ 64)).toNat ∧ 0 < i then ['.'] else [])
      ++ digitChar d :: fmtDigits dotPos rest (i + 1)

/-- `impl Display for BigNum` (`to_string`), as a character list. -/
def BigNum.toStr (n : BigNum) : List Char :=
  let nb := n.abs.length
  let dotPos : Int := (nb : Int) - (n.power : Int)
  (if n.negative then ['-'] else [])
    ++ (if dotPos ≤ 0 then '0' :: '.' :: List.replicate (-dotPos).toNat '0' else [])
    ++ fmtDigits dotPos n.abs.reverse 0

/-! ## Semantic notions: digit values, canonical form, denotation -/

/-- Numeric value of a little-endian digit list. -/
def ubVal : List Nat → Nat
  | [] => 0
  | d :: l => d + 10 * ubVal l

/-- Every entry is a digit (`< 10`). -/
def AllDigits (l : List Nat) : Prop := ∀ d ∈ l, d < 10

/-- A digit list is cleaned when `ub_clean` leaves it unchanged. -/
def IsClean (l : List Nat) : Prop := ub_clean l = l

/-- The rational value denoted by a `BigNum`:
`(-1)^negative * abs / 10^power`. -/
def BigNum.val (n : BigNum) : ℚ :=
  (if n.negative then -1 else 1) * (ubVal n.abs : ℚ) / (10 : ℚ) ^ n.power

/-- The documented `BigNum` invariants: cleaned nonempty digit magnitude,
minimal scale (no least-significant zero digit while `power > 0`), no
negative zero; plus the machine-width bounds that hold for any value the
Rust program can physically represent (`power : u32`, a vector shorter
than the address space). -/
def Canonical (n : BigNum) : Prop :=
  IsClean n.abs ∧ n.abs ≠ [] ∧ AllDigits n.abs ∧
  (0 < n.power → n.abs.head? ≠ some 0) ∧
  (n.abs = [0] → n.negative = false) ∧
  n.power < 2 ^ 32 ∧ n.abs.length < 2 ^ 63

instance : DecidablePred Canonical := fun n => by
  unfold Canonical IsClean AllDigits
  infer_instance

/-- Truncation of a rational toward zero to `k` fractional digits — the
specification's words: "the quotient is truncated, never rounded", to
`k = 15` fractional digits. -/
def truncTo (k : Nat) (x : ℚ) : ℚ :=
  (if 0 ≤ x then (⌊x * 10 ^ k⌋ : ℚ) else (⌈x * 10 ^ k⌉ : ℚ)) / 10 ^ k

/-- Numeric value of a most-significant-first digit list (used to reason
about the loops that walk the digits from the top end). -/
def valR : List Nat → Nat
  | [] => 0
  | d :: l => d * 10 ^ l.length + valR l

/-! ## Concrete claim theorems -/

/-- C9: `BigNum::new` with an empty `abs` returns `Ok` (its validation
only rejects digit values ≥ 10), producing a value with an empty magnitude
on which `is_zero` panics; the same empty-magnitude values are reachable
through the public parser: `from_string "-"` and `from_string "."` return
`Ok` instead of an error. The success half of the first conjunct is
guarded by `¬ cleanPanics`: when the fraction-trim loop of the `clean`
that `new` ends with empties an all-zero magnitude, the Rust `new` panics
inside `clean`'s `is_zero` call instead of returning — the second conjunct
exhibits this on the valid-digit input `new(false, [0], 1)`, where the
total model returns an `Ok` carrying the empty-magnitude `isZeroPanics`
state. -/
theorem C9_empty_magnitude_reachable :
    (∀ (neg : Bool) (l : List Nat) (pow : Nat), ¬ cleanPanics ⟨neg, l, pow⟩ →
      ((BigNum.new neg l pow).isOk = true ↔ ∀ d ∈ l, d < 10))
    ∧ (cleanPanics ⟨false, [0], 1⟩ ∧ (∀ d ∈ ([0] : List Nat), d < 10)
        ∧ BigNum.new false [0] 1 = .ok ⟨false, [], 0⟩
        ∧ isZeroPanics ⟨false, [], 0⟩)
    ∧ BigNum.new true [] 5 = .ok ⟨false, [], 5⟩
    ∧ isZeroPanics ⟨false, [], 5⟩
    ∧ from_string ['-'] = .ok ⟨false, [], 0⟩
    ∧ from_string ['.'] = .ok ⟨false, [], 0⟩
    ∧ isZeroPanics ⟨false, [], 0⟩ := by
  refine ⟨fun neg l pow _ => ?_,
    ⟨⟨by decide, rfl⟩, by decide, rfl, rfl⟩, rfl, rfl, rfl, rfl, rfl⟩
  have hcases : (BigNum.new neg l pow).isOk = true ↔ l.all (· < 10) = true := by
    unfold BigNum.new
    cases hall : l.all (· < 10) with
    | false => simp [Except.isOk, Except.toBool]
    | true => simp [Except.isOk, Except.toBool]
  rw [hcases, List.all_eq_true]
  simp

/-- C2 (code bug): for the divisor `-1` — a nonzero `BigNum` whose
magnitude is the exact power of ten `10^0` — `bn_div(5, -1)` returns `5`:
`bn_tenpow_div` returns `self` unchanged when the exponent is `0`,
dropping the combined sign, so the result is not `value(n1)/value(n2) = -5`. -/
theorem C2_pow_ten_divide_drops_sign :
    bn_div ⟨false, [5], 0⟩ ⟨true, [1], 0⟩ = .ok ⟨false, [5], 0⟩
    ∧ (⟨true, [1], 0⟩ : BigNum).is_pow_ten = some 0
    ∧ BigNum.val ⟨false, [5], 0⟩ / BigNum.val ⟨true, [1], 0⟩ = -5
    ∧ BigNum.val ⟨false, [5], 0⟩ = 5 := by
  refine ⟨rfl, rfl, ?_, ?_⟩ <;> norm_num [BigNum.val, ubVal]

/-- C5 (code bug): comparison is not the order of the denoted numbers:
`partial_cmp(0.5, 0)` returns `Less` — `is_lower` compares the
whole-digit counts `abs.len() - power`, and the canonical zero has one
(fake) whole digit while `0.5` has none — although `0.5 > 0`. Both
operands are canonical. -/
theorem C5_partial_cmp_says_half_below_zero :
    partial_cmp ⟨false, [5], 1⟩ ⟨false, [0], 0⟩ = .lt
    ∧ Canonical ⟨false, [5], 1⟩ ∧ Canonical ⟨false, [0], 0⟩
    ∧ BigNum.val ⟨false, [0], 0⟩ < BigNum.val ⟨false, [5], 1⟩ := by
  refine ⟨by decide, by decide, by decide, ?_⟩
  norm_num [BigNum.val, ubVal]

/-- C6 (code bug): `euclidian(0.5, 0.05)` returns `(0, 0.5)` whatever the
fuel — the loop guard `remainder >= denom` goes through the buggy
`is_lower` (usize wrap of `abs.len() - power`), which claims `0.5 < 0.05`,
so the loop exits at once — and the returned remainder `0.5` violates
`0 ≤ remainder < n2`, since `0.05 < 0.5`. Both operands are canonical,
`n1 ≥ 0` and `n2 > 0`. -/
theorem C6_euclidian_remainder_not_below_divisor : ∀ lf sf : Nat,
    euclidianF lf sf ⟨false, [5], 1⟩ ⟨false, [5], 2⟩
      = .ok (BigNum.zero, ⟨false, [5], 1⟩)
    ∧ BigNum.val ⟨false, [5], 2⟩ < BigNum.val ⟨false, [5], 1⟩ := by
  intro lf sf
  constructor
  · have hguard : is_lower ⟨false, [5], 1⟩ ⟨false, [5], 2⟩ = true := by decide
    cases lf <;> simp [euclidianF, euclidianLoop, hguard, BigNum.is_zero,
      BigNum.is_negative, BigNum.zero]
  · norm_num [BigNum.val, ubVal]

/-- C10: the overloaded `/` operator unwraps `bn_div`'s `Result`, so it
panics (`none`) whenever `bn_div` errors — in particular on a zero
divisor — and consequently `bn_pow(0, p)` panics for every negative odd
`p` (the final step divides by `n = 0`). -/
theorem C10_div_operator_panics_and_pow_panics :
    (∀ n1 n2 : BigNum, (bn_div n1 n2).isOk = false → divOp n1 n2 = none)
    ∧ (∀ p : Int, p < 0 → Int.tmod p 2 ≠ 0 → bn_pow BigNum.zero p = none) := by
  constructor
  · intro n1 n2 h
    unfold divOp
    cases hd : bn_div n1 n2 with
    | ok r => rw [hd] at h; simp [Except.isOk, Except.toBool] at h
    | error e => rfl
  · have htdiv : ∀ p : Int, p ≤ -2 → Int.tdiv p 2 < 0 := by
      intro p hp
      cases p with
      | ofNat k =>
        rw [Int.ofNat_eq_natCast] at hp
        exact absurd hp (by omega)
      | negSucc m =>
        rw [Int.negSucc_eq] at hp
        have hm : 1 ≤ m := by omega
        show Int.tdiv (Int.negSucc m) (Int.ofNat 2) < 0
        simp only [Int.tdiv]
        rw [Int.ofNat_eq_natCast]
        have h2 : 1 ≤ (m + 1) / 2 := by omega
        omega
    have key : ∀ fuel : Nat, ∀ p : Int, p < 0 → bn_powF fuel BigNum.zero p = none := by
      intro fuel
      induction fuel with
      | zero => intro p _; rfl
      | succ fuel ih =>
        intro p hp
        have hp0 : ¬ p = 0 := by omega
        have hp1 : ¬ p = 1 := by omega
        by_cases hpm1 : p = -1
        · -- the recursive call yields `one` (or runs out of fuel), then the
          -- odd-negative branch divides by `n = 0` and the `/` unwrap panics
          subst hpm1
          cases fuel with
          | zero => rfl
          | succ f =>
            have h0 : bn_powF (f + 1) BigNum.zero (Int.tdiv (-1) 2) = some BigNum.one := by
              rw [show Int.tdiv (-1) 2 = 0 by decide]
              rfl
            simp only [bn_powF, h0]
            rfl
        · have hle : p ≤ -2 := by omega
          have hlt := htdiv p hle
          simp only [bn_powF, hp0, hp1, if_false, ih _ hlt]
    intro p hp _
    exact key _ p hp

/-- C3 (counterexample): `bn_div` errors on a nonzero divisor: with the
canonical operands `n1 = 10^(-15)` and `n2 = 12`, the precision padding
leaves the dividend magnitude (1 digit) shorter than the divisor
magnitude (2 digits) and `ub_div`'s `assert_err!` surfaces as
`Err("m can't be negative")`. -/
theorem C3_counterexample_nonzero_divisor_errors :
    Canonical ⟨false, [1], 15⟩ ∧ Canonical ⟨false, [2, 1], 0⟩
    ∧ (⟨false, [2, 1], 0⟩ : BigNum).is_zero = false
    ∧ bn_div ⟨false, [1], 15⟩ ⟨false, [2, 1], 0⟩ = .error "m can't be negative" := by
  refine ⟨by decide, by decide, by decide, rfl⟩

/-- C4 (counterexample): with the canonical operands `n1 = 11 * 10^(-16)`
and `n2 = 3` (nonzero, not a power of ten), `bn_div` returns
`3 * 10^(-16)`, which is not the true quotient truncated to 15 fractional
digits (that truncation is `0`): when `n1.power - n2.power > 15` the
result keeps `n1.power - n2.power` fractional digits. -/
theorem C4_counterexample_sixteen_digit_result :
    Canonical ⟨false, [1, 1], 16⟩ ∧ Canonical ⟨false, [3], 0⟩
    ∧ (⟨false, [3], 0⟩ : BigNum).is_pow_ten = none
    ∧ bn_div ⟨false, [1, 1], 16⟩ ⟨false, [3], 0⟩ = .ok ⟨false, [3], 16⟩
    ∧ truncTo 15 (BigNum.val ⟨false, [1, 1], 16⟩ / BigNum.val ⟨false, [3], 0⟩) = 0
    ∧ BigNum.val ⟨false, [3], 16⟩ ≠ 0 := by
  refine ⟨by decide, by decide, rfl, rfl, ?_, ?_⟩
  · rw [show BigNum.val ⟨false, [1, 1], 16⟩ = 11 / 10 ^ 16 by
      norm_num [BigNum.val, ubVal]]
    rw [show BigNum.val ⟨false, [3], 0⟩ = 3 by norm_num [BigNum.val, ubVal]]
    have harg : (11 : ℚ) / 10 ^ 16 / 3 * 10 ^ 15 = 11 / 30 := by ring
    have hnn : (0 : ℚ) ≤ 11 / 10 ^ 16 / 3 := by positivity
    rw [truncTo, if_pos hnn, harg]
    have hfl : ⌊(11 : ℚ) / 30⌋ = 0 := by
      rw [Int.floor_eq_zero_iff]
      constructor <;> norm_num
    rw [hfl]
    norm_num
  · norm_num [BigNum.val, ubVal]

/-- Witness for C10 at concrete inputs: `1 / 0` panics, and
`bn_pow(0, -3)` panics. -/
theorem C10_witness :
    ((bn_div BigNum.one BigNum.zero).isOk = false ∧ divOp BigNum.one BigNum.zero = none)
    ∧ ((-3 : Int) < 0 ∧ Int.tmod (-3) 2 ≠ 0 ∧ bn_pow BigNum.zero (-3) = none) :=
  ⟨⟨rfl, C10_div_operator_panics_and_pow_panics.1 BigNum.one BigNum.zero rfl⟩,
   ⟨by decide, by decide,
    C10_div_operator_panics_and_pow_panics.2 (-3) (by decide) (by decide)⟩⟩

/-! ## Basic value and digit lemmas -/

theorem ubVal_nil : ubVal [] = 0 := rfl

theorem ubVal_cons (d : Nat) (l : List Nat) :
    ubVal (d :: l) = d + 10 * ubVal l := rfl

theorem ubVal_append (a b : List Nat) :
    ubVal (a ++ b) = ubVal a + 10 ^ a.length * ubVal b := by
  induction a with
  | nil => simp [ubVal_nil]
  | cons d l ih =>
    simp only [List.cons_append, ubVal_cons, ih, List.length_cons, pow_succ]
    ring

theorem ubVal_replicate_zero (k : Nat) :
    ubVal (List.replicate k 0) = 0 := by
  induction k with
  | zero => rfl
  | succ k ih => simpa [List.replicate_succ, ubVal_cons] using ih

theorem ubVal_lt_pow (l : List Nat) (h : AllDigits l) :
    ubVal l < 10 ^ l.length := by
  induction l with
  | nil => simp [ubVal_nil]
  | cons d t ih =>
    have hd : d < 10 := h d (List.mem_cons_self d t)
    have ht : ubVal t < 10 ^ t.length :=
      ih fun x hx => h x (List.mem_cons_of_mem _ hx)
    simp only [ubVal_cons, List.length_cons, pow_succ]
    omega

theorem ubVal_take_add_drop (l : List Nat) (k : Nat) :
    ubVal l = ubVal (l.take k) + 10 ^ (l.take k).length * ubVal (l.drop k) := by
  conv_lhs => rw [← List.take_append_drop k l]
  rw [ubVal_append]

theorem valR_lt_pow (l : List Nat) (h : AllDigits l) :
    valR l < 10 ^ l.length := by
  induction l with
  | nil => simp [valR]
  | cons d t ih =>
    have hd : d < 10 := h d (List.mem_cons_self d t)
    have ht : valR t < 10 ^ t.length :=
      ih fun x hx => h x (List.mem_cons_of_mem _ hx)
    simp only [valR, List.length_cons, pow_succ]
    nlinarith

theorem valR_concat (a : List Nat) (d : Nat) :
    valR (a ++ [d]) = 10 * valR a + d := by
  induction a with
  | nil => simp [valR]
  | cons e r ih =>
    show e * 10 ^ (r ++ [d]).length + valR (r ++ [d])
      = 10 * (e * 10 ^ r.length + valR r) + d
    rw [ih, List.length_append]
    simp only [List.length_cons, List.length_nil, pow_succ, pow_zero, pow_add,
      pow_one]
    ring

theorem valR_reverse (l : List Nat) : valR l.reverse = ubVal l := by
  induction l with
  | nil => rfl
  | cons d t ih =>
    rw [List.reverse_cons, valR_concat, ih, ubVal_cons]
    ring

theorem allDigits_nil : AllDigits [] := fun d hd => absurd hd (List.not_mem_nil d)

theorem allDigits_append {a b : List Nat} :
    AllDigits (a ++ b) ↔ AllDigits a ∧ AllDigits b := by
  constructor
  · intro h
    exact ⟨fun d hd => h d (List.mem_append_left _ hd),
      fun d hd => h d (List.mem_append_right _ hd)⟩
  · rintro ⟨h1, h2⟩ d hd
    rcases List.mem_append.mp hd with hd | hd
    exacts [h1 d hd, h2 d hd]

theorem allDigits_of_sublist {a b : List Nat} (hs : a.Sublist b)
    (h : AllDigits b) : AllDigits a :=
  fun d hd => h d (hs.subset hd)

theorem allDigits_take (l : List Nat) (k : Nat) (h : AllDigits l) :
    AllDigits (l.take k) :=
  allDigits_of_sublist (List.take_sublist k l) h

theorem allDigits_drop (l : List Nat) (k : Nat) (h : AllDigits l) :
    AllDigits (l.drop k) :=
  allDigits_of_sublist (List.drop_sublist k l) h

theorem allDigits_reverse {l : List Nat} :
    AllDigits l.reverse ↔ AllDigits l := by
  constructor <;> intro h d hd
  · exact h d (List.mem_reverse.mpr hd)
  · exact h d (List.mem_reverse.mp hd)

theorem allDigits_replicate_zero (k : Nat) :
    AllDigits (List.replicate k 0) := by
  intro d hd
  rw [List.eq_of_mem_replicate hd]
  omega

/-! ## `ub_clean` lemmas -/

theorem ub_clean_def2 (l : List Nat) : ub_clean l =
    if (l.reverse.dropWhile (· == 0)).isEmpty then (if l.isEmpty then [] else [0])
    else (l.reverse.dropWhile (· == 0)).reverse := rfl

theorem ub_clean_append_replicate (l : List Nat) :
    ∃ k, l = ub_clean l ++ List.replicate k 0 := by
  rw [ub_clean_def2]
  cases hd : l.reverse.dropWhile (· == 0) with
  | nil =>
    simp only [List.isEmpty_nil, if_true]
    have hall' : ∀ x ∈ l, x = 0 := by
      intro x hx
      have := List.dropWhile_eq_nil_iff.mp hd x (List.mem_reverse.mpr hx)
      simpa using this
    have hrep : l = List.replicate l.length 0 := List.eq_replicate_of_mem hall'
    cases l with
    | nil => exact ⟨0, rfl⟩
    | cons a t =>
      simp only [List.isEmpty_cons, Bool.false_eq_true, if_false]
      refine ⟨t.length, ?_⟩
      conv_lhs => rw [hrep]
      simp [List.replicate_succ]
  | cons a t =>
    simp only [List.isEmpty_cons, Bool.false_eq_true, if_false]
    refine ⟨(l.reverse.takeWhile (· == 0)).length, ?_⟩
    have hsplit : l.reverse.takeWhile (· == 0) ++ l.reverse.dropWhile (· == 0)
        = l.reverse := List.takeWhile_append_dropWhile (fun x => x == 0) l.reverse
    have htw : (l.reverse.takeWhile (· == 0)).reverse
        = List.replicate (l.reverse.takeWhile (· == 0)).length 0 := by
      have h1 : ∀ x ∈ (l.reverse.takeWhile (· == 0)).reverse, x = 0 := by
        intro x hx
        have := List.mem_takeWhile_imp (List.mem_reverse.mp hx)
        simpa using this
      calc (l.reverse.takeWhile (· == 0)).reverse
          = List.replicate (l.reverse.takeWhile (· == 0)).reverse.length 0 :=
            List.eq_replicate_of_mem h1
        _ = List.replicate (l.reverse.takeWhile (· == 0)).length 0 := by
            rw [List.length_reverse]
    conv_lhs => rw [← l.reverse_reverse, ← hsplit]
    rw [List.reverse_append, hd, htw]

theorem ubVal_ub_clean (l : List Nat) : ubVal (ub_clean l) = ubVal l := by
  obtain ⟨k, hk⟩ := ub_clean_append_replicate l
  conv_rhs => rw [hk]
  rw [ubVal_append, ubVal_replicate_zero]
  ring

theorem ub_clean_sublist (l : List Nat) : (ub_clean l).Sublist l := by
  obtain ⟨k, hk⟩ := ub_clean_append_replicate l
  conv_rhs => rw [hk]
  exact List.sublist_append_left _ _

theorem allDigits_ub_clean {l : List Nat} (h : AllDigits l) :
    AllDigits (ub_clean l) :=
  allDigits_of_sublist (ub_clean_sublist l) h

theorem ub_clean_length_le (l : List Nat) :
    (ub_clean l).length ≤ l.length := by
  obtain ⟨k, hk⟩ := ub_clean_append_replicate l
  conv_rhs => rw [hk]
  simp

theorem dropWhile_head_not (p : Nat → Bool) {l t : List Nat} {a : Nat}
    (h : l.dropWhile p = a :: t) : p a = false := by
  induction l with
  | nil => simp [List.dropWhile] at h
  | cons x xs ih =>
    rw [List.dropWhile_cons] at h
    by_cases hp : p x = true
    · exact ih (by simpa [hp] using h)
    · simp only [hp, if_false] at h
      cases h
      simpa using hp

theorem ub_clean_eq_self (l : List Nat) (h : l.getLast? ≠ some 0) :
    ub_clean l = l := by
  rw [ub_clean_def2]
  cases hrev : l.reverse with
  | nil =>
    have hnil : l = [] := by simpa using congrArg List.reverse hrev
    subst hnil
    rfl
  | cons a t =>
    have hga : l.getLast? = some a := by
      rw [← List.head?_reverse, hrev]
      rfl
    have ha : (a == 0) = false := by
      cases ha' : a with
      | zero => exact absurd (by rw [hga, ha'] : l.getLast? = some 0) h
      | succ n => simp
    simp only [List.dropWhile_cons, ha, Bool.false_eq_true, if_false,
      List.isEmpty_cons]
    rw [← hrev, List.reverse_reverse]

theorem getLast_ub_clean (l : List Nat) :
    ub_clean l = [] ∨ ub_clean l = [0] ∨ (ub_clean l).getLast? ≠ some 0 := by
  cases hd : l.reverse.dropWhile (· == 0) with
  | nil =>
    cases hl : l.isEmpty
    · refine Or.inr (Or.inl ?_)
      rw [ub_clean_def2, hd]
      rw [if_pos (show ([] : List Nat).isEmpty = true by decide)]
      rw [if_neg (by simp [hl] : ¬ (l.isEmpty = true))]
    · refine Or.inl ?_
      rw [ub_clean_def2, hd]
      rw [if_pos (show ([] : List Nat).isEmpty = true by decide)]
      rw [if_pos hl]
  | cons a t =>
    refine Or.inr (Or.inr ?_)
    rw [ub_clean_def2, hd]
    rw [if_neg (by simp : ¬ ((a :: t : List Nat).isEmpty = true))]
    rw [List.getLast?_reverse]
    have ha : (a == 0) = false := dropWhile_head_not (fun x => x == 0) hd
    simp only [List.head?_cons]
    intro hcontra
    rw [Option.some_inj.mp hcontra] at ha
    simp at ha

theorem isClean_ub_clean (l : List Nat) : IsClean (ub_clean l) := by
  rcases getLast_ub_clean l with h | h | h
  · unfold IsClean
    rw [h]
    rfl
  · unfold IsClean
    rw [h]
    decide
  · exact ub_clean_eq_self _ h

theorem getLast_ne_zero_of_isClean (l : List Nat) (hc : IsClean l)
    (hne : l ≠ []) (hn0 : l ≠ [0]) : l.getLast? ≠ some 0 := by
  rcases getLast_ub_clean l with h | h | h
  · rw [hc] at h; exact absurd h hne
  · rw [hc] at h; exact absurd h hn0
  · rw [hc] at h; exact h

theorem pow_le_ubVal_of_isClean (l : List Nat) (hc : IsClean l)
    (hne : l ≠ []) (hn0 : l ≠ [0]) : 10 ^ (l.length - 1) ≤ ubVal l := by
  have hlast := getLast_ne_zero_of_isClean l hc hne hn0
  cases hrev : l.reverse with
  | nil => exact absurd (by simpa using congrArg List.reverse hrev) hne
  | cons a t =>
    have hl : l = t.reverse ++ [a] := by
      have h2 := congrArg List.reverse hrev
      rw [List.reverse_reverse] at h2
      rw [h2, List.reverse_cons]
    have hga : l.getLast? = some a := by
      rw [← List.head?_reverse, hrev]
      rfl
    have ha : a ≠ 0 := fun h0 => hlast (by rw [hga, h0])
    rw [hl, ubVal_append]
    have hlen : (t.reverse ++ [a]).length - 1 = t.reverse.length := by simp
    rw [hlen]
    have hmul : 10 ^ t.reverse.length * 1 ≤ 10 ^ t.reverse.length * ubVal [a] := by
      apply Nat.mul_le_mul_left
      simp only [ubVal_cons, ubVal_nil]
      omega
    omega

theorem length_le_of_isClean_lt (l : List Nat) (hc : IsClean l)
    (hd : AllDigits l) (k : Nat) (hk : 1 ≤ k) (hv : ubVal l < 10 ^ k) :
    l.length ≤ k := by
  by_cases hne : l = []
  · subst hne; simp only [List.length_nil]; omega
  by_cases hn0 : l = [0]
  · subst hn0; simp only [List.length_cons, List.length_nil]; omega
  have := pow_le_ubVal_of_isClean l hc hne hn0
  have hlt : 10 ^ (l.length - 1) < 10 ^ k := lt_of_le_of_lt this hv
  have := (Nat.pow_lt_pow_iff_right (by omega : 1 < 10)).mp hlt
  omega

/-! ## Comparison lemmas -/

theorem isLowerRev_self (a : List Nat) : isLowerRev a a = false := by
  induction a with
  | nil => rfl
  | cons d t ih => simp [isLowerRev, ih]

theorem isLowerRev_eq_decide (a : List Nat) :
    ∀ b : List Nat, a.length = b.length → AllDigits a → AllDigits b →
    isLowerRev a b = decide (valR a < valR b) := by
  induction a with
  | nil =>
    intro b hlen _ _
    cases b with
    | nil => simp [isLowerRev, valR]
    | cons e s => simp at hlen
  | cons d t ih =>
    intro b hlen ha hb
    cases b with
    | nil => simp at hlen
    | cons e s =>
      simp only [List.length_cons] at hlen
      have hts : t.length = s.length := by omega
      have hat : AllDigits t := fun x hx => ha x (List.mem_cons_of_mem _ hx)
      have has : AllDigits s := fun x hx => hb x (List.mem_cons_of_mem _ hx)
      have hvt : valR t < 10 ^ t.length := valR_lt_pow t hat
      have hvs : valR s < 10 ^ s.length := valR_lt_pow s has
      simp only [isLowerRev, valR, hts]
      by_cases hde : d < e
      · rw [if_pos hde]
        have : d * 10 ^ s.length + valR t < e * 10 ^ s.length + valR s := by
          have h1 : d * 10 ^ s.length + valR t < (d + 1) * 10 ^ s.length := by
            rw [hts] at hvt
            nlinarith
          have h2 : (d + 1) * 10 ^ s.length ≤ e * 10 ^ s.length :=
            Nat.mul_le_mul_right _ (by omega)
          omega
        simp [this]
      · rw [if_neg hde]
        by_cases hed : e < d
        · rw [if_pos hed]
          have : e * 10 ^ s.length + valR s < d * 10 ^ s.length + valR t := by
            have h1 : e * 10 ^ s.length + valR s < (e + 1) * 10 ^ s.length := by
              nlinarith
            have h2 : (e + 1) * 10 ^ s.length ≤ d * 10 ^ s.length :=
              Nat.mul_le_mul_right _ (by omega)
            omega
          simp [Nat.not_lt.mpr (le_of_lt this)]
        · have hde' : d = e := by omega
          subst hde'
          rw [if_neg hed, ih s hts hat has]
          simp

theorem ub_is_lower_eq_decide (u v : List Nat) (hlen : u.length = v.length)
    (hu : AllDigits u) (hv : AllDigits v) :
    ub_is_lower u v = decide (ubVal u < ubVal v) := by
  unfold ub_is_lower
  rw [if_neg (by omega), if_neg (by omega)]
  rw [isLowerRev_eq_decide u.reverse v.reverse (by simp [hlen])
    (allDigits_reverse.mpr hu) (allDigits_reverse.mpr hv),
    valR_reverse, valR_reverse]

/-! ## `ub_add` correctness -/

theorem ubVal_headD_tail (v : List Nat) :
    ubVal v = v.headD 0 + 10 * ubVal v.tail := by
  cases v <;> simp [ubVal_nil, ubVal_cons]

theorem addLoop_spec (u : List Nat) : ∀ (v : List Nat) (k : Nat),
    v.length ≤ u.length → k ≤ 1 → AllDigits u → AllDigits v →
    ubVal (addLoop u v k) = ubVal u + ubVal v + k
    ∧ AllDigits (addLoop u v k) ∧ (addLoop u v k).length = u.length + 1 := by
  induction u with
  | nil =>
    intro v k hlen hk _ _
    have hv : v = [] := List.length_eq_zero.mp (by simpa using hlen)
    subst hv
    refine ⟨by simp [addLoop, ubVal_cons, ubVal_nil], ?_, rfl⟩
    intro d hd
    simp only [addLoop, List.mem_singleton] at hd
    omega
  | cons d us ih =>
    intro v k hlen hk hu hv
    have hd10 : d < 10 := hu d (List.mem_cons_self ..)
    have hus : AllDigits us := fun x hx => hu x (List.mem_cons_of_mem _ hx)
    have hh : v.headD 0 < 10 := by
      cases v with
      | nil => simp
      | cons e vs => exact hv e (List.mem_cons_self ..)
    have htail_len : v.tail.length ≤ us.length := by
      cases v with
      | nil => simp
      | cons e vs => simp only [List.tail_cons, List.length_cons] at hlen ⊢; omega
    have htail_dig : AllDigits v.tail :=
      allDigits_of_sublist (List.tail_sublist v) hv
    have hcar : (d + v.headD 0 + k) / 10 ≤ 1 := by omega
    obtain ⟨ihv, ihd, ihl⟩ := ih v.tail ((d + v.headD 0 + k) / 10)
      htail_len hcar hus htail_dig
    refine ⟨?_, ?_, ?_⟩
    · show (d + v.headD 0 + k) % 10
        + 10 * ubVal (addLoop us v.tail ((d + v.headD 0 + k) / 10))
        = ubVal (d :: us) + ubVal v + k
    -- the carry recombines: t % 10 + 10 * (t / 10) = t
      rw [ihv, ubVal_cons, ubVal_headD_tail v]
      omega
    · intro x hx
      rcases List.mem_cons.mp hx with hx | hx
      · subst hx; omega
      · exact ihd x hx
    · show (addLoop us v.tail _).length + 1 = us.length + 1 + 1
      rw [ihl]

theorem ub_add_go_spec (u v : List Nat) (hlen : v.length ≤ u.length)
    (hu : AllDigits u) (hv : AllDigits v) :
    ubVal (ub_add_go u v) = ubVal u + ubVal v
    ∧ AllDigits (ub_add_go u v) ∧ IsClean (ub_add_go u v) := by
  unfold ub_add_go
  by_cases h1 : u = [0]
  · rw [if_pos h1]
    subst h1
    unfold ub_cleaned
    exact ⟨by rw [ubVal_ub_clean]; simp [ubVal_cons, ubVal_nil],
      allDigits_ub_clean hv, isClean_ub_clean v⟩
  · rw [if_neg h1]
    by_cases h2 : v = [0]
    · rw [if_pos h2]
      subst h2
      unfold ub_cleaned
      exact ⟨by rw [ubVal_ub_clean]; simp [ubVal_cons, ubVal_nil],
        allDigits_ub_clean hu, isClean_ub_clean u⟩
    · rw [if_neg h2]
      obtain ⟨hval, hdig, _⟩ := addLoop_spec u v 0 hlen (by omega) hu hv
      refine ⟨?_, allDigits_ub_clean hdig, isClean_ub_clean _⟩
      rw [ubVal_ub_clean, hval]
      omega


theorem ub_add_spec (u v : List Nat) (hu : AllDigits u) (hv : AllDigits v) :
    ubVal (ub_add u v) = ubVal u + ubVal v
    ∧ AllDigits (ub_add u v) ∧ IsClean (ub_add u v) := by
  unfold ub_add
  by_cases h : u.length < v.length
  · rw [if_pos h]
    obtain ⟨h1, h2, h3⟩ := ub_add_go_spec v u (by omega) hv hu
    exact ⟨by rw [h1]; ring, h2, h3⟩
  · rw [if_neg h]
    exact ub_add_go_spec u v (by omega) hu hv

/-! ## `ub_sub` correctness -/

theorem subLoop_spec (u : List Nat) : ∀ (v : List Nat) (k : Int),
    v.length = u.length → (k = 0 ∨ k = -1) → AllDigits u → AllDigits v →
    ((subLoop u v k).2 = 0 ∨ (subLoop u v k).2 = -1)
    ∧ AllDigits (subLoop u v k).1 ∧ (subLoop u v k).1.length = u.length
    ∧ (ubVal (subLoop u v k).1 : Int)
        = ubVal u - ubVal v + k - (subLoop u v k).2 * 10 ^ u.length := by
  induction u with
  | nil =>
    intro v k hlen hk _ _
    have hv : v = [] := List.length_eq_zero.mp (by simpa using hlen)
    subst hv
    exact ⟨hk, allDigits_nil, rfl, by simp [subLoop, ubVal_nil]⟩
  | cons d us ih =>
    intro v k hlen hk hu hv
    have hd10 : d < 10 := hu d (List.mem_cons_self ..)
    have hus : AllDigits us := fun x hx => hu x (List.mem_cons_of_mem _ hx)
    have hh : v.headD 0 < 10 := by
      cases v with
      | nil => simp
      | cons e vs => exact hv e (List.mem_cons_self ..)
    have htail_len : v.tail.length = us.length := by
      cases v with
      | nil => simp at hlen
      | cons e vs => simp only [List.tail_cons, List.length_cons] at hlen ⊢; omega
    have htail_dig : AllDigits v.tail :=
      allDigits_of_sublist (List.tail_sublist v) hv
    set t : Int := (d : Int) - (v.headD 0 : Int) + k with ht
    have hknew : (if t < 0 then (-1 : Int) else 0) = 0
        ∨ (if t < 0 then (-1 : Int) else 0) = -1 := by
      by_cases h : t < 0 <;> simp [h]
    obtain ⟨ihk, ihd, ihl, ihv⟩ := ih v.tail (if t < 0 then -1 else 0)
      htail_len hknew hus htail_dig
    have hstep : (subLoop (d :: us) v k).1
        = (t.emod 10).toNat :: (subLoop us v.tail (if t < 0 then -1 else 0)).1
        ∧ (subLoop (d :: us) v k).2
        = (subLoop us v.tail (if t < 0 then -1 else 0)).2 := ⟨rfl, rfl⟩
    rw [hstep.1, hstep.2]
    clear_value t
    have htrange : -10 ≤ t ∧ t ≤ 9 := by
      constructor <;> rcases hk with hk | hk <;> rw [hk] at ht <;> omega
    have hme : t.emod 10 = t % 10 := rfl
    rw [hme]
    have hdigit : (t % 10).toNat < 10 := by omega
    refine ⟨ihk, ?_, by simp [ihl], ?_⟩
    · intro x hx
      rcases List.mem_cons.mp hx with hx | hx
      · subst hx; exact hdigit
      · exact ihd x hx
    · -- `t = t % 10 - 10 * borrow` with borrow as computed
      have h1 : (ubVal ((t % 10).toNat
          :: (subLoop us v.tail (if t < 0 then -1 else 0)).1) : Int)
          = t % 10
            + 10 * ubVal (subLoop us v.tail (if t < 0 then -1 else 0)).1 := by
        rw [ubVal_cons]
        omega
      rw [h1, ihv]
      have h2 : (ubVal (d :: us) : Int) = d + 10 * ubVal us := by
        rw [ubVal_cons]; push_cast; ring
      have h3 : (ubVal v : Int) = v.headD 0 + 10 * ubVal v.tail := by
        rw [ubVal_headD_tail v]; push_cast; ring
      rw [h2, h3]
      have hsplit : (t % 10 : Int)
          = t + 10 * (if t < 0 then (1 : Int) else 0) := by
        by_cases hneg : t < 0
        · rw [if_pos hneg]; omega
        · rw [if_neg hneg]; omega
      rw [hsplit]
      simp only [List.length_cons, pow_succ]
      by_cases hneg : t < 0
      · simp only [if_pos hneg]
        rw [ht]
        ring
      · simp only [if_neg hneg]
        rw [ht]
        ring

theorem ub_sub_spec (u v : List Nat) (hlen : u.length = v.length)
    (hu : AllDigits u) (hv : AllDigits v) (hge : ubVal v ≤ ubVal u) :
    ∃ w, ub_sub u v = .ok w ∧ ubVal w = ubVal u - ubVal v
      ∧ AllDigits w ∧ w.length = u.length := by
  unfold ub_sub
  rw [if_neg (by omega : ¬ u.length ≠ v.length)]
  by_cases h0 : v = [0]
  · rw [if_pos h0]
    subst h0
    exact ⟨u, rfl, by simp [ubVal_cons, ubVal_nil], hu, rfl⟩
  · rw [if_neg h0]
    obtain ⟨hk, hdig, hl, hval⟩ := subLoop_spec u v 0 (by omega) (Or.inl rfl) hu hv
    have hwlt : (ubVal (subLoop u v 0).1 : Int) < 10 ^ u.length := by
      have := ubVal_lt_pow _ hdig
      rw [hl] at this
      exact_mod_cast this
    have hkz : (subLoop u v 0).2 = 0 := by
      rcases hk with hk | hk
      · exact hk
      · exfalso
        rw [hk] at hval
        omega
    rw [if_neg (by rw [hkz]; omega)]
    refine ⟨(subLoop u v 0).1, rfl, ?_, hdig, hl⟩
    rw [hkz] at hval
    have : (ubVal (subLoop u v 0).1 : Int) = (ubVal u : Int) - ubVal v := by
      rw [hval]; ring
    omega

/-! ## `ub_mul` by a single factor -/

theorem mulRow_spec (u : List Nat) : ∀ (ws : List Nat) (q k : Nat),
    AllDigits u → AllDigits ws → k ≤ q →
    ∃ body c, mulRow u ws q k = body ++ [c] ∧ body.length = u.length
      ∧ AllDigits body ∧ c ≤ q
      ∧ ubVal (body ++ [c]) = q * ubVal u + ubVal (ws.take u.length) + k := by
  induction u with
  | nil =>
    intro ws q k _ _ hk
    exact ⟨[], k, rfl, rfl, allDigits_nil,
      hk, by simp [ubVal_cons, ubVal_nil]⟩
  | cons d us ih =>
    intro ws q k hu hws hk
    have hd10 : d < 10 := hu d (List.mem_cons_self ..)
    have hus : AllDigits us := fun x hx => hu x (List.mem_cons_of_mem _ hx)
    have hw0 : ws.headD 0 < 10 := by
      cases ws with
      | nil => simp
      | cons e rest => exact hws e (List.mem_cons_self ..)
    have hwt : AllDigits ws.tail :=
      allDigits_of_sublist (List.tail_sublist ws) hws
    have hknew : (d * q + ws.headD 0 + k) / 10 ≤ q := by
      have h1 : d * q ≤ 9 * q := Nat.mul_le_mul_right q (by omega)
      omega
    obtain ⟨body, c, heq, hblen, hbdig, hc, hval⟩ :=
      ih ws.tail q ((d * q + ws.headD 0 + k) / 10) hus hwt hknew
    refine ⟨(d * q + ws.headD 0 + k) % 10 :: body, c, ?_, by simp [hblen], ?_,
      hc, ?_⟩
    · show (d * q + ws.headD 0 + k) % 10 :: mulRow us ws.tail q _ = _
      rw [heq]
      rfl
    · intro x hx
      rcases List.mem_cons.mp hx with hx | hx
      · subst hx; omega
      · exact hbdig x hx
    · show (d * q + ws.headD 0 + k) % 10 + 10 * ubVal (body ++ [c]) = _
      simp only [List.length_cons]
      rw [hval, ubVal_cons]
      have hwsplit : ubVal (ws.take (us.length + 1))
          = ws.headD 0 + 10 * ubVal (ws.tail.take us.length) := by
        cases ws with
        | nil => simp [ubVal_nil]
        | cons e rest => simp [List.take_cons, ubVal_cons]
      rw [hwsplit]
      have hcomm : d * q = q * d := Nat.mul_comm d q
      have hmul : q * (d + 10 * ubVal us) = q * d + 10 * (q * ubVal us) := by ring
      omega

theorem ub_mul_single (v : List Nat) (q : Nat) (hv : AllDigits v)
    (hcv : IsClean v) (hlen : 2 ≤ v.length)
    (hbound : q * ubVal v < 10 ^ (v.length + 1)) :
    ubVal (ub_mul v [q]) = q * ubVal v
    ∧ AllDigits (ub_mul v [q]) ∧ IsClean (ub_mul v [q])
    ∧ (ub_mul v [q]).length ≤ v.length + 1 := by
  have hmain : ub_mul v [q] = ub_mul_go v [q] := by
    unfold ub_mul
    rw [if_neg (by simp only [List.length_cons, List.length_nil]; omega)]
  rw [hmain]
  unfold ub_mul_go
  by_cases hq1 : q = 1
  · subst hq1
    rw [if_pos rfl]
    exact ⟨by ring, hv, hcv, by omega⟩
  · rw [if_neg (by simpa using hq1)]
    rw [if_neg (by intro h; subst h; simp at hlen)]
    by_cases hq0 : q = 0
    · subst hq0
      rw [if_pos (Or.inr rfl)]
      refine ⟨by simp [ubVal_cons, ubVal_nil], ?_, by unfold IsClean; rfl,
        by simp only [List.length_cons, List.length_nil]; omega⟩
      intro x hx
      simp only [List.mem_singleton] at hx
      omega
    · have hv0 : v ≠ [0] := by intro h; subst h; simp at hlen
      rw [if_neg (by simp [hv0, hq0])]
      -- the loop over the single digit `q` is one `mulRow` pass
      have hloop : mulLoop v [q] 0
          (List.replicate (v.length + [q].length) 0)
          = mulRow v (List.replicate (v.length + 1) 0) q 0 := by
        show mulLoop v [q] 0 (List.replicate (v.length + 1) 0) = _
        simp only [mulLoop, if_neg hq0]
        rw [List.take_zero, List.drop_zero, List.nil_append, Nat.zero_add,
          List.drop_replicate]
        simp [mulLoop]
      rw [hloop]
      obtain ⟨body, c, heq, hblen, hbdig, hc, hval⟩ :=
        mulRow_spec v (List.replicate (v.length + 1) 0) q 0 hv
          (allDigits_replicate_zero _) (by omega)
      have hvtake : ubVal ((List.replicate (v.length + 1) 0).take v.length)
          = 0 := by
        rw [List.take_replicate, ubVal_replicate_zero]
      rw [hvtake] at hval
      have hvall : ubVal (mulRow v (List.replicate (v.length + 1) 0) q 0)
          = q * ubVal v := by rw [heq, hval]; omega
      have hcd : c < 10 := by
        by_contra hcd
        push_neg at hcd
        have h1 : 10 * 10 ^ body.length ≤ c * 10 ^ body.length :=
          Nat.mul_le_mul_right _ hcd
        have h2 : ubVal (body ++ [c]) = ubVal body + 10 ^ body.length * c := by
          rw [ubVal_append]
          simp [ubVal_cons, ubVal_nil]
        have e1 : 10 ^ body.length * c = c * 10 ^ body.length := Nat.mul_comm _ _
        have e2 : 10 ^ (v.length + 1) = 10 * 10 ^ v.length := by ring
        rw [hblen] at h1 h2 e1
        omega
      have hall : AllDigits (mulRow v (List.replicate (v.length + 1) 0) q 0) := by
        rw [heq]
        rw [allDigits_append]
        refine ⟨hbdig, ?_⟩
        intro x hx
        simp only [List.mem_singleton] at hx
        omega
      refine ⟨by rw [ubVal_ub_clean, hvall], allDigits_ub_clean hall,
        isClean_ub_clean _, ?_⟩
      apply length_le_of_isClean_lt _ (isClean_ub_clean _)
        (allDigits_ub_clean hall) _ (by omega)
      rw [ubVal_ub_clean, hvall]
      exact hbound

/-! ## `ub_shortdiv` correctness -/

theorem ubVal_reverse_eq_valR (l : List Nat) : ubVal l.reverse = valR l := by
  have := valR_reverse l.reverse
  rw [List.reverse_reverse] at this
  omega

theorem shortDivLoop_spec (v : Nat) (hv : 2 ≤ v) (hv9 : v ≤ 9) :
    ∀ (a : List Nat) (r : Nat), r < v → AllDigits a →
    (shortDivLoop v a r).1.length = a.length
    ∧ AllDigits (shortDivLoop v a r).1
    ∧ valR (shortDivLoop v a r).1 = (r * 10 ^ a.length + valR a) / v
    ∧ (shortDivLoop v a r).2 = (r * 10 ^ a.length + valR a) % v := by
  intro a
  induction a with
  | nil =>
    intro r hr _
    refine ⟨rfl, allDigits_nil, ?_, ?_⟩
    · show valR ([] : List Nat) = (r * 10 ^ 0 + valR []) / v
      simp only [valR, pow_zero, Nat.mul_one, Nat.add_zero]
      exact (Nat.div_eq_of_lt hr).symm
    · show r = (r * 10 ^ 0 + valR []) % v
      simp only [valR, pow_zero, Nat.mul_one, Nat.add_zero]
      exact (Nat.mod_eq_of_lt hr).symm
  | cons d rest ih =>
    intro r hr ha
    have hd10 : d < 10 := ha d (List.mem_cons_self ..)
    have hrest : AllDigits rest := fun x hx => ha x (List.mem_cons_of_mem _ hx)
    have hx10v : r * 10 + d < 10 * v := by omega
    have hxmod : (r * 10 + d) % v < v := Nat.mod_lt _ (by omega)
    obtain ⟨ihl, ihd, ihq, ihr⟩ := ih ((r * 10 + d) % v) hxmod hrest
    have hstep1 : (shortDivLoop v (d :: rest) r).1
        = (r * 10 + d) / v :: (shortDivLoop v rest ((r * 10 + d) % v)).1 := rfl
    have hstep2 : (shortDivLoop v (d :: rest) r).2
        = (shortDivLoop v rest ((r * 10 + d) % v)).2 := rfl
    have hT : r * 10 ^ (d :: rest).length + valR (d :: rest)
        = ((r * 10 + d) / v) * v * 10 ^ rest.length
          + ((r * 10 + d) % v * 10 ^ rest.length + valR rest) := by
      simp only [List.length_cons, valR, pow_succ]
      have hdm := Nat.div_add_mod (r * 10 + d) v
      calc r * (10 ^ rest.length * 10) + (d * 10 ^ rest.length + valR rest)
          = (r * 10 + d) * 10 ^ rest.length + valR rest := by ring
        _ = (v * ((r * 10 + d) / v) + (r * 10 + d) % v) * 10 ^ rest.length
            + valR rest := by rw [hdm]
        _ = (r * 10 + d) / v * v * 10 ^ rest.length
            + ((r * 10 + d) % v * 10 ^ rest.length + valR rest) := by ring
    refine ⟨by rw [hstep1]; simp [ihl], ?_, ?_, ?_⟩
    · intro x hx
      rw [hstep1] at hx
      rcases List.mem_cons.mp hx with hx | hx
      · subst hx
        have h0v : 0 < v := by omega
        have hlt := (Nat.div_lt_iff_lt_mul h0v).mpr
          (show r * 10 + d < 10 * v by omega)
        omega
      · exact ihd x hx
    · rw [hstep1]
      show ((r * 10 + d) / v) * 10 ^ _ + valR _ = _
      rw [ihq, hT]
      rw [Nat.mul_comm ((r * 10 + d) / v) v, Nat.mul_assoc,
        Nat.mul_add_div (by omega : 0 < v)]
      congr 1
      rw [ihl]
    · rw [hstep2, ihr, hT]
      rw [Nat.mul_comm ((r * 10 + d) / v) v, Nat.mul_assoc,
        Nat.mul_add_mod]

theorem ub_shortdiv_spec (u : List Nat) (v : Nat) (hv1 : 1 ≤ v) (hv9 : v ≤ 9)
    (hu : AllDigits u) :
    ∃ q r, ub_shortdiv u v = .ok (q, r) ∧ ubVal q = ubVal u / v
      ∧ r = ubVal u % v ∧ IsClean q ∧ AllDigits q := by
  unfold ub_shortdiv
  rw [if_neg (by omega : ¬ v = 0)]
  by_cases hv1' : v = 1
  · rw [if_pos hv1']
    subst hv1'
    unfold ub_cleaned
    exact ⟨ub_clean u, 0, rfl, by rw [ubVal_ub_clean]; omega, by omega,
      isClean_ub_clean u, allDigits_ub_clean hu⟩
  · rw [if_neg hv1']
    obtain ⟨hl, hd, hq, hr⟩ := shortDivLoop_spec v (by omega) hv9 u.reverse 0
      (by omega) (allDigits_reverse.mpr hu)
    refine ⟨_, _, rfl, ?_, ?_, isClean_ub_clean _, allDigits_ub_clean ?_⟩
    · rw [ubVal_ub_clean, ubVal_reverse_eq_valR, hq, valR_reverse,
        Nat.zero_mul, Nat.zero_add]
    · rw [hr, valR_reverse, Nat.zero_mul, Nat.zero_add]
    · exact allDigits_reverse.mpr hd

/-! ## The trial-digit correction loop: Knuth's bound

`correct` receives the initial estimate `top2 / v1` and keeps decrementing
while the classic test fires. With the divisor normalised (`5 ≤ v1`) and
the current slice below `10 * V`, the result is `q` or `q + 1`, where
`q = S / V` is the true quotient digit. The quantities are abstracted:
`V = vlow + (v2 + 10 v1) 10^e` (top two divisor digits), and
`S = low2 + (u3 + 10 top2) 10^e` (top three slice digits). -/

theorem correct_spec (v1 v2 u3 top2 low2 vlow e S V : Nat)
    (hv1 : 5 ≤ v1) (hv1d : v1 ≤ 9) (hv2 : v2 ≤ 9) (hu3 : u3 ≤ 9)
    (hV : V = vlow + (v2 + 10 * v1) * 10 ^ e) (hvlow : vlow < 10 ^ e)
    (hS : S = low2 + (u3 + 10 * top2) * 10 ^ e) (hlow2 : low2 < 10 ^ e)
    (hSV : S < 10 * V) :
    ∀ qe re, qe * v1 + re = top2 → S / V ≤ qe →
      S / V ≤ correct v1 v2 u3 qe re ∧ correct v1 v2 u3 qe re ≤ S / V + 1 := by
  have hppos : 0 < 10 ^ e := Nat.pos_pow_of_pos e (by omega)
  have hVpos : 0 < V := by
    rw [hV]
    have : 1 * 10 ^ e ≤ (v2 + 10 * v1) * 10 ^ e :=
      Nat.mul_le_mul_right _ (by omega)
    omega
  have hq9 : S / V ≤ 9 := by
    have := (Nat.div_lt_iff_lt_mul hVpos).mpr (by omega : S < 10 * V)
    omega
  have hlt : S < (S / V + 1) * V := by
    have hdm := Nat.div_add_mod S V
    have hmod : S % V < V := Nat.mod_lt _ hVpos
    have he : (S / V + 1) * V = V * (S / V) + V := by ring
    omega
  -- the divisor's and slice's two/three-digit bracketing
  have hVlo : (v2 + 10 * v1) * 10 ^ e ≤ V := by omega
  have hVhi : V < (v2 + 10 * v1 + 1) * 10 ^ e := by
    have : (v2 + 10 * v1 + 1) * 10 ^ e = (v2 + 10 * v1) * 10 ^ e + 10 ^ e := by
      ring
    omega
  have hSlo : (u3 + 10 * top2) * 10 ^ e ≤ S := by omega
  have hShi : S < (u3 + 10 * top2 + 1) * 10 ^ e := by
    have : (u3 + 10 * top2 + 1) * 10 ^ e = (u3 + 10 * top2) * 10 ^ e + 10 ^ e := by
      ring
    omega
  -- any candidate `w` with `w * B ≤ A` is at most `q + 1`
  have hupp : ∀ w, w * (v2 + 10 * v1) ≤ u3 + 10 * top2 → w ≤ S / V + 1 := by
    intro w hw
    by_contra hcon
    push_neg at hcon
    have hA : (u3 + 10 * top2) * 10 ^ e < ((S / V + 1) * (v2 + 10 * v1 + 1)) * 10 ^ e := by
      calc (u3 + 10 * top2) * 10 ^ e ≤ S := hSlo
        _ < (S / V + 1) * V := hlt
        _ ≤ (S / V + 1) * ((v2 + 10 * v1 + 1) * 10 ^ e) := by
            apply Nat.mul_le_mul_left
            omega
        _ = ((S / V + 1) * (v2 + 10 * v1 + 1)) * 10 ^ e := by ring
    have hA2 : u3 + 10 * top2 < (S / V + 1) * (v2 + 10 * v1 + 1) :=
      Nat.lt_of_mul_lt_mul_right hA
    have hexp : (S / V + 1) * (v2 + 10 * v1 + 1)
        = (S / V + 1) * (v2 + 10 * v1) + (S / V + 1) := by ring
    have hwge : (S / V + 2) * (v2 + 10 * v1) ≤ w * (v2 + 10 * v1) :=
      Nat.mul_le_mul_right _ (by omega)
    have hexp2 : (S / V + 2) * (v2 + 10 * v1)
        = (S / V + 1) * (v2 + 10 * v1) + (v2 + 10 * v1) := by ring
    omega
  -- a failing test means the candidate is still too big: `w * V > S`
  have hlow : ∀ w re, w * v1 + re = top2 → 10 * re + u3 < w * v2 →
      S / V < w := by
    intro w re hinv htest
    have hwB : u3 + 10 * top2 + 1 ≤ w * (v2 + 10 * v1) := by
      have hexp : w * (v2 + 10 * v1) = w * v2 + 10 * (w * v1) := by ring
      omega
    have hS_lt : S < (w * (v2 + 10 * v1)) * 10 ^ e := by
      have h1 : (u3 + 10 * top2 + 1) * 10 ^ e ≤ (w * (v2 + 10 * v1)) * 10 ^ e :=
        Nat.mul_le_mul_right _ hwB
      omega
    have hS_ltV : S < w * V := by
      have h2 : (w * (v2 + 10 * v1)) * 10 ^ e ≤ w * V := by
        have := Nat.mul_le_mul_left w hVlo
        calc (w * (v2 + 10 * v1)) * 10 ^ e
            = w * ((v2 + 10 * v1) * 10 ^ e) := by ring
          _ ≤ w * V := Nat.mul_le_mul_left w hVlo
      omega
    exact (Nat.div_lt_iff_lt_mul hVpos).mpr hS_ltV
  intro qe
  induction qe with
  | zero =>
    intro re _ hq
    refine ⟨?_, ?_⟩ <;> show _ ≤ _
    · simpa [correct] using hq
    · simp [correct]
  | succ qe ih =>
    intro re hinv hq
    show S / V ≤ correct v1 v2 u3 (qe + 1) re
      ∧ correct v1 v2 u3 (qe + 1) re ≤ S / V + 1
    rw [correct]
    by_cases hg : qe + 1 = 10 ∨ (qe + 1) * v2 > 10 * re + u3
    · rw [if_pos hg]
      -- the candidate was too big, so `q ≤ qe`
      have hqle : S / V ≤ qe := by
        rcases hg with hg | hg
        · omega
        · have := hlow (qe + 1) re hinv hg
          omega
      by_cases hr10 : re + v1 ≥ 10
      · rw [if_pos hr10]
        refine ⟨hqle, ?_⟩
        -- on this exit `qe ≤ 9` (else the slice would exceed `10 V`) and
        -- the test inequality transfers to the decremented candidate
        have hinv' : qe * v1 + (re + v1) = top2 := by
          have : (qe + 1) * v1 = qe * v1 + v1 := by ring
          omega
        have hqe9 : qe ≤ 9 := by
          by_contra hbig
          push_neg at hbig
          have htop : 10 * (v1 + 1) ≤ top2 := by
            have h1 : 10 * v1 ≤ qe * v1 := Nat.mul_le_mul_right _ (by omega)
            omega
          have hS10V : 10 * V < S := by
            have h1 : (10 * (v1 + 1)) * 10 ≤ 10 * top2 := by omega
            have h2 : V < (v2 + 10 * v1 + 1) * 10 ^ e := hVhi
            have h3 : (v2 + 10 * v1 + 1) ≤ 10 * (v1 + 1) := by omega
            have h4 : V < (10 * (v1 + 1)) * 10 ^ e := by
              have := Nat.mul_le_mul_right (10 ^ e) h3
              omega
            have h5 : (10 * (10 * (v1 + 1))) * 10 ^ e
                = 10 * ((10 * (v1 + 1)) * 10 ^ e) := by ring
            have h5' : 10 * V < (10 * (10 * (v1 + 1))) * 10 ^ e := by omega
            have h6 : (10 * (10 * (v1 + 1))) * 10 ^ e ≤ (u3 + 10 * top2) * 10 ^ e := by
              apply Nat.mul_le_mul_right
              omega
            omega
          omega
        have htest : qe * v2 ≤ 10 * (re + v1) + u3 := by
          have h1 : qe * v2 ≤ 9 * 9 := Nat.mul_le_mul hqe9 hv2
          omega
        apply hupp
        have hexp : qe * (v2 + 10 * v1) = qe * v2 + 10 * (qe * v1) := by ring
        omega
      · rw [if_neg hr10]
        refine ih (re + v1) ?_ hqle
        have hx : (qe + 1) * v1 = qe * v1 + v1 := by ring
        omega
    · rw [if_neg hg]
      push_neg at hg
      refine ⟨hq, ?_⟩
      apply hupp
      have hexp : (qe + 1) * (v2 + 10 * v1) = (qe + 1) * v2 + 10 * ((qe + 1) * v1) := by
        ring
      omega

/-- The initial estimate `top2 / v1` is at least the true digit `S / V`. -/
theorem initial_estimate_ge (v1 v2 u3 top2 low2 vlow e S V : Nat)
    (hv1 : 1 ≤ v1) (hu3 : u3 ≤ 9)
    (hV : V = vlow + (v2 + 10 * v1) * 10 ^ e) (hvlow : vlow < 10 ^ e)
    (hS : S = low2 + (u3 + 10 * top2) * 10 ^ e) (hlow2 : low2 < 10 ^ e) :
    S / V ≤ top2 / v1 := by
  have hppos : 0 < 10 ^ e := Nat.pos_pow_of_pos e (by omega)
  have hVpos : 0 < V := by
    rw [hV]
    have : 1 * 10 ^ e ≤ (v2 + 10 * v1) * 10 ^ e :=
      Nat.mul_le_mul_right _ (by omega)
    omega
  -- `S < (top2+1) * 10^(e+1)` and `v1 * 10^(e+1) ≤ V`
  have hShi : S < (top2 + 1) * (10 ^ e * 10) := by
    have h1 : low2 + u3 * 10 ^ e < 10 ^ e * 10 := by
      have : u3 * 10 ^ e ≤ 9 * 10 ^ e := Nat.mul_le_mul_right _ hu3
      omega
    have h2 : S = low2 + u3 * 10 ^ e + top2 * (10 ^ e * 10) := by
      rw [hS]; ring
    have h3 : (top2 + 1) * (10 ^ e * 10) = top2 * (10 ^ e * 10) + 10 ^ e * 10 := by
      ring
    omega
  have hVlo : v1 * (10 ^ e * 10) ≤ V := by
    have h1 : v1 * (10 ^ e * 10) ≤ (v2 + 10 * v1) * 10 ^ e := by
      have : v1 * (10 ^ e * 10) = (10 * v1) * 10 ^ e := by ring
      rw [this]
      exact Nat.mul_le_mul_right _ (by omega)
    omega
  -- hence `q * v1 ≤ top2`
  have hqv1 : S / V * v1 ≤ top2 := by
    by_contra hcon
    push_neg at hcon
    have h1 : (top2 + 1) ≤ S / V * v1 := hcon
    have h2 : S / V * V ≤ S := by
      have := Nat.div_mul_le_self S V
      omega
    have h3 : (top2 + 1) * (10 ^ e * 10) ≤ (S / V * v1) * (10 ^ e * 10) :=
      Nat.mul_le_mul_right _ h1
    have h4 : (S / V * v1) * (10 ^ e * 10) = S / V * (v1 * (10 ^ e * 10)) := by
      ring
    have h5 : S / V * (v1 * (10 ^ e * 10)) ≤ S / V * V :=
      Nat.mul_le_mul_left _ hVlo
    omega
  exact (Nat.le_div_iff_mul_le (by omega : 0 < v1)).mpr hqv1

/-! ## Digit access and slice decomposition lemmas for Algorithm D -/

theorem getD_drop (l : List Nat) (j i : Nat) :
    (l.drop j).getD i 0 = l.getD (j + i) 0 := by
  rw [List.getD_eq_getElem?_getD, List.getD_eq_getElem?_getD,
    List.getElem?_drop]

theorem getD_take (l : List Nat) (k i : Nat) (h : i < k) :
    (l.take k).getD i 0 = l.getD i 0 := by
  rw [List.getD_eq_getElem?_getD, List.getD_eq_getElem?_getD,
    List.getElem?_take, if_pos h]

theorem slice_getD (u : List Nat) (j k i : Nat) (hik : i < k) :
    ((u.drop j).take k).getD i 0 = u.getD (j + i) 0 := by
  rw [getD_take _ _ _ hik, getD_drop]

theorem getD_lt_ten {l : List Nat} (h : AllDigits l) (i : Nat) :
    l.getD i 0 < 10 := by
  rw [List.getD_eq_getElem?_getD]
  cases hq : l[i]? with
  | none => simp
  | some d =>
    simpa using h d (List.getElem?_mem hq)

theorem drop_eq_getD_cons (l : List Nat) (i : Nat) (h : i < l.length) :
    l.drop i = l.getD i 0 :: l.drop (i + 1) := by
  rw [List.drop_eq_getElem_cons h, List.getD_eq_getElem?_getD,
    List.getElem?_eq_getElem h]
  rfl

theorem take_succ_getD (l : List Nat) (n : Nat) (h : n < l.length) :
    l.take (n + 1) = l.take n ++ [l.getD n 0] := by
  rw [List.take_succ, List.getElem?_eq_getElem h, List.getD_eq_getElem?_getD,
    List.getElem?_eq_getElem h]
  rfl

theorem getLast?_eq_getD (l : List Nat) (h : l ≠ []) :
    l.getLast? = some (l.getD (l.length - 1) 0) := by
  have hl : l.length - 1 < l.length := by
    cases l with
    | nil => exact absurd rfl h
    | cons a t => simp
  rw [List.getLast?_eq_getElem?, List.getD_eq_getElem?_getD,
    List.getElem?_eq_getElem hl]
  rfl

theorem ubVal_take_mod (l : List Nat) (k : Nat) (h : AllDigits l) :
    ubVal (l.take k) = ubVal l % 10 ^ k := by
  by_cases hk : k ≤ l.length
  · have hlen : (l.take k).length = k := by
      rw [List.length_take]; omega
    have hlt : ubVal (l.take k) < 10 ^ k := by
      have := ubVal_lt_pow (l.take k) (allDigits_take l k h)
      rwa [hlen] at this
    have hdecomp := ubVal_take_add_drop l k
    rw [hlen, Nat.mul_comm] at hdecomp
    rw [hdecomp, Nat.add_mul_mod_self_right, Nat.mod_eq_of_lt hlt]
  · rw [List.take_of_length_le (by omega)]
    have hv := ubVal_lt_pow l h
    have hle : (10 : Nat) ^ l.length ≤ 10 ^ k :=
      Nat.pow_le_pow_right (by omega) (by omega)
    rw [Nat.mod_eq_of_lt (by omega)]

theorem ubVal_decomp2 (s : List Nat) (e : Nat) (hlen : s.length = e + 2) :
    ubVal s = ubVal (s.take e)
      + (s.getD e 0 + 10 * s.getD (e + 1) 0) * 10 ^ e := by
  have h0 : e < s.length := by omega
  have h1 : e + 1 < s.length := by omega
  have hd : s.drop (e + 1 + 1) = [] := List.drop_eq_nil_of_le (by omega)
  have key := ubVal_take_add_drop s e
  rw [drop_eq_getD_cons s e h0, drop_eq_getD_cons s (e + 1) h1, hd] at key
  have hlt2 : (s.take e).length = e := by
    rw [List.length_take]; omega
  rw [hlt2] at key
  rw [key]
  simp only [ubVal_cons, ubVal_nil]
  ring

theorem ubVal_decomp3 (s : List Nat) (e : Nat) (hlen : s.length = e + 3) :
    ubVal s = ubVal (s.take e)
      + (s.getD e 0 + 10 * (s.getD (e + 1) 0 + 10 * s.getD (e + 2) 0))
        * 10 ^ e := by
  have h0 : e < s.length := by omega
  have h1 : e + 1 < s.length := by omega
  have h2 : e + 1 + 1 < s.length := by omega
  have hd : s.drop (e + 1 + 1 + 1) = [] := List.drop_eq_nil_of_le (by omega)
  have key := ubVal_take_add_drop s e
  rw [drop_eq_getD_cons s e h0, drop_eq_getD_cons s (e + 1) h1,
    drop_eq_getD_cons s (e + 1 + 1) h2, hd] at key
  have hlt2 : (s.take e).length = e := by
    rw [List.length_take]; omega
  rw [hlt2] at key
  rw [key]
  have he : s.getD (e + 1 + 1) 0 = s.getD (e + 2) 0 := by
    have : e + 1 + 1 = e + 2 := by omega
    rw [this]
  rw [he]
  simp only [ubVal_cons, ubVal_nil]
  ring

theorem resize_of_le (l : List Nat) (k : Nat) (h : l.length ≤ k) :
    resize l k = l ++ List.replicate (k - l.length) 0 := by
  unfold resize
  rw [List.take_of_length_le h]

theorem resize_spec (l : List Nat) (k : Nat) (h : l.length ≤ k) :
    ubVal (resize l k) = ubVal l ∧ (resize l k).length = k
      ∧ (AllDigits l → AllDigits (resize l k)) := by
  rw [resize_of_le l k h]
  refine ⟨?_, ?_, ?_⟩
  · rw [ubVal_append, ubVal_replicate_zero]; ring
  · rw [List.length_append, List.length_replicate]; omega
  · intro hd
    exact allDigits_append.mpr ⟨hd, allDigits_replicate_zero _⟩

theorem ubVal_top_digit (l : List Nat) (h : AllDigits l) (hne : l ≠ []) :
    l.getD (l.length - 1) 0 * 10 ^ (l.length - 1) ≤ ubVal l
    ∧ ubVal l < (l.getD (l.length - 1) 0 + 1) * 10 ^ (l.length - 1) := by
  have h0 : l.length - 1 < l.length := by
    cases l with
    | nil => exact absurd rfl hne
    | cons a t => simp
  have hd : l.drop (l.length - 1 + 1) = [] := List.drop_eq_nil_of_le (by omega)
  have key := ubVal_take_add_drop l (l.length - 1)
  rw [drop_eq_getD_cons l _ h0, hd] at key
  have hlt2 : (l.take (l.length - 1)).length = l.length - 1 := by
    rw [List.length_take]; omega
  rw [hlt2] at key
  have hlow : ubVal (l.take (l.length - 1)) < 10 ^ (l.length - 1) := by
    have := ubVal_lt_pow (l.take (l.length - 1)) (allDigits_take l _ h)
    rwa [hlt2] at this
  rw [key]
  simp only [ubVal_cons, ubVal_nil]
  have hb : l.getD (l.length - 1) 0 * 10 ^ (l.length - 1)
      = 10 ^ (l.length - 1) * (l.getD (l.length - 1) 0 + 10 * 0) := by ring
  have hc : (l.getD (l.length - 1) 0 + 1) * 10 ^ (l.length - 1)
      = 10 ^ (l.length - 1) * (l.getD (l.length - 1) 0 + 10 * 0)
        + 10 ^ (l.length - 1) := by ring
  omega

/-! ## Writing a sub-slice back into the working dividend -/

theorem write_take (a b c : List Nat) (j : Nat) (ha : a.length = j) :
    (a ++ b ++ c).take j = a := by
  rw [List.append_assoc]
  exact List.take_left' ha

theorem write_drop (a b c : List Nat) (j n : Nat) (ha : a.length = j)
    (hb : b.length = n) : (a ++ b ++ c).drop (j + n) = c := by
  apply List.drop_left'
  rw [List.length_append, ha, hb]

theorem write_slice (a b c : List Nat) (j n : Nat) (ha : a.length = j)
    (hb : b.length = n) : ((a ++ b ++ c).drop j).take n = b := by
  rw [List.append_assoc, List.drop_left' ha]
  exact List.take_left' hb

theorem append_take_one (b c : List Nat) (n : Nat) (hb : b.length = n)
    (hc : c ≠ []) : (b ++ c).take (n + 1) = b ++ [c.getD 0 0] := by
  rw [List.take_append_eq_append_take,
    List.take_of_length_le (by omega : b.length ≤ n + 1), hb]
  have h1 : n + 1 - n = 1 := by omega
  rw [h1]
  congr 1
  cases c with
  | nil => exact absurd rfl hc
  | cons d t => rfl

theorem write_slice_one (a b c : List Nat) (j n : Nat) (ha : a.length = j)
    (hb : b.length = n) (hc : c ≠ []) :
    ((a ++ b ++ c).drop j).take (n + 1) = b ++ [c.getD 0 0] := by
  rw [List.append_assoc, List.drop_left' ha]
  exact append_take_one b c n hb hc

/-! ## One position of the main Algorithm D loop

`innerDivStep_core` handles one loop body given that the trial digit `Q`
is already known to satisfy Knuth's bound `q ≤ Q ≤ q + 1` for the true
digit `q = S / V`; `innerDivStep_spec` then derives that bound from
`correct_spec` / `initial_estimate_ge`. -/

theorem innerDivStep_core (v u : List Nat) (n j Q : Nat)
    (h2 : 2 ≤ n) (hnv : v.length = n) (hv : AllDigits v) (hcv : IsClean v)
    (h5 : 5 ≤ v.getD (n - 1) 0) (hu : AllDigits u) (hjn : j + n < u.length)
    (hSV : ubVal ((u.drop j).take (n + 1)) < 10 * ubVal v)
    (hQ_lo : ubVal ((u.drop j).take (n + 1)) / ubVal v ≤ Q)
    (hQ_hi : Q ≤ ubVal ((u.drop j).take (n + 1)) / ubVal v + 1)
    (hQdef : correct (v.getD (n - 1) 0) (v.getD (n - 2) 0)
        (u.getD (j + n - 2) 0)
        ((u.getD (j + n) 0 * 10 + u.getD (j + n - 1) 0) / v.getD (n - 1) 0)
        ((u.getD (j + n) 0 * 10 + u.getD (j + n - 1) 0) % v.getD (n - 1) 0)
      = Q) :
    ∃ w, innerDivStep v n j u
        = some (w, ubVal ((u.drop j).take (n + 1)) / ubVal v)
      ∧ w.length = u.length
      ∧ w.take j = u.take j
      ∧ w.drop (j + n) = u.drop (j + n)
      ∧ AllDigits w
      ∧ ubVal ((w.drop j).take n)
          = ubVal ((u.drop j).take (n + 1)) % ubVal v := by
  have hvne : v ≠ [] := by
    intro he
    rw [he] at hnv
    simp at hnv
    omega
  have htop := ubVal_top_digit v hv hvne
  rw [hnv] at htop
  have hp1 : 0 < (10 : Nat) ^ (n - 1) := Nat.pos_pow_of_pos _ (by omega)
  have hVlo : 5 * 10 ^ (n - 1) ≤ ubVal v := by
    have h1 := htop.1
    have hb : 5 * 10 ^ (n - 1) ≤ v.getD (n - 1) 0 * 10 ^ (n - 1) :=
      Nat.mul_le_mul_right _ h5
    omega
  have hVpos : 0 < ubVal v := by omega
  have hVlt : ubVal v < 10 ^ n := by
    have := ubVal_lt_pow v hv
    rwa [hnv] at this
  have hq9 : ubVal ((u.drop j).take (n + 1)) / ubVal v ≤ 9 := by
    have := (Nat.div_lt_iff_lt_mul hVpos).mpr hSV
    omega
  have hQ10 : Q ≤ 10 := by omega
  have hpow : (10 : Nat) ^ (n + 1) = 10 * 10 ^ n := by ring
  have hslen : ((u.drop j).take (n + 1)).length = n + 1 := by
    rw [List.length_take, List.length_drop]
    omega
  have hsdig : AllDigits ((u.drop j).take (n + 1)) :=
    allDigits_take _ _ (allDigits_drop _ _ hu)
  obtain ⟨hmv, hmd, hmc, hml⟩ := ub_mul_single v Q hv hcv (by omega)
    (by rw [hnv]
        calc Q * ubVal v ≤ 10 * ubVal v := Nat.mul_le_mul_right _ hQ10
          _ < 10 ^ (n + 1) := by omega)
  obtain ⟨hrv', hrl, hrd'⟩ := resize_spec (ub_mul v [Q]) (n + 1)
    (by rw [hnv] at hml; omega)
  have hrd := hrd' hmd
  have hrv : ubVal (resize (ub_mul v [Q]) (n + 1)) = Q * ubVal v := by
    rw [hrv', hmv]
  have hble : ub_is_lower ((u.drop j).take (n + 1))
      (resize (ub_mul v [Q]) (n + 1))
      = decide (ubVal ((u.drop j).take (n + 1)) < Q * ubVal v) := by
    rw [ub_is_lower_eq_decide _ _ (by rw [hslen, hrl]) hsdig hrd, hrv]
  by_cases hb : ubVal ((u.drop j).take (n + 1)) < Q * ubVal v
  · -- borrow: the trial digit overshot by one
    have hQeq : Q = ubVal ((u.drop j).take (n + 1)) / ubVal v + 1 := by
      have hlt := (Nat.div_lt_iff_lt_mul hVpos).mpr hb
      omega
    obtain ⟨lhs, hlhs_ok, hlhs_val, hlhs_dig, hlhs_len⟩ :=
      ub_sub_spec (resize (ub_mul v [Q]) (n + 1)) ((u.drop j).take (n + 1))
        (by rw [hslen, hrl]) hrd hsdig (by rw [hrv]; omega)
    rw [hrv] at hlhs_val
    rw [hrl] at hlhs_len
    have h10v : ubVal (List.replicate (n + 1) 0 ++ [1]) = 10 ^ (n + 1) := by
      rw [ubVal_append, ubVal_replicate_zero, List.length_replicate]
      simp [ubVal_cons, ubVal_nil]
    have h10d : AllDigits (List.replicate (n + 1) 0 ++ [1]) :=
      allDigits_append.mpr ⟨allDigits_replicate_zero _, by
        intro d hd
        simp at hd
        omega⟩
    have hlhs0_val : ubVal (lhs ++ [0]) = ubVal lhs := by
      rw [ubVal_append]
      simp [ubVal_cons, ubVal_nil]
    have hlhs0_dig : AllDigits (lhs ++ [0]) :=
      allDigits_append.mpr ⟨hlhs_dig, by
        intro d hd
        simp at hd
        omega⟩
    obtain ⟨sub2, hsub2_ok, hsub2_val, hsub2_dig, hsub2_len⟩ :=
      ub_sub_spec (List.replicate (n + 1) 0 ++ [1]) (lhs ++ [0])
        (by simp [List.length_append, List.length_replicate, hlhs_len])
        h10d hlhs0_dig
        (by rw [h10v, hlhs0_val]
            have h1 : Q * ubVal v ≤ 10 * ubVal v := Nat.mul_le_mul_right _ hQ10
            omega)
    rw [h10v, hlhs0_val] at hsub2_val
    have hsub2_len' : sub2.length = n + 2 := by
      rw [hsub2_len]
      simp [List.length_append, List.length_replicate]
    have hdne : u.drop (j + n) ≠ [] := by
      intro he
      have h1 := congrArg List.length he
      rw [List.length_drop] at h1
      simp at h1
      omega
    have hc0 : (u.drop (j + n)).getD 0 0 = u.getD (j + n) 0 := by
      rw [getD_drop, Nat.add_zero]
    have hlen_tj : (u.take j).length = j := by
      rw [List.length_take]
      exact min_eq_left (by omega)
    have hstake : (sub2.take (n + 1)).take n = sub2.take n := by
      rw [List.take_take]
      exact congrArg (fun k => List.take k sub2) (min_eq_left (by omega))
    have hlen_s2n : (sub2.take n).length = n := by
      rw [List.length_take]
      exact min_eq_left (by omega)
    have eA_take : (u.take j ++ sub2.take n ++ u.drop (j + n)).take j
        = u.take j := write_take _ _ _ j hlen_tj
    have eA_drop : (u.take j ++ sub2.take n ++ u.drop (j + n)).drop (j + n)
        = u.drop (j + n) := write_drop _ _ _ j n hlen_tj hlen_s2n
    have eA_slice :
        ((u.take j ++ sub2.take n ++ u.drop (j + n)).drop j).take (n + 1)
        = sub2.take n ++ [u.getD (j + n) 0] := by
      rw [write_slice_one _ _ _ j n hlen_tj hlen_s2n hdne, hc0]
    have hv0_val : ubVal (v ++ [0]) = ubVal v := by
      rw [ubVal_append]
      simp [ubVal_cons, ubVal_nil]
    have hv0_dig : AllDigits (v ++ [0]) :=
      allDigits_append.mpr ⟨hv, by
        intro d hd
        simp at hd
        omega⟩
    have hs2_dig : AllDigits (sub2.take n ++ [u.getD (j + n) 0]) :=
      allDigits_append.mpr ⟨allDigits_take _ _ hsub2_dig, by
        intro d hd
        rw [List.mem_singleton] at hd
        subst hd
        exact getD_lt_ten hu _⟩
    obtain ⟨hadd_val, hadd_dig, hadd_clean⟩ :=
      ub_add_spec (v ++ [0]) (sub2.take n ++ [u.getD (j + n) 0])
        hv0_dig hs2_dig
    rw [hv0_val, ubVal_append, hlen_s2n] at hadd_val
    have hd2v : ubVal [u.getD (j + n) 0] = u.getD (j + n) 0 := by
      simp [ubVal_cons, ubVal_nil]
    rw [hd2v] at hadd_val
    have hadd_len :
        n ≤ (ub_add (v ++ [0]) (sub2.take n ++ [u.getD (j + n) 0])).length := by
      by_contra hcon
      push_neg at hcon
      have h1 := ubVal_lt_pow _ hadd_dig
      have h2 : (10 : Nat)
            ^ (ub_add (v ++ [0]) (sub2.take n ++ [u.getD (j + n) 0])).length
          ≤ 10 ^ (n - 1) := Nat.pow_le_pow_right (by omega) (by omega)
      omega
    have hlen_addn :
        ((ub_add (v ++ [0]) (sub2.take n ++ [u.getD (j + n) 0])).take n).length
        = n := by
      rw [List.length_take]
      exact min_eq_left (by omega)
    refine ⟨u.take j
        ++ (ub_add (v ++ [0]) (sub2.take n ++ [u.getD (j + n) 0])).take n
        ++ u.drop (j + n), ?_, ?_, ?_, ?_, ?_, ?_⟩
    · simp only [innerDivStep]
      rw [hQdef, hble, decide_eq_true hb]
      simp only [eq_self_iff_true, if_true]
      simp only [hlhs_ok, hsub2_ok]
      rw [hstake, eA_take, eA_drop, eA_slice]
      rw [show Q - 1 = ubVal ((u.drop j).take (n + 1)) / ubVal v from by
        rw [hQeq, Nat.add_sub_cancel]]
    · rw [List.length_append, List.length_append, hlen_tj, hlen_addn,
        List.length_drop]
      omega
    · exact write_take _ _ _ j hlen_tj
    · exact write_drop _ _ _ j n hlen_tj hlen_addn
    · refine allDigits_append.mpr ⟨allDigits_append.mpr ⟨?_, ?_⟩, ?_⟩
      · exact allDigits_take _ _ hu
      · exact allDigits_take _ _ hadd_dig
      · exact allDigits_drop _ _ hu
    · rw [write_slice _ _ _ j n hlen_tj hlen_addn,
        ubVal_take_mod _ _ hadd_dig, hadd_val]
      have hr1 : ubVal (sub2.take n) = ubVal sub2 % 10 ^ n :=
        ubVal_take_mod _ _ hsub2_dig
      have hk : 10 ^ n * (ubVal sub2 / 10 ^ n) + ubVal sub2 % 10 ^ n
          = ubVal sub2 := Nat.div_add_mod _ _
      have hSmod : ubVal ((u.drop j).take (n + 1)) % ubVal v + Q * ubVal v
          = ubVal ((u.drop j).take (n + 1)) + ubVal v := by
        have hdm := Nat.div_add_mod (ubVal ((u.drop j).take (n + 1))) (ubVal v)
        have hb1 : Q * ubVal v
            = ubVal ((u.drop j).take (n + 1)) / ubVal v * ubVal v + ubVal v := by
          rw [hQeq]
          ring
        have hb2 : ubVal v * (ubVal ((u.drop j).take (n + 1)) / ubVal v)
            = ubVal ((u.drop j).take (n + 1)) / ubVal v * ubVal v :=
          Nat.mul_comm _ _
        omega
      have hQVle : Q * ubVal v ≤ 10 ^ (n + 1) := by
        have h1 : Q * ubVal v ≤ 10 * ubVal v := Nat.mul_le_mul_right _ hQ10
        omega
      have hsubval : ubVal sub2 = 10 ^ (n + 1)
          + ubVal ((u.drop j).take (n + 1)) - Q * ubVal v := by
        omega
      have hkey : ubVal v + ubVal (sub2.take n)
            + 10 ^ n * (ubVal sub2 / 10 ^ n)
          = 10 ^ (n + 1) + ubVal ((u.drop j).take (n + 1)) % ubVal v := by
        omega
      calc (ubVal v + (ubVal (sub2.take n) + 10 ^ n * u.getD (j + n) 0))
            % 10 ^ n
          = (ubVal v + ubVal (sub2.take n) + 10 ^ n * u.getD (j + n) 0)
            % 10 ^ n := by rw [Nat.add_assoc]
        _ = (ubVal v + ubVal (sub2.take n)) % 10 ^ n :=
            Nat.add_mul_mod_self_left _ _ _
        _ = (ubVal v + ubVal (sub2.take n) + 10 ^ n * (ubVal sub2 / 10 ^ n))
            % 10 ^ n := (Nat.add_mul_mod_self_left _ _ _).symm
        _ = (10 ^ (n + 1) + ubVal ((u.drop j).take (n + 1)) % ubVal v)
            % 10 ^ n := by rw [hkey]
        _ = (ubVal ((u.drop j).take (n + 1)) % ubVal v + 10 ^ n * 10)
            % 10 ^ n := by
            rw [show (10 : Nat) ^ (n + 1)
                  + ubVal ((u.drop j).take (n + 1)) % ubVal v
                = ubVal ((u.drop j).take (n + 1)) % ubVal v + 10 ^ n * 10 from by
              rw [hpow]
              ring]
        _ = ubVal ((u.drop j).take (n + 1)) % ubVal v % 10 ^ n :=
            Nat.add_mul_mod_self_left _ _ _
        _ = ubVal ((u.drop j).take (n + 1)) % ubVal v := by
            have h1 := Nat.mod_lt (ubVal ((u.drop j).take (n + 1))) hVpos
            exact Nat.mod_eq_of_lt (by omega)
  · -- no borrow: the trial digit is exact
    have hQVle : Q * ubVal v ≤ ubVal ((u.drop j).take (n + 1)) := by omega
    have hQeq : Q = ubVal ((u.drop j).take (n + 1)) / ubVal v := by
      have h1 : Q ≤ ubVal ((u.drop j).take (n + 1)) / ubVal v :=
        (Nat.le_div_iff_mul_le hVpos).mpr hQVle
      omega
    obtain ⟨sub, hsub_ok, hsub_val, hsub_dig, hsub_len⟩ :=
      ub_sub_spec ((u.drop j).take (n + 1)) (resize (ub_mul v [Q]) (n + 1))
        (by rw [hslen, hrl]) hsdig hrd (by rw [hrv]; omega)
    rw [hrv] at hsub_val
    rw [hslen] at hsub_len
    have hlen_tj : (u.take j).length = j := by
      rw [List.length_take]
      exact min_eq_left (by omega)
    have hlen_sn : (sub.take n).length = n := by
      rw [List.length_take]
      exact min_eq_left (by omega)
    refine ⟨u.take j ++ sub.take n ++ u.drop (j + n), ?_, ?_, ?_, ?_, ?_, ?_⟩
    · simp only [innerDivStep]
      rw [hQdef, hble, decide_eq_false hb]
      simp only [Bool.false_eq_true, if_false]
      rw [hsub_ok]
      rw [show Q = ubVal ((u.drop j).take (n + 1)) / ubVal v from hQeq]
    · rw [List.length_append, List.length_append, hlen_tj, hlen_sn,
        List.length_drop]
      omega
    · exact write_take _ _ _ j hlen_tj
    · exact write_drop _ _ _ j n hlen_tj hlen_sn
    · refine allDigits_append.mpr ⟨allDigits_append.mpr ⟨?_, ?_⟩, ?_⟩
      · exact allDigits_take _ _ hu
      · exact allDigits_take _ _ hsub_dig
      · exact allDigits_drop _ _ hu
    · rw [write_slice _ _ _ j n hlen_tj hlen_sn,
        ubVal_take_mod _ _ hsub_dig, hsub_val]
      have hdm := Nat.div_add_mod (ubVal ((u.drop j).take (n + 1))) (ubVal v)
      have hb2 : ubVal v * (ubVal ((u.drop j).take (n + 1)) / ubVal v)
          = ubVal ((u.drop j).take (n + 1)) / ubVal v * ubVal v :=
        Nat.mul_comm _ _
      have hQV2 : Q * ubVal v
          = ubVal ((u.drop j).take (n + 1)) / ubVal v * ubVal v := by
        rw [hQeq]
      have hmlt := Nat.mod_lt (ubVal ((u.drop j).take (n + 1))) hVpos
      have heq : ubVal ((u.drop j).take (n + 1)) - Q * ubVal v
          = ubVal ((u.drop j).take (n + 1)) % ubVal v := by omega
      rw [heq]
      exact Nat.mod_eq_of_lt (by omega)

theorem innerDivStep_spec (v u : List Nat) (n j : Nat)
    (h2 : 2 ≤ n) (hnv : v.length = n) (hv : AllDigits v) (hcv : IsClean v)
    (h5 : 5 ≤ v.getD (n - 1) 0) (hu : AllDigits u) (hjn : j + n < u.length)
    (hSV : ubVal ((u.drop j).take (n + 1)) < 10 * ubVal v) :
    ∃ w, innerDivStep v n j u
        = some (w, ubVal ((u.drop j).take (n + 1)) / ubVal v)
      ∧ w.length = u.length
      ∧ w.take j = u.take j
      ∧ w.drop (j + n) = u.drop (j + n)
      ∧ AllDigits w
      ∧ ubVal ((w.drop j).take n)
          = ubVal ((u.drop j).take (n + 1)) % ubVal v := by
  have hslen : ((u.drop j).take (n + 1)).length = n + 1 := by
    rw [List.length_take, List.length_drop]
    omega
  have hsdig : AllDigits ((u.drop j).take (n + 1)) :=
    allDigits_take _ _ (allDigits_drop _ _ hu)
  have hvdig1 : v.getD (n - 1) 0 ≤ 9 := by
    have := getD_lt_ten hv (n - 1)
    omega
  have hvdig2 : v.getD (n - 2) 0 ≤ 9 := by
    have := getD_lt_ten hv (n - 2)
    omega
  have hudig3 : u.getD (j + n - 2) 0 ≤ 9 := by
    have := getD_lt_ten hu (j + n - 2)
    omega
  have hsd3 := ubVal_decomp3 ((u.drop j).take (n + 1)) (n - 2)
    (by rw [hslen]; omega)
  have hg0 : ((u.drop j).take (n + 1)).getD (n - 2) 0
      = u.getD (j + n - 2) 0 := by
    rw [slice_getD u j (n + 1) (n - 2) (by omega),
      show j + (n - 2) = j + n - 2 from by omega]
  have hg1 : ((u.drop j).take (n + 1)).getD (n - 2 + 1) 0
      = u.getD (j + n - 1) 0 := by
    rw [slice_getD u j (n + 1) (n - 2 + 1) (by omega),
      show j + (n - 2 + 1) = j + n - 1 from by omega]
  have hg2 : ((u.drop j).take (n + 1)).getD (n - 2 + 2) 0
      = u.getD (j + n) 0 := by
    rw [slice_getD u j (n + 1) (n - 2 + 2) (by omega),
      show j + (n - 2 + 2) = j + n from by omega]
  rw [hg0, hg1, hg2] at hsd3
  have hvd2 := ubVal_decomp2 v (n - 2) (by rw [hnv]; omega)
  rw [show n - 2 + 1 = n - 1 from by omega] at hvd2
  have hlow2 : ubVal (((u.drop j).take (n + 1)).take (n - 2))
      < 10 ^ (n - 2) := by
    have hl := ubVal_lt_pow _ (allDigits_take _ (n - 2) hsdig)
    have hlen2 : (((u.drop j).take (n + 1)).take (n - 2)).length = n - 2 := by
      rw [List.length_take, hslen]
      exact min_eq_left (by omega)
    rwa [hlen2] at hl
  have hvlow : ubVal (v.take (n - 2)) < 10 ^ (n - 2) := by
    have hl := ubVal_lt_pow _ (allDigits_take _ (n - 2) hv)
    have hlen2 : (v.take (n - 2)).length = n - 2 := by
      rw [List.length_take, hnv]
      exact min_eq_left (by omega)
    rwa [hlen2] at hl
  have hqere : (u.getD (j + n) 0 * 10 + u.getD (j + n - 1) 0)
        / v.getD (n - 1) 0 * v.getD (n - 1) 0
      + (u.getD (j + n) 0 * 10 + u.getD (j + n - 1) 0) % v.getD (n - 1) 0
      = u.getD (j + n) 0 * 10 + u.getD (j + n - 1) 0 := by
    rw [Nat.mul_comm ((u.getD (j + n) 0 * 10 + u.getD (j + n - 1) 0)
      / v.getD (n - 1) 0) (v.getD (n - 1) 0)]
    exact Nat.div_add_mod _ _
  have hinit := initial_estimate_ge (v.getD (n - 1) 0) (v.getD (n - 2) 0)
    (u.getD (j + n - 2) 0) (u.getD (j + n) 0 * 10 + u.getD (j + n - 1) 0)
    (ubVal (((u.drop j).take (n + 1)).take (n - 2))) (ubVal (v.take (n - 2)))
    (n - 2) (ubVal ((u.drop j).take (n + 1))) (ubVal v)
    (by omega) hudig3 hvd2 hvlow (by rw [hsd3]; ring) hlow2
  have hcs := correct_spec (v.getD (n - 1) 0) (v.getD (n - 2) 0)
    (u.getD (j + n - 2) 0) (u.getD (j + n) 0 * 10 + u.getD (j + n - 1) 0)
    (ubVal (((u.drop j).take (n + 1)).take (n - 2))) (ubVal (v.take (n - 2)))
    (n - 2) (ubVal ((u.drop j).take (n + 1))) (ubVal v)
    h5 hvdig1 hvdig2 hudig3 hvd2 hvlow (by rw [hsd3]; ring) hlow2 hSV
    ((u.getD (j + n) 0 * 10 + u.getD (j + n - 1) 0) / v.getD (n - 1) 0)
    ((u.getD (j + n) 0 * 10 + u.getD (j + n - 1) 0) % v.getD (n - 1) 0)
    hqere hinit
  exact innerDivStep_core v u n j _ h2 hnv hv hcv h5 hu hjn hSV
    hcs.1 hcs.2 rfl

/-! ## The main Algorithm D loop, positions `j, j-1, …, 0` -/

theorem innerDivLoop_spec (v : List Nat) (n : Nat)
    (h2 : 2 ≤ n) (hnv : v.length = n) (hv : AllDigits v) (hcv : IsClean v)
    (h5 : 5 ≤ v.getD (n - 1) 0) :
    ∀ (j : Nat) (u q : List Nat), AllDigits u → j + n < u.length →
      j + 1 < q.length →
      ubVal ((u.drop j).take (n + 1)) < 10 * ubVal v →
      ∃ u' q', innerDivLoop v n j u q = some (u', q')
        ∧ u'.length = u.length
        ∧ AllDigits u'
        ∧ ubVal (u'.take n) = ubVal (u.take (j + n + 1)) % ubVal v
        ∧ q'.length = q.length
        ∧ q'.drop (j + 1) = q.drop (j + 1)
        ∧ AllDigits (q'.take (j + 1))
        ∧ ubVal (q'.take (j + 1)) = ubVal (u.take (j + n + 1)) / ubVal v := by
  have hvne : v ≠ [] := by
    intro he
    rw [he] at hnv
    simp at hnv
    omega
  have htop := ubVal_top_digit v hv hvne
  rw [hnv] at htop
  have hp1 : 0 < (10 : Nat) ^ (n - 1) := Nat.pos_pow_of_pos _ (by omega)
  have hVpos : 0 < ubVal v := by
    have h1 := htop.1
    have hb : 5 * 10 ^ (n - 1) ≤ v.getD (n - 1) 0 * 10 ^ (n - 1) :=
      Nat.mul_le_mul_right _ h5
    omega
  intro j
  induction j with
  | zero =>
    intro u q hu hjn hq hslice
    obtain ⟨w, hstep, hwlen, hwtake, hwdrop, hwdig, hwslice⟩ :=
      innerDivStep_spec v u n 0 h2 hnv hv hcv h5 hu hjn hslice
    have hd9 : ubVal ((u.drop 0).take (n + 1)) / ubVal v < 10 :=
      (Nat.div_lt_iff_lt_mul hVpos).mpr hslice
    cases q with
    | nil => simp at hq
    | cons a t =>
      refine ⟨w, (ubVal ((u.drop 0).take (n + 1)) / ubVal v) :: t,
        ?_, hwlen, hwdig, ?_, ?_, ?_, ?_, ?_⟩
      · simp only [innerDivLoop]
        rw [hstep]
        rfl
      · simp only [List.drop_zero] at hwslice
        simp only [Nat.zero_add]
        exact hwslice
      · simp
      · rfl
      · intro d hd
        have : d = ubVal ((u.drop 0).take (n + 1)) / ubVal v := by
          simpa using hd
        omega
      · show ubVal [ubVal ((u.drop 0).take (n + 1)) / ubVal v]
          = ubVal (u.take (0 + n + 1)) / ubVal v
        rw [show ubVal [ubVal ((u.drop 0).take (n + 1)) / ubVal v]
            = ubVal ((u.drop 0).take (n + 1)) / ubVal v from by
          simp [ubVal_cons, ubVal_nil]]
        rw [List.drop_zero, Nat.zero_add]
  | succ j ih =>
    intro u q hu hjn hq hslice
    obtain ⟨w, hstep, hwlen, hwtake, hwdrop, hwdig, hwslice⟩ :=
      innerDivStep_spec v u n (j + 1) h2 hnv hv hcv h5 hu hjn hslice
    have hmodlt := Nat.mod_lt (ubVal ((u.drop (j + 1)).take (n + 1))) hVpos
    have hwjn : j + n < w.length := by rw [hwlen]; omega
    have hwdj : j < w.length := by rw [hwlen]; omega
    have hsplit : (w.drop j).take (n + 1)
        = w.getD j 0 :: (w.drop (j + 1)).take n := by
      rw [drop_eq_getD_cons w j hwdj]
      rfl
    have hslice_w : ubVal ((w.drop j).take (n + 1)) < 10 * ubVal v := by
      rw [hsplit, ubVal_cons, hwslice]
      have hg : w.getD j 0 < 10 := getD_lt_ten hwdig j
      omega
    have hql : j + 1
        < (q.set (j + 1) (ubVal ((u.drop (j + 1)).take (n + 1)) / ubVal v)).length := by
      rw [List.length_set]
      omega
    obtain ⟨u', q', hloop, hul, hud, hurem, hq'l, hq'd, hq'dig, hq'val⟩ :=
      ih w (q.set (j + 1) (ubVal ((u.drop (j + 1)).take (n + 1)) / ubVal v))
        hwdig hwjn hql hslice_w
    -- the low part of u is not touched by the step
    have hlen_uj1 : (u.take (j + 1)).length = j + 1 := by
      rw [List.length_take]
      exact min_eq_left (by omega)
    have hw171 : w.take (j + n + 1) = u.take (j + 1) ++ (w.drop (j + 1)).take n := by
      rw [show j + n + 1 = (j + 1) + n from by omega, List.take_add, hwtake]
    have hwval : ubVal (w.take (j + n + 1))
        = ubVal (u.take (j + 1))
          + 10 ^ (j + 1) * (ubVal ((u.drop (j + 1)).take (n + 1)) % ubVal v) := by
      rw [hw171, ubVal_append, hlen_uj1, hwslice]
    have hUval : ubVal (u.take (j + 1 + n + 1))
        = ubVal (u.take (j + 1))
          + 10 ^ (j + 1) * ubVal ((u.drop (j + 1)).take (n + 1)) := by
      rw [show j + 1 + n + 1 = (j + 1) + (n + 1) from by omega, List.take_add,
        ubVal_append, hlen_uj1]
    have hdm := Nat.div_add_mod (ubVal ((u.drop (j + 1)).take (n + 1))) (ubVal v)
    have hPS : ubVal (u.take (j + 1))
          + 10 ^ (j + 1) * ubVal ((u.drop (j + 1)).take (n + 1))
        = ubVal (u.take (j + 1))
          + 10 ^ (j + 1) * (ubVal ((u.drop (j + 1)).take (n + 1)) % ubVal v)
          + 10 ^ (j + 1) * (ubVal ((u.drop (j + 1)).take (n + 1)) / ubVal v)
            * ubVal v := by
      have h1a : 10 ^ (j + 1) * ubVal ((u.drop (j + 1)).take (n + 1))
          = 10 ^ (j + 1)
            * (ubVal v * (ubVal ((u.drop (j + 1)).take (n + 1)) / ubVal v)
              + ubVal ((u.drop (j + 1)).take (n + 1)) % ubVal v) := by
        rw [hdm]
      have h1b : 10 ^ (j + 1)
            * (ubVal v * (ubVal ((u.drop (j + 1)).take (n + 1)) / ubVal v)
              + ubVal ((u.drop (j + 1)).take (n + 1)) % ubVal v)
          = 10 ^ (j + 1) * (ubVal ((u.drop (j + 1)).take (n + 1)) % ubVal v)
            + 10 ^ (j + 1) * (ubVal ((u.drop (j + 1)).take (n + 1)) / ubVal v)
              * ubVal v := by
        ring
      omega
    have hq'len2 : j + 1 < q'.length := by
      rw [hq'l, List.length_set]
      omega
    have hset : q.set (j + 1) (ubVal ((u.drop (j + 1)).take (n + 1)) / ubVal v)
        = q.take (j + 1)
          ++ (ubVal ((u.drop (j + 1)).take (n + 1)) / ubVal v)
            :: q.drop (j + 1 + 1) := by
      rw [List.set_eq_take_append_cons_drop]
      rw [if_pos (show j + 1 < q.length from by omega)]
    have hlen_qtake : (q.take (j + 1)).length = j + 1 := by
      rw [List.length_take]
      exact min_eq_left (by omega)
    have hq'd1 : q'.drop (j + 1)
        = (ubVal ((u.drop (j + 1)).take (n + 1)) / ubVal v)
          :: q.drop (j + 1 + 1) := by
      rw [hq'd, hset]
      exact List.drop_left' hlen_qtake
    have hgetD : q'.getD (j + 1) 0
        = ubVal ((u.drop (j + 1)).take (n + 1)) / ubVal v := by
      have h1 := getD_drop q' (j + 1) 0
      rw [hq'd1] at h1
      rw [Nat.add_zero] at h1
      exact h1.symm
    have htakesucc := take_succ_getD q' (j + 1) hq'len2
    rw [hgetD] at htakesucc
    have hlen_q'take : (q'.take (j + 1)).length = j + 1 := by
      rw [List.length_take]
      exact min_eq_left (by omega)
    have hd9 : ubVal ((u.drop (j + 1)).take (n + 1)) / ubVal v < 10 :=
      (Nat.div_lt_iff_lt_mul hVpos).mpr hslice
    refine ⟨u', q', ?_, ?_, hud, ?_, ?_, ?_, ?_, ?_⟩
    · simp only [innerDivLoop]
      rw [hstep]
      exact hloop
    · rw [hul, hwlen]
    · rw [hurem, hwval, hUval, hPS, Nat.add_mul_mod_self_right]
    · rw [hq'l, List.length_set]
    · rw [← List.drop_drop, hq'd1]
      rfl
    · rw [htakesucc]
      refine allDigits_append.mpr ⟨hq'dig, ?_⟩
      intro d hd
      have : d = ubVal ((u.drop (j + 1)).take (n + 1)) / ubVal v := by
        simpa using hd
      omega
    · rw [htakesucc, ubVal_append, hlen_q'take, hq'val, hwval, hUval, hPS,
        Nat.add_mul_div_right _ _ hVpos]
      rw [show ubVal [ubVal ((u.drop (j + 1)).take (n + 1)) / ubVal v]
          = ubVal ((u.drop (j + 1)).take (n + 1)) / ubVal v from by
        simp [ubVal_cons, ubVal_nil]]

/-! ## `inner_div` correctness -/

theorem resize_of_ge (l : List Nat) (k : Nat) (h : k ≤ l.length) :
    resize l k = l.take k := by
  unfold resize
  rw [show k - l.length = 0 from by omega]
  simp

theorem inner_div_spec (u v : List Nat) (n : Nat)
    (h2 : 2 ≤ n) (hnv : v.length = n) (hv : AllDigits v) (hcv : IsClean v)
    (h5 : 5 ≤ v.getD (n - 1) 0) (hu : AllDigits u) (hlen : n ≤ u.length) :
    ∃ q r, inner_div u v = some (q, r)
      ∧ ubVal q = ubVal u / ubVal v
      ∧ ubVal r = ubVal u % ubVal v
      ∧ IsClean q ∧ AllDigits q ∧ AllDigits r ∧ r.length = n := by
  have hvne : v ≠ [] := by
    intro he
    rw [he] at hnv
    simp at hnv
    omega
  have htop := ubVal_top_digit v hv hvne
  rw [hnv] at htop
  have hp1 : 0 < (10 : Nat) ^ (n - 1) := Nat.pos_pow_of_pos _ (by omega)
  have hVlo : 5 * 10 ^ (n - 1) ≤ ubVal v := by
    have h1 := htop.1
    have hb : 5 * 10 ^ (n - 1) ≤ v.getD (n - 1) 0 * 10 ^ (n - 1) :=
      Nat.mul_le_mul_right _ h5
    omega
  have hpw : (10 : Nat) ^ n = 10 ^ (n - 1) * 10 := by
    rw [← pow_succ]
    congr 1
    omega
  have hu0_dig : AllDigits (u ++ [0]) :=
    allDigits_append.mpr ⟨hu, by
      intro d hd
      rw [List.mem_singleton] at hd
      omega⟩
  have hu0_len : (u ++ [0]).length = u.length + 1 := by simp
  have hdropM : (u ++ [0]).drop (u.length - n) = u.drop (u.length - n) ++ [0] :=
    List.drop_append_of_le_length (by omega)
  have hdropM_len : (u.drop (u.length - n)).length = n := by
    rw [List.length_drop]
    omega
  have hsliceM : ((u ++ [0]).drop (u.length - n)).take (n + 1)
      = u.drop (u.length - n) ++ [0] := by
    rw [hdropM]
    exact List.take_of_length_le (by
      rw [List.length_append, hdropM_len]
      simp)
  have hsliceM_val : ubVal (((u ++ [0]).drop (u.length - n)).take (n + 1))
      < 10 * ubVal v := by
    rw [hsliceM, ubVal_append, hdropM_len,
      show ubVal [0] = 0 from rfl, Nat.mul_zero]
    have h1 : ubVal (u.drop (u.length - n)) < 10 ^ n := by
      have := ubVal_lt_pow _ (allDigits_drop u (u.length - n) hu)
      rwa [hdropM_len] at this
    omega
  obtain ⟨u'', q'', hloop, hul, hud, hurem, hql, hqd, hqdig, hqval⟩ :=
    innerDivLoop_spec v n h2 hnv hv hcv h5 (u.length - n) (u ++ [0])
      (List.replicate (u.length - n + 2) 0) hu0_dig
      (by rw [hu0_len]; omega)
      (by rw [List.length_replicate]; omega)
      hsliceM_val
  have htakefull : (u ++ [0]).take (u.length - n + n + 1) = u ++ [0] :=
    List.take_of_length_le (by rw [hu0_len]; omega)
  have hu0_val : ubVal (u ++ [0]) = ubVal u := by
    rw [ubVal_append]
    simp [ubVal_cons, ubVal_nil]
  rw [htakefull, hu0_val] at hurem hqval
  have hql' : q''.length = u.length - n + 2 := by
    rw [hql, List.length_replicate]
  have hqd' : q''.drop (u.length - n + 1) = [0] := by
    rw [hqd, List.drop_replicate]
    rw [show u.length - n + 2 - (u.length - n + 1) = 1 from by omega]
    rfl
  have hqtake_len : (q''.take (u.length - n + 1)).length = u.length - n + 1 := by
    rw [List.length_take]
    exact min_eq_left (by omega)
  have hq''_split := List.take_append_drop (u.length - n + 1) q''
  have hq''_val : ubVal q'' = ubVal u / ubVal v := by
    have h1 := ubVal_append (q''.take (u.length - n + 1))
      (q''.drop (u.length - n + 1))
    rw [hq''_split, hqd', hqval] at h1
    rw [h1]
    simp [ubVal_cons, ubVal_nil]
  have hq''_dig : AllDigits q'' := by
    rw [← hq''_split]
    refine allDigits_append.mpr ⟨hqdig, ?_⟩
    rw [hqd']
    intro d hd
    rw [List.mem_singleton] at hd
    omega
  have hresize : resize u'' n = u''.take n := by
    apply resize_of_ge
    rw [hul, hu0_len]
    omega
  refine ⟨ub_clean q'', resize u'' n, ?_, ?_, ?_, isClean_ub_clean _,
    allDigits_ub_clean hq''_dig, ?_, ?_⟩
  · simp only [inner_div]
    rw [hnv, hu0_len, show u.length + 1 - n - 1 = u.length - n from by omega,
      hloop]
  · rw [ubVal_ub_clean, hq''_val]
  · rw [hresize]
    exact hurem
  · rw [hresize]
    exact allDigits_take _ _ hud
  · rw [hresize, List.length_take]
    refine min_eq_left ?_
    rw [hul, hu0_len]
    omega

/-! ## The normalisation loop of `ub_div` -/

theorem normGuard_iff (nv : List Nat) (n : Nat) (hd : AllDigits nv)
    (hlen : nv.length ≤ n + 1) :
    (n < nv.length ∧ nv.getLast? ≠ some 0) ↔ 10 ^ n ≤ ubVal nv := by
  constructor
  · rintro ⟨h1, h2⟩
    have hlen' : nv.length = n + 1 := by omega
    have hne : nv ≠ [] := by
      intro he
      rw [he] at hlen'
      simp at hlen'
    have hgl := getLast?_eq_getD nv hne
    rw [hlen', show n + 1 - 1 = n from rfl] at hgl
    rw [hgl] at h2
    have hgd : 1 ≤ nv.getD n 0 := by
      rcases Nat.eq_zero_or_pos (nv.getD n 0) with h0 | h0
      · exact absurd (by rw [h0]) h2
      · omega
    have htop := ubVal_top_digit nv hd hne
    rw [hlen', show n + 1 - 1 = n from rfl] at htop
    have hb : 1 * 10 ^ n ≤ nv.getD n 0 * 10 ^ n :=
      Nat.mul_le_mul_right _ hgd
    have h3 := htop.1
    omega
  · intro hge
    have h0 : (0 : Nat) < 10 ^ n := Nat.pos_pow_of_pos _ (by omega)
    constructor
    · by_contra hcon
      push_neg at hcon
      have h1 := ubVal_lt_pow nv hd
      have hle : (10 : Nat) ^ nv.length ≤ 10 ^ n :=
        Nat.pow_le_pow_right (by omega) (by omega)
      omega
    · intro hgl0
      have hne : nv ≠ [] := by
        intro he
        rw [he] at hgl0
        simp at hgl0
      have hgl := getLast?_eq_getD nv hne
      rw [hgl0] at hgl
      have hgd : nv.getD (nv.length - 1) 0 = 0 :=
        (Option.some.inj hgl).symm
      have htop := ubVal_top_digit nv hd hne
      rw [hgd] at htop
      have h2 := htop.2
      have hle : (10 : Nat) ^ (nv.length - 1) ≤ 10 ^ n :=
        Nat.pow_le_pow_right (by omega) (by omega)
      omega

theorem normLoop_spec (v : List Nat) (n : Nat)
    (hnv : v.length = n) (hv : AllDigits v) (hVpos : 0 < ubVal v)
    (hVlt : ubVal v < 10 ^ n) :
    ∀ (k : Nat) (nv : List Nat), AllDigits nv → nv.length ≤ n + 1 →
      ubVal nv = k * ubVal v →
      ∃ d nv1, normLoop v n k nv = some (d, nv1)
        ∧ d ≤ k ∧ ubVal nv1 = d * ubVal v ∧ AllDigits nv1
        ∧ nv1.length ≤ n + 1 ∧ d * ubVal v < 10 ^ n
        ∧ (d < k → 10 ^ n ≤ (d + 1) * ubVal v) := by
  have h0 : (0 : Nat) < 10 ^ n := Nat.pos_pow_of_pos _ (by omega)
  intro k
  induction k with
  | zero =>
    intro nv hd hlen hval
    have hguard : ¬ (n < nv.length ∧ nv.getLast? ≠ some 0) := by
      rw [normGuard_iff nv n hd hlen]
      omega
    refine ⟨0, nv, ?_, Nat.le_refl 0, hval, hd, hlen, by omega, by omega⟩
    simp only [normLoop]
    rw [if_neg hguard]
  | succ k ih =>
    intro nv hd hlen hval
    by_cases hg : n < nv.length ∧ nv.getLast? ≠ some 0
    · have hge : 10 ^ n ≤ ubVal nv := (normGuard_iff nv n hd hlen).mp hg
      have hlen' : nv.length = n + 1 := by
        have := hg.1
        omega
      have hv0_dig : AllDigits (v ++ [0]) :=
        allDigits_append.mpr ⟨hv, by
          intro d hd'
          rw [List.mem_singleton] at hd'
          omega⟩
      have hv0_val : ubVal (v ++ [0]) = ubVal v := by
        rw [ubVal_append]
        simp [ubVal_cons, ubVal_nil]
      have hmulk : 1 * ubVal v ≤ (k + 1) * ubVal v :=
        Nat.mul_le_mul_right _ (by omega)
      obtain ⟨nv', hok, hval', hdig', hlen''⟩ := ub_sub_spec nv (v ++ [0])
        (by rw [hlen', List.length_append, hnv]; rfl) hd hv0_dig
        (by rw [hv0_val]; omega)
      rw [hv0_val] at hval'
      have hval'' : ubVal nv' = k * ubVal v := by
        have h1 : (k + 1) * ubVal v = k * ubVal v + ubVal v := by ring
        omega
      obtain ⟨d, nv1, hrec, hdk, hv1, hd1, hl1, hlt1, hbound⟩ :=
        ih nv' hdig' (by rw [hlen'', hlen']) hval''
      refine ⟨d, nv1, ?_, by omega, hv1, hd1, hl1, hlt1, ?_⟩
      · simp only [normLoop]
        rw [if_pos hg, hok]
        exact hrec
      · intro hdlt
        by_cases hdk2 : d < k
        · exact hbound hdk2
        · have hdeq : d = k := by omega
          subst hdeq
          rw [hval] at hge
          exact hge
    · have hnot : ¬ 10 ^ n ≤ ubVal nv := fun hc =>
        hg ((normGuard_iff nv n hd hlen).mpr hc)
      refine ⟨k + 1, nv, ?_, Nat.le_refl _, hval, hd, hlen, ?_, by
        intro h
        omega⟩
      · simp only [normLoop]
        rw [if_neg hg]
      · rw [← hval]
        omega

/-- `ub_div` is a correct division on cleaned digit magnitudes
(`2 ≤ len v ≤ len u`): quotient, remainder, their digit bounds and
cleanliness. -/
theorem ub_div_ok (u v : List Nat)
    (hcu : IsClean u) (hcv : IsClean v) (hu : AllDigits u) (hv : AllDigits v)
    (h2 : 2 ≤ v.length) (hlen : v.length ≤ u.length) :
    ∃ q r, ub_div u v = Except.ok (q, r)
      ∧ ubVal u = ubVal q * ubVal v + ubVal r
      ∧ ubVal r < ubVal v
      ∧ IsClean q ∧ IsClean r ∧ AllDigits q ∧ AllDigits r := by
  have hvne : v ≠ [] := by
    intro he
    rw [he] at h2
    simp at h2
  have hvn0 : v ≠ [0] := by
    intro he
    rw [he] at h2
    simp at h2
  have hune : u ≠ [] := by
    intro he
    have h0 : u.length = 0 := by rw [he]; rfl
    omega
  have hun0 : u ≠ [0] := by
    intro he
    have h0 : u.length = 1 := by rw [he]; rfl
    omega
  have htopv := ubVal_top_digit v hv hvne
  have hglv := getLast?_eq_getD v hvne
  have hglne := getLast_ne_zero_of_isClean v hcv hvne hvn0
  have ht1 : 1 ≤ v.getD (v.length - 1) 0 := by
    rcases Nat.eq_zero_or_pos (v.getD (v.length - 1) 0) with h0 | h0
    · exact absurd (by rw [hglv, h0]) hglne
    · omega
  have ht9 : v.getD (v.length - 1) 0 ≤ 9 := by
    have := getD_lt_ten hv (v.length - 1)
    omega
  have hppos : 0 < (10 : Nat) ^ (v.length - 1) := Nat.pos_pow_of_pos _ (by omega)
  have hVpos : 0 < ubVal v := by
    have h1 := htopv.1
    have hb : 1 * 10 ^ (v.length - 1) ≤ v.getD (v.length - 1) 0 * 10 ^ (v.length - 1) :=
      Nat.mul_le_mul_right _ ht1
    omega
  have hVlt : ubVal v < 10 ^ v.length := ubVal_lt_pow v hv
  have hUlt : ubVal u < 10 ^ u.length := ubVal_lt_pow u hu
  have hpw : (10 : Nat) ^ v.length = 10 ^ (v.length - 1) * 10 := by
    rw [← pow_succ]
    congr 1
    omega
  have hn0le : 9 / v.getD (v.length - 1) 0 ≤ 9 := Nat.div_le_self 9 _
  have hn0ge : 1 ≤ 9 / v.getD (v.length - 1) 0 :=
    (Nat.le_div_iff_mul_le (by omega)).mpr (by omega)
  obtain ⟨hmv, hmd, hmc, hml⟩ := ub_mul_single v (9 / v.getD (v.length - 1) 0)
    hv hcv h2
    (by
      have ha : 9 / v.getD (v.length - 1) 0 * ubVal v ≤ 9 * ubVal v :=
        Nat.mul_le_mul_right _ hn0le
      have hb : (10 : Nat) ^ (v.length + 1) = 10 * 10 ^ v.length := by ring
      omega)
  obtain ⟨d, nv1, hloop, hdle, hnv1val, hnv1dig, hnv1len, hdZlt, hdbound⟩ :=
    normLoop_spec v v.length rfl hv hVpos hVlt (9 / v.getD (v.length - 1) 0)
      (ub_mul v [9 / v.getD (v.length - 1) 0]) hmd hml hmv
  have hd1 : 1 ≤ d := by
    by_cases hdn : d < 9 / v.getD (v.length - 1) 0
    · have hb := hdbound hdn
      by_contra hc
      push_neg at hc
      have hd0 : d = 0 := by omega
      rw [hd0] at hb
      omega
    · omega
  have hd9 : d ≤ 9 := by omega
  have hnorm5 : 5 * 10 ^ (v.length - 1) ≤ d * ubVal v := by
    have htv1 := htopv.1
    have htv2 := htopv.2
    by_cases hdn : d < 9 / v.getD (v.length - 1) 0
    · have hb := hdbound hdn
      have hb' : (d + 1) * ubVal v = d * ubVal v + ubVal v := by ring
      have ht4 : v.getD (v.length - 1) 0 ≤ 4 := by
        by_contra hc
        push_neg at hc
        have h91 : 9 / v.getD (v.length - 1) 0 = 1 :=
          Nat.div_eq_of_lt_le (by omega) (by omega)
        omega
      have hVle : ubVal v < 5 * 10 ^ (v.length - 1) := by
        have h1 : (v.getD (v.length - 1) 0 + 1) * 10 ^ (v.length - 1)
            ≤ 5 * 10 ^ (v.length - 1) := Nat.mul_le_mul_right _ (by omega)
        omega
      omega
    · have hdeq : d = 9 / v.getD (v.length - 1) 0 := by omega
      have ht5 : 5 ≤ v.getD (v.length - 1) 0
          * (9 / v.getD (v.length - 1) 0) := by
        by_cases hc : v.getD (v.length - 1) 0 ≤ 5
        · have hdm9 := Nat.div_add_mod 9 (v.getD (v.length - 1) 0)
          have hm := Nat.mod_lt 9 (show 0 < v.getD (v.length - 1) 0 by omega)
          omega
        · have h91 : 9 / v.getD (v.length - 1) 0 = 1 :=
            Nat.div_eq_of_lt_le (by omega) (by omega)
          rw [h91]
          omega
      have h1 : 9 / v.getD (v.length - 1) 0
            * (v.getD (v.length - 1) 0 * 10 ^ (v.length - 1))
          ≤ 9 / v.getD (v.length - 1) 0 * ubVal v :=
        Nat.mul_le_mul_left _ htv1
      have h2' : 9 / v.getD (v.length - 1) 0
            * (v.getD (v.length - 1) 0 * 10 ^ (v.length - 1))
          = v.getD (v.length - 1) 0 * (9 / v.getD (v.length - 1) 0)
            * 10 ^ (v.length - 1) := by ring
      have h3 : 5 * 10 ^ (v.length - 1)
          ≤ v.getD (v.length - 1) 0 * (9 / v.getD (v.length - 1) 0)
            * 10 ^ (v.length - 1) := Nat.mul_le_mul_right _ ht5
      rw [hdeq]
      omega
  -- the popped, exactly-n-digit normalised divisor
  have hNV : (if v.length < nv1.length then
        (if nv1.getLast? = some 0
          then Except.ok (nv1.take (nv1.length - 1))
          else Except.error "last is not 0 after normal correction")
        else Except.ok nv1)
      = Except.ok (if v.length < nv1.length
          then nv1.take (nv1.length - 1) else nv1)
    ∧ ubVal (if v.length < nv1.length
        then nv1.take (nv1.length - 1) else nv1) = d * ubVal v
    ∧ AllDigits (if v.length < nv1.length
        then nv1.take (nv1.length - 1) else nv1)
    ∧ (if v.length < nv1.length
        then nv1.take (nv1.length - 1) else nv1).length = v.length := by
    by_cases hpop : v.length < nv1.length
    · simp only [if_pos hpop]
      have hlen1 : nv1.length = v.length + 1 := by omega
      have hne1 : nv1 ≠ [] := by
        intro he
        rw [he] at hlen1
        simp at hlen1
      have htop1 := ubVal_top_digit nv1 hnv1dig hne1
      rw [show nv1.length - 1 = v.length from by omega] at htop1
      have htz : nv1.getD v.length 0 = 0 := by
        by_contra hc
        have h1' : 1 ≤ nv1.getD v.length 0 := by omega
        have hb := Nat.mul_le_mul_right (10 ^ v.length) h1'
        have hl := htop1.1
        rw [hnv1val] at hl
        omega
      have hgl1 : nv1.getLast? = some 0 := by
        have hg := getLast?_eq_getD nv1 hne1
        rw [show nv1.length - 1 = v.length from by omega, htz] at hg
        exact hg
      rw [if_pos hgl1]
      have hval1 : ubVal (nv1.take (nv1.length - 1)) = d * ubVal v := by
        rw [show nv1.length - 1 = v.length from by omega]
        have h1 := ubVal_take_mod nv1 v.length hnv1dig
        rw [hnv1val, Nat.mod_eq_of_lt hdZlt] at h1
        exact h1
      refine ⟨rfl, hval1, allDigits_take _ _ hnv1dig, ?_⟩
      rw [List.length_take, min_eq_left (by omega)]
      omega
    · simp only [if_neg hpop]
      have hlenlow : v.length ≤ nv1.length := by
        by_contra hc
        push_neg at hc
        have h1 := ubVal_lt_pow nv1 hnv1dig
        rw [hnv1val] at h1
        have hle : (10 : Nat) ^ nv1.length ≤ 10 ^ (v.length - 1) :=
          Nat.pow_le_pow_right (by omega) (by omega)
        omega
      exact ⟨trivial, hnv1val, hnv1dig, by omega⟩
  obtain ⟨hpopEq, hNVval, hNVdig, hNVlen⟩ := hNV
  have hNVne : (if v.length < nv1.length
      then nv1.take (nv1.length - 1) else nv1) ≠ [] := by
    intro he
    rw [he] at hNVlen
    simp at hNVlen
    omega
  have htopNV := ubVal_top_digit _ hNVdig hNVne
  rw [hNVlen, hNVval] at htopNV
  have hNV5 : 5 ≤ (if v.length < nv1.length
      then nv1.take (nv1.length - 1) else nv1).getD (v.length - 1) 0 := by
    by_contra hc
    push_neg at hc
    have h1 : ((if v.length < nv1.length
          then nv1.take (nv1.length - 1) else nv1).getD (v.length - 1) 0 + 1)
          * 10 ^ (v.length - 1)
        ≤ 5 * 10 ^ (v.length - 1) := Nat.mul_le_mul_right _ (by omega)
    have h2' := htopNV.2
    omega
  have hNV5' : 5 ≤ (if v.length < nv1.length
      then nv1.take (nv1.length - 1) else nv1).getD
        ((if v.length < nv1.length
          then nv1.take (nv1.length - 1) else nv1).length - 1) 0 := by
    rw [hNVlen]
    exact hNV5
  have hNVclean : IsClean (if v.length < nv1.length
      then nv1.take (nv1.length - 1) else nv1) := by
    apply ub_clean_eq_self
    rw [getLast?_eq_getD _ hNVne, hNVlen]
    intro hc
    have := Option.some.inj hc
    omega
  -- the normalised dividend
  obtain ⟨hmu, hmud, hmuc, hmul⟩ := ub_mul_single u d hu hcu (by omega)
    (by
      have ha : d * ubVal u ≤ 9 * ubVal u := Nat.mul_le_mul_right _ hd9
      have hb : (10 : Nat) ^ (u.length + 1) = 10 * 10 ^ u.length := by ring
      omega)
  have hU1 : 10 ^ (u.length - 1) ≤ ubVal u := pow_le_ubVal_of_isClean u hcu hune hun0
  have hnu0len : v.length ≤ (ub_mul u [d]).length := by
    by_contra hc
    push_neg at hc
    have h1 := ubVal_lt_pow _ hmud
    rw [hmu] at h1
    have hdu : 1 * ubVal u ≤ d * ubVal u := Nat.mul_le_mul_right _ hd1
    have hle : (10 : Nat) ^ (ub_mul u [d]).length ≤ 10 ^ (u.length - 1) := by
      apply Nat.pow_le_pow_right (by omega)
      omega
    omega
  have hnuval : ubVal (if (ub_mul u [d]).length = (if v.length < nv1.length
        then nv1.take (nv1.length - 1) else nv1).length
      then ub_mul u [d] ++ [0] else ub_mul u [d]) = d * ubVal u := by
    by_cases hc : (ub_mul u [d]).length = (if v.length < nv1.length
        then nv1.take (nv1.length - 1) else nv1).length
    · rw [if_pos hc, ubVal_append]
      rw [show ubVal [0] = 0 from rfl, Nat.mul_zero, Nat.add_zero]
      exact hmu
    · rw [if_neg hc]
      exact hmu
  have hnudig : AllDigits (if (ub_mul u [d]).length = (if v.length < nv1.length
        then nv1.take (nv1.length - 1) else nv1).length
      then ub_mul u [d] ++ [0] else ub_mul u [d]) := by
    by_cases hc : (ub_mul u [d]).length = (if v.length < nv1.length
        then nv1.take (nv1.length - 1) else nv1).length
    · rw [if_pos hc]
      refine allDigits_append.mpr ⟨hmud, ?_⟩
      intro x hx
      rw [List.mem_singleton] at hx
      omega
    · rw [if_neg hc]
      exact hmud
  have hnulen : v.length ≤ (if (ub_mul u [d]).length = (if v.length < nv1.length
        then nv1.take (nv1.length - 1) else nv1).length
      then ub_mul u [d] ++ [0] else ub_mul u [d]).length := by
    by_cases hc : (ub_mul u [d]).length = (if v.length < nv1.length
        then nv1.take (nv1.length - 1) else nv1).length
    · rw [if_pos hc, List.length_append]
      omega
    · rw [if_neg hc]
      exact hnu0len
  obtain ⟨Q, R, hinner, hQval, hRval, hQclean, hQdig, hRdig, hRlen⟩ :=
    inner_div_spec _ _ v.length h2 hNVlen hNVdig hNVclean hNV5 hnudig hnulen
  rw [hnuval, hNVval] at hQval hRval
  have hQU : ubVal Q = ubVal u / ubVal v := by
    rw [hQval, Nat.mul_div_mul_left _ _ (by omega : 0 < d)]
  have hRd : ubVal R = d * (ubVal u % ubVal v) := by
    rw [hRval, Nat.mul_mod_mul_left]
  obtain ⟨qr, r0, hshort, hqrval, hr0, hqrclean, hqrdig⟩ :=
    ub_shortdiv_spec R d (by omega) (by omega) hRdig
  have hqrU : ubVal qr = ubVal u % ubVal v := by
    rw [hqrval, hRd, Nat.mul_div_cancel_left _ (by omega : 0 < d)]
  have hr0z : r0 = 0 := by
    rw [hr0, hRd, Nat.mul_mod_right]
  refine ⟨Q, qr, ?_, ?_, ?_, hQclean, hqrclean, hQdig, hqrdig⟩
  · simp only [ub_div]
    rw [if_neg (not_not_intro (show 1 < v.length from by omega)),
      if_neg (not_not_intro hlen),
      if_neg (show ¬ v.getD (v.length - 1) 0 = 0 from by omega)]
    simp only [hloop]
    simp only [hpopEq]
    rw [if_neg (not_not_intro hNV5')]
    simp only [hinner]
    simp only [hshort]
    rw [if_neg (show ¬ r0 ≠ 0 from not_not_intro hr0z)]
  · have hdm := Nat.div_add_mod (ubVal u) (ubVal v)
    have hcomm : ubVal v * (ubVal u / ubVal v) = ubVal u / ubVal v * ubVal v :=
      Nat.mul_comm _ _
    rw [hQU, hqrU]
    omega
  · rw [hqrU]
    exact Nat.mod_lt _ hVpos

/-- C1: Knuth's Algorithm D as implemented by `ub_div` is correct. For every
pair of cleaned digit magnitudes `u`, `v` with `2 ≤ len v ≤ len u`,
`ub_div u v` returns `Ok (q, r)` with `value u = value q * value v + value r`
and `value r < value v`, where `q` and `r` are cleaned and all their digits
lie in `[0, 9]`. Reaching `Ok` also certifies the internal invariants of the
claim: every trial quotient digit was in `[0, 9]` (they are the digits of
`q`), and the short division that unnormalises the remainder left remainder
exactly zero (the `r0 != 0` branch returns an error instead of `Ok`). -/
theorem C1_ub_div_algorithm_d_correct (u v : List Nat)
    (hcu : IsClean u) (hcv : IsClean v) (hu : AllDigits u) (hv : AllDigits v)
    (h2 : 2 ≤ v.length) (hlen : v.length ≤ u.length) :
    ∃ q r, ub_div u v = Except.ok (q, r)
      ∧ ubVal u = ubVal q * ubVal v + ubVal r
      ∧ ubVal r < ubVal v
      ∧ IsClean q ∧ IsClean r ∧ AllDigits q ∧ AllDigits r :=
  ub_div_ok u v hcu hcv hu hv h2 hlen

/-- Witness for C1 at the concrete division `2763 / 364` from the crate's
own doctest (digits least-significant first). -/
theorem C1_witness :
    ∃ q r, ub_div [3, 6, 7, 2] [4, 6, 3] = Except.ok (q, r)
      ∧ ubVal [3, 6, 7, 2] = ubVal q * ubVal [4, 6, 3] + ubVal r
      ∧ ubVal r < ubVal [4, 6, 3]
      ∧ IsClean q ∧ IsClean r ∧ AllDigits q ∧ AllDigits r :=
  C1_ub_div_algorithm_d_correct [3, 6, 7, 2] [4, 6, 3]
    (by unfold IsClean; rfl) (by unfold IsClean; rfl)
    (by unfold AllDigits; decide) (by unfold AllDigits; decide)
    (by decide) (by decide)

/-- C8: refuted. `bn_sub(a, a)` does not return a value with
`negative = false` for every `a`: for the canonical `a = 0.5` the
subtraction produces the raw value `0` with scale `1`, whose `clean` (inside
`BigNum::new`) trims the single zero digit away and then panics in
`is_zero` ("BigNum does not have any digit") — `cleanPanics ⟨false,[0],1⟩`;
the total model returns a value with an *empty* magnitude instead. Nor
does every zero-denoting result of an operation have `negative = false`:
`divide(0, -10)` takes the power-of-ten path, whose `clean` receives
`-0` with scale `1` and panics the same way; the total model returns a
negative zero (`val = 0`, `negative = true`, empty magnitude). -/
theorem C8_sub_self_and_zero_sign_fail :
    (bn_subF 2 ⟨false, [5], 1⟩ ⟨false, [5], 1⟩ = some ⟨false, [], 0⟩
      ∧ Canonical ⟨false, [5], 1⟩
      ∧ cleanPanics ⟨false, [0], 1⟩
      ∧ isZeroPanics (⟨false, [], 0⟩ : BigNum))
    ∧ (bn_div BigNum.zero ⟨true, [0, 1], 0⟩ = .ok ⟨true, [], 0⟩
      ∧ Canonical ⟨true, [0, 1], 0⟩
      ∧ BigNum.val ⟨true, [], 0⟩ = 0
      ∧ BigNum.is_negative ⟨true, [], 0⟩ = true
      ∧ cleanPanics ⟨true, [0], 1⟩
      ∧ isZeroPanics (⟨true, [], 0⟩ : BigNum)) := by
  refine ⟨⟨?_, ?_, ?_, ?_⟩, ⟨?_, ?_, ?_, ?_, ?_, ?_⟩⟩
  · rfl
  · decide
  · exact ⟨by decide, rfl⟩
  · rfl
  · rfl
  · decide
  · norm_num [BigNum.val, ubVal]
  · rfl
  · exact ⟨by decide, rfl⟩
  · rfl

/-! ## Formatting and parsing lemmas for the round trip (C7) -/

theorem charToDigit_digitChar (d : Nat) (h : d < 10) :
    charToDigit (digitChar d) = some d := by
  interval_cases d <;> decide

theorem digitChar_ne_dot (d : Nat) (h : d < 10) : digitChar d ≠ '.' := by
  interval_cases d <;> decide

theorem digitChar_ne_space (d : Nat) (h : d < 10) : digitChar d ≠ ' ' := by
  interval_cases d <;> decide

theorem digitChar_ne_minus (d : Nat) (h : d < 10) : digitChar d ≠ '-' := by
  interval_cases d <;> decide

theorem digitChar_ne_plus (d : Nat) (h : d < 10) : digitChar d ≠ '+' := by
  interval_cases d <;> decide

theorem mapM_charToDigit_map (l : List Nat) (h : AllDigits l) :
    (l.map digitChar).mapM charToDigit = some l := by
  induction l with
  | nil => rfl
  | cons d rest ih =>
    have hd : d < 10 := h d (List.mem_cons_self d rest)
    have hr := ih fun x hx => h x (List.mem_cons_of_mem _ hx)
    simp only [List.map_cons, List.mapM_cons, charToDigit_digitChar d hd, hr]
    rfl

theorem fmtDigits_no_dot (D : Int) (l : List Nat) : ∀ (i : Nat),
    (∀ j, i ≤ j → j < i + l.length → ¬(j = (D.emod (2 ^ 64)).toNat ∧ 0 < j)) →
    fmtDigits D l i = l.map digitChar := by
  induction l with
  | nil => intro i _; rfl
  | cons d rest ih =>
    intro i h
    simp only [fmtDigits]
    rw [if_neg (h i (Nat.le_refl i) (by simp only [List.length_cons]; omega))]
    rw [List.nil_append,
      ih (i + 1) (fun j hj1 hj2 => h j (by omega)
        (by simp only [List.length_cons] at hj2 ⊢; omega))]
    rfl

theorem fmtDigits_dot (D : Int) (h0 : 0 ≤ D) (h64 : D < 2 ^ 64)
    (l : List Nat) : ∀ (i : Nat), i ≤ D.toNat → 0 < D.toNat →
    D.toNat < i + l.length →
    fmtDigits D l i = (l.take (D.toNat - i)).map digitChar
      ++ '.' :: (l.drop (D.toNat - i)).map digitChar := by
  have hemod : (D.emod (2 ^ 64)).toNat = D.toNat := by
    have h1 : D.emod (2 ^ 64) = D % 2 ^ 64 := rfl
    rw [h1, Int.emod_eq_of_lt h0 h64]
  induction l with
  | nil =>
    intro i _ _ hlt
    simp only [List.length_nil] at hlt
    omega
  | cons d rest ih =>
    intro i hile hpos hlt
    simp only [fmtDigits]
    by_cases heq : i = D.toNat
    · rw [if_pos (by rw [hemod]; exact ⟨heq, by omega⟩)]
      rw [show D.toNat - i = 0 from by omega]
      rw [fmtDigits_no_dot D rest (i + 1)
        (fun j hj1 hj2 => by rw [hemod]; intro hc; omega)]
      rfl
    · rw [if_neg (by rw [hemod]; intro hc; exact heq hc.1)]
      rw [List.nil_append, ih (i + 1) (by omega) hpos
        (by simp only [List.length_cons] at hlt ⊢; omega)]
      rw [show D.toNat - i = (D.toNat - (i + 1)) + 1 from by omega]
      rfl

theorem dotScan_no_dot (len : Nat) : ∀ (l : List Char) (i : Nat) (df : Bool)
    (p : Nat), '.' ∉ l → dotScan len l i df p = .ok p := by
  intro l
  induction l with
  | nil => intro i df p _; rfl
  | cons c rest ih =>
    intro i df p h
    have hc : c ≠ '.' := fun hc => h (hc ▸ List.mem_cons_self c rest)
    have hr : '.' ∉ rest := fun hm => h (List.mem_cons_of_mem _ hm)
    simp only [dotScan]
    rw [if_neg (fun hx => hc hx.1), if_neg hc]
    exact ih (i + 1) df p hr

theorem dotScan_dot (len : Nat) (A B : List Char) (hA : '.' ∉ A)
    (hB : '.' ∉ B) : ∀ (i p : Nat),
    dotScan len (A ++ '.' :: B) i false p = .ok (len - (i + A.length) - 1) := by
  induction A with
  | nil =>
    intro i p
    simp only [List.nil_append, dotScan]
    rw [if_pos trivial]
    rw [dotScan_no_dot len B (i + 1) true (len - i - 1) hB]
    simp only [List.length_nil]
    rw [show i + 0 = i from rfl]
    rw [if_neg (by decide)]
  | cons a A' ih =>
    intro i p
    have ha : a ≠ '.' := fun hc => hA (hc ▸ List.mem_cons_self a A')
    have hA' : '.' ∉ A' := fun hm => hA (List.mem_cons_of_mem _ hm)
    simp only [List.cons_append, dotScan]
    rw [if_neg (fun hx => ha hx.1), if_neg ha]
    simp only [List.append_eq]
    rw [ih hA' (i + 1) p]
    simp only [List.length_cons]
    rw [show i + (A'.length + 1) = i + 1 + A'.length from by omega]


set_option maxHeartbeats 1000000

theorem all_lt_ten_of_allDigits (l : List Nat) (h : AllDigits l) :
    l.all (· < 10) = true := by
  rw [List.all_eq_true]
  intro d hd
  exact decide_eq_true (h d hd)

theorem dot_not_mem_map (l : List Nat) (h : AllDigits l) :
    '.' ∉ l.map digitChar := by
  intro hm
  obtain ⟨d, hd, he⟩ := List.mem_map.mp hm
  exact digitChar_ne_dot d (h d hd) he

theorem filter_ne_space_eq_self (l : List Char) (h : ∀ c ∈ l, c ≠ ' ') :
    l.filter (· ≠ ' ') = l := by
  rw [List.filter_eq_self]
  intro a ha
  exact decide_eq_true (h a ha)

theorem from_string_dotted_neg (A B : List Nat) (hA : AllDigits A)
    (hB : AllDigits B) :
    from_string ('-' :: (A.map digitChar ++ '.' :: B.map digitChar))
      = .ok (BigNum.clean
          ⟨(if ub_clean (B.reverse ++ A.reverse) = [0] then false else true),
            ub_clean (B.reverse ++ A.reverse), B.length % 2 ^ 32⟩) := by
  have hf : ('-' :: (A.map digitChar ++ '.' :: B.map digitChar)).filter (· ≠ ' ')
      = '-' :: (A.map digitChar ++ '.' :: B.map digitChar) := by
    apply filter_ne_space_eq_self
    intro c hc
    rcases List.mem_cons.mp hc with h1 | h1
    · subst h1; decide
    · rcases List.mem_append.mp h1 with h2 | h2
      · obtain ⟨d, hd, he⟩ := List.mem_map.mp h2
        exact he ▸ digitChar_ne_space d (hA d hd)
      · rcases List.mem_cons.mp h2 with h3 | h3
        · subst h3; decide
        · obtain ⟨d, hd, he⟩ := List.mem_map.mp h3
          exact he ▸ digitChar_ne_space d (hB d hd)
  have hds : dotScan (A.map digitChar ++ '.' :: B.map digitChar).length
        (A.map digitChar ++ '.' :: B.map digitChar) 0 false 0
      = .ok ((A.map digitChar ++ '.' :: B.map digitChar).length
          - (0 + (A.map digitChar).length) - 1) :=
    dotScan_dot _ _ _ (dot_not_mem_map A hA) (dot_not_mem_map B hB) 0 0
  have hlen : (A.map digitChar ++ '.' :: B.map digitChar).length
      - (0 + (A.map digitChar).length) - 1 = B.length := by
    simp [List.length_append, List.length_map]
  rw [hlen] at hds
  have hfd : (A.map digitChar ++ '.' :: B.map digitChar).filter (· ≠ '.')
      = (A ++ B).map digitChar := by
    rw [List.filter_append, List.map_append]
    congr 1
    · rw [List.filter_eq_self]
      intro a ha
      obtain ⟨d, hd, he⟩ := List.mem_map.mp ha
      exact decide_eq_true (he ▸ digitChar_ne_dot d (hA d hd))
    · rw [List.filter_cons_of_neg (by simp)]
      rw [List.filter_eq_self]
      intro a ha
      obtain ⟨d, hd, he⟩ := List.mem_map.mp ha
      exact decide_eq_true (he ▸ digitChar_ne_dot d (hB d hd))
  have hrev : ((A ++ B).map digitChar).reverse
      = (B.reverse ++ A.reverse).map digitChar := by
    rw [← List.map_reverse, List.reverse_append]
  have hmm : ((B.reverse ++ A.reverse).map digitChar).mapM charToDigit
      = some (B.reverse ++ A.reverse) := by
    apply mapM_charToDigit_map
    intro d hd
    rcases List.mem_append.mp hd with h1 | h1
    · exact hB d (List.mem_reverse.mp h1)
    · exact hA d (List.mem_reverse.mp h1)
  simp only [from_string, hf, List.head?_cons, List.isEmpty_cons,
    Bool.false_eq_true, if_false, List.tail_cons]
  simp only [if_true, Option.isSome_some, eq_self_iff_true, hds, hfd, hrev,
    hmm]
  simp only [BigNum.new, all_lt_ten_of_allDigits _
    (allDigits_ub_clean (fun d hd => by
      rcases List.mem_append.mp hd with h1 | h1
      · exact hB d (List.mem_reverse.mp h1)
      · exact hA d (List.mem_reverse.mp h1))), eq_self_iff_true, if_true]
  by_cases hz : ub_clean (B.reverse ++ A.reverse) = [0]
  · rw [if_pos hz, if_pos hz]
    rfl
  · rw [if_neg hz, if_neg hz]
    rfl

theorem from_string_dotted_pos (d0 : Nat) (A B : List Nat) (hd0 : d0 < 10)
    (hA : AllDigits A) (hB : AllDigits B) :
    from_string ((d0 :: A).map digitChar ++ '.' :: B.map digitChar)
      = .ok (BigNum.clean
          ⟨false, ub_clean (B.reverse ++ (d0 :: A).reverse),
            B.length % 2 ^ 32⟩) := by
  have hA2 : AllDigits (d0 :: A) := by
    intro d hd
    rcases List.mem_cons.mp hd with h1 | h1
    · omega
    · exact hA d h1
  have hcons : (d0 :: A).map digitChar ++ '.' :: B.map digitChar
      = digitChar d0 :: (A.map digitChar ++ '.' :: B.map digitChar) := by
    rw [List.map_cons, List.cons_append]
  have hf : ((d0 :: A).map digitChar ++ '.' :: B.map digitChar).filter (· ≠ ' ')
      = (d0 :: A).map digitChar ++ '.' :: B.map digitChar := by
    apply filter_ne_space_eq_self
    intro c hc
    rcases List.mem_append.mp hc with h1 | h1
    · obtain ⟨d, hd, he⟩ := List.mem_map.mp h1
      exact he ▸ digitChar_ne_space d (hA2 d hd)
    · rcases List.mem_cons.mp h1 with h3 | h3
      · subst h3; decide
      · obtain ⟨d, hd, he⟩ := List.mem_map.mp h3
        exact he ▸ digitChar_ne_space d (hB d hd)
  have hds : dotScan ((d0 :: A).map digitChar ++ '.' :: B.map digitChar).length
        ((d0 :: A).map digitChar ++ '.' :: B.map digitChar) 0 false 0
      = .ok (((d0 :: A).map digitChar ++ '.' :: B.map digitChar).length
          - (0 + ((d0 :: A).map digitChar).length) - 1) :=
    dotScan_dot _ _ _ (dot_not_mem_map _ hA2) (dot_not_mem_map B hB) 0 0
  have hlen : ((d0 :: A).map digitChar ++ '.' :: B.map digitChar).length
      - (0 + ((d0 :: A).map digitChar).length) - 1 = B.length := by
    simp [List.length_append, List.length_map]
  rw [hlen] at hds
  have hfd : ((d0 :: A).map digitChar ++ '.' :: B.map digitChar).filter (· ≠ '.')
      = ((d0 :: A) ++ B).map digitChar := by
    rw [List.filter_append, List.map_append]
    congr 1
    · rw [List.filter_eq_self]
      intro a ha
      obtain ⟨d, hd, he⟩ := List.mem_map.mp ha
      exact decide_eq_true (he ▸ digitChar_ne_dot d (hA2 d hd))
    · rw [List.filter_cons_of_neg (by simp)]
      rw [List.filter_eq_self]
      intro a ha
      obtain ⟨d, hd, he⟩ := List.mem_map.mp ha
      exact decide_eq_true (he ▸ digitChar_ne_dot d (hB d hd))
  have hrev : (((d0 :: A) ++ B).map digitChar).reverse
      = (B.reverse ++ (d0 :: A).reverse).map digitChar := by
    rw [← List.map_reverse, List.reverse_append]
  have hmm : ((B.reverse ++ (d0 :: A).reverse).map digitChar).mapM charToDigit
      = some (B.reverse ++ (d0 :: A).reverse) := by
    apply mapM_charToDigit_map
    intro d hd
    rcases List.mem_append.mp hd with h1 | h1
    · exact hB d (List.mem_reverse.mp h1)
    · exact hA2 d (List.mem_reverse.mp h1)
  have hhead : ((d0 :: A).map digitChar ++ '.' :: B.map digitChar).head?
      = some (digitChar d0) := by
    rw [hcons]
    rfl
  have hie : ((d0 :: A).map digitChar ++ '.' :: B.map digitChar).isEmpty
      = false := by
    rw [hcons]
    rfl
  simp only [from_string, hf, hie, Bool.false_eq_true, if_false, hhead]
  rw [if_neg (digitChar_ne_minus d0 hd0), if_neg (digitChar_ne_plus d0 hd0)]
  simp only [Option.isSome_none, Bool.false_eq_true, if_false]
  simp only [hds, hfd, hrev, hmm]
  simp only [BigNum.new, all_lt_ten_of_allDigits _
    (allDigits_ub_clean (fun d hd => by
      rcases List.mem_append.mp hd with h1 | h1
      · exact hB d (List.mem_reverse.mp h1)
      · exact hA2 d (List.mem_reverse.mp h1))), eq_self_iff_true, if_true]
  by_cases hz : ub_clean (B.reverse ++ (d0 :: A).reverse) = [0]
  · rw [if_pos hz]
    rfl
  · rw [if_neg hz]
    rfl

theorem from_string_plain_neg (A : List Nat) (hA : AllDigits A) :
    from_string ('-' :: A.map digitChar)
      = .ok (BigNum.clean
          ⟨(if ub_clean A.reverse = [0] then false else true),
            ub_clean A.reverse, 0 % 2 ^ 32⟩) := by
  have hf : ('-' :: A.map digitChar).filter (· ≠ ' ')
      = '-' :: A.map digitChar := by
    apply filter_ne_space_eq_self
    intro c hc
    rcases List.mem_cons.mp hc with h1 | h1
    · subst h1; decide
    · obtain ⟨d, hd, he⟩ := List.mem_map.mp h1
      exact he ▸ digitChar_ne_space d (hA d hd)
  have hds : dotScan (A.map digitChar).length (A.map digitChar) 0 false 0
      = .ok 0 := dotScan_no_dot _ _ 0 false 0 (dot_not_mem_map A hA)
  have hfd : (A.map digitChar).filter (· ≠ '.') = A.map digitChar := by
    rw [List.filter_eq_self]
    intro a ha
    obtain ⟨d, hd, he⟩ := List.mem_map.mp ha
    exact decide_eq_true (he ▸ digitChar_ne_dot d (hA d hd))
  have hrev : ((A.map digitChar)).reverse = A.reverse.map digitChar := by
    rw [← List.map_reverse]
  have hmm : (A.reverse.map digitChar).mapM charToDigit = some A.reverse := by
    apply mapM_charToDigit_map
    intro d hd
    exact hA d (List.mem_reverse.mp hd)
  simp only [from_string, hf, List.head?_cons, List.isEmpty_cons,
    Bool.false_eq_true, if_false, List.tail_cons]
  simp only [if_true, Option.isSome_some, eq_self_iff_true, hds, hfd, hrev,
    hmm]
  simp only [BigNum.new, all_lt_ten_of_allDigits _
    (allDigits_ub_clean (fun d hd => hA d (List.mem_reverse.mp hd))),
    eq_self_iff_true, if_true]
  by_cases hz : ub_clean A.reverse = [0]
  · rw [if_pos hz, if_pos hz]
    rfl
  · rw [if_neg hz, if_neg hz]
    rfl

theorem from_string_plain_pos (d0 : Nat) (A : List Nat) (hd0 : d0 < 10)
    (hA : AllDigits A) :
    from_string ((d0 :: A).map digitChar)
      = .ok (BigNum.clean
          ⟨false, ub_clean (d0 :: A).reverse, 0 % 2 ^ 32⟩) := by
  have hA2 : AllDigits (d0 :: A) := by
    intro d hd
    rcases List.mem_cons.mp hd with h1 | h1
    · omega
    · exact hA d h1
  have hf : ((d0 :: A).map digitChar).filter (· ≠ ' ')
      = (d0 :: A).map digitChar := by
    apply filter_ne_space_eq_self
    intro c hc
    obtain ⟨d, hd, he⟩ := List.mem_map.mp hc
    exact he ▸ digitChar_ne_space d (hA2 d hd)
  have hds : dotScan ((d0 :: A).map digitChar).length ((d0 :: A).map digitChar)
      0 false 0 = .ok 0 :=
    dotScan_no_dot _ _ 0 false 0 (dot_not_mem_map _ hA2)
  have hfd : ((d0 :: A).map digitChar).filter (· ≠ '.')
      = (d0 :: A).map digitChar := by
    rw [List.filter_eq_self]
    intro a ha
    obtain ⟨d, hd, he⟩ := List.mem_map.mp ha
    exact decide_eq_true (he ▸ digitChar_ne_dot d (hA2 d hd))
  have hrev : (((d0 :: A)).map digitChar).reverse
      = (d0 :: A).reverse.map digitChar := by
    rw [← List.map_reverse]
  have hmm : ((d0 :: A).reverse.map digitChar).mapM charToDigit
      = some (d0 :: A).reverse := by
    apply mapM_charToDigit_map
    intro d hd
    exact hA2 d (List.mem_reverse.mp hd)
  have hhead : ((d0 :: A).map digitChar).head? = some (digitChar d0) := rfl
  have hie : ((d0 :: A).map digitChar).isEmpty = false := rfl
  simp only [from_string, hf, hie, Bool.false_eq_true, if_false, hhead]
  rw [if_neg (digitChar_ne_minus d0 hd0), if_neg (digitChar_ne_plus d0 hd0)]
  simp only [Option.isSome_none, Bool.false_eq_true, if_false]
  simp only [hds, hfd, hrev, hmm]
  simp only [BigNum.new, all_lt_ten_of_allDigits _
    (allDigits_ub_clean (fun d hd => hA2 d (List.mem_reverse.mp hd))),
    eq_self_iff_true, if_true]
  by_cases hz : ub_clean (d0 :: A).reverse = [0]
  · rw [if_pos hz]
    rfl
  · rw [if_neg hz]
    rfl

theorem trimFrac_eq_self (l : List Nat) (p : Nat)
    (h : 0 < p → l.head? ≠ some 0) : trimFrac l p = (l, p) := by
  cases l with
  | nil => cases p <;> rfl
  | cons a t =>
    cases p with
    | zero => cases a <;> rfl
    | succ p' =>
      cases a with
      | zero => exact absurd rfl (h (Nat.succ_pos p'))
      | succ a' => rfl

theorem clean_of_canonical (x : BigNum) (hx : Canonical x) :
    BigNum.clean x = x := by
  obtain ⟨hclean, hne, hdig, hmin, hnegz, hp32, hl63⟩ := hx
  have hcl : ub_clean x.abs = x.abs := hclean
  simp only [BigNum.clean]
  rw [if_neg (show ¬ x.abs.isEmpty = true from by
    intro hc
    exact hne (List.isEmpty_iff.mp hc))]
  rw [trimFrac_eq_self x.abs x.power hmin]
  simp only [hcl]
  by_cases h0 : x.abs = [0]
  · rw [if_pos h0]
    rw [show (⟨false, x.abs, x.power⟩ : BigNum) = x from by
      rw [← hnegz h0]]
  · rw [if_neg h0]

theorem toStr_case_int (x : BigNum) (hp : x.power = 0) (hne : x.abs ≠ [])
    (hl63 : x.abs.length < 2 ^ 63) :
    x.toStr = (if x.negative then ['-'] else [])
      ++ x.abs.reverse.map digitChar := by
  have hnb : 0 < x.abs.length := List.length_pos.mpr hne
  have hD0 : (0 : Int) ≤ (x.abs.length : Int) - (x.power : Int) := by omega
  have hD64 : ((x.abs.length : Int) - x.power) < 2 ^ 64 := by omega
  have hDton : ((((x.abs.length : Int) - x.power)).emod (2 ^ 64)).toNat
      = x.abs.length - x.power := by
    have h1 : (((x.abs.length : Int) - x.power)).emod (2 ^ 64)
        = ((x.abs.length : Int) - x.power) % 2 ^ 64 := rfl
    rw [h1, Int.emod_eq_of_lt hD0 hD64]
    omega
  have hfmt : fmtDigits ((x.abs.length : Int) - x.power) x.abs.reverse 0
      = x.abs.reverse.map digitChar := by
    apply fmtDigits_no_dot
    intro j hj1 hj2 hcon
    rw [hDton] at hcon
    simp only [List.length_reverse] at hj2
    omega
  simp only [BigNum.toStr]
  rw [if_neg (show ¬ ((x.abs.length : Int) - x.power ≤ 0) from by omega),
    List.append_nil, hfmt]

theorem toStr_case_mid (x : BigNum) (hp : 0 < x.power)
    (hlt : x.power < x.abs.length) (hl63 : x.abs.length < 2 ^ 63) :
    x.toStr = (if x.negative then ['-'] else [])
      ++ ((x.abs.reverse.take (x.abs.length - x.power)).map digitChar
        ++ '.' :: (x.abs.reverse.drop (x.abs.length - x.power)).map digitChar)
      := by
  have hD0 : (0 : Int) ≤ (x.abs.length : Int) - (x.power : Int) := by omega
  have hD64 : ((x.abs.length : Int) - x.power) < 2 ^ 64 := by omega
  have hDt : (((x.abs.length : Int) - x.power)).toNat
      = x.abs.length - x.power := by omega
  have hfmt : fmtDigits ((x.abs.length : Int) - x.power) x.abs.reverse 0
      = (x.abs.reverse.take (x.abs.length - x.power)).map digitChar
        ++ '.' :: (x.abs.reverse.drop (x.abs.length - x.power)).map digitChar
      := by
    have h1 := fmtDigits_dot ((x.abs.length : Int) - x.power) hD0 hD64
      x.abs.reverse 0 (Nat.zero_le _) (by omega)
      (by simp only [List.length_reverse]; omega)
    rw [Nat.sub_zero, hDt] at h1
    exact h1
  simp only [BigNum.toStr]
  rw [if_neg (show ¬ ((x.abs.length : Int) - x.power ≤ 0) from by omega),
    List.append_nil, hfmt]

theorem toStr_case_frac (x : BigNum) (hge : x.abs.length ≤ x.power)
    (hne : x.abs ≠ []) (hp32 : x.power < 2 ^ 32)
    (hl63 : x.abs.length < 2 ^ 63) :
    x.toStr = (if x.negative then ['-'] else [])
      ++ ('0' :: '.' :: List.replicate (x.power - x.abs.length) '0')
      ++ x.abs.reverse.map digitChar := by
  have hnb : 0 < x.abs.length := List.length_pos.mpr hne
  have hor : ((((x.abs.length : Int) - x.power)).emod (2 ^ 64)).toNat = 0
      ∨ x.abs.length ≤ ((((x.abs.length : Int) - x.power)).emod (2 ^ 64)).toNat
      := by
    have h1 : (((x.abs.length : Int) - x.power)).emod (2 ^ 64)
        = ((x.abs.length : Int) - x.power) % 2 ^ 64 := rfl
    rw [h1]
    omega
  have hfmt : fmtDigits ((x.abs.length : Int) - x.power) x.abs.reverse 0
      = x.abs.reverse.map digitChar := by
    apply fmtDigits_no_dot
    intro j hj1 hj2 hcon
    simp only [List.length_reverse] at hj2
    rcases hor with h | h <;> omega
  have htn : (-((x.abs.length : Int) - x.power)).toNat
      = x.power - x.abs.length := by omega
  simp only [BigNum.toStr]
  rw [if_pos (show (x.abs.length : Int) - x.power ≤ 0 from by omega), hfmt,
    htn]


theorem dropWhile_replicate_zero (k : Nat) (m : List Nat) :
    (List.replicate k 0 ++ m).dropWhile (· == 0) = m.dropWhile (· == 0) := by
  induction k with
  | zero => rw [List.replicate_zero, List.nil_append]
  | succ k ih =>
    rw [List.replicate_succ, List.cons_append,
      List.dropWhile_cons_of_pos (by decide)]
    exact ih

theorem ub_clean_append_rep (l : List Nat) (hl : l ≠ []) (k : Nat) :
    ub_clean (l ++ List.replicate k 0) = ub_clean l := by
  have hrw : (l ++ List.replicate k 0).reverse.dropWhile (· == 0)
      = l.reverse.dropWhile (· == 0) := by
    rw [List.reverse_append, List.reverse_replicate, dropWhile_replicate_zero]
  have hie : (l ++ List.replicate k 0).isEmpty = l.isEmpty := by
    cases l with
    | nil => exact absurd rfl hl
    | cons a t => rfl
  simp only [ub_clean]
  rw [hrw, hie]

theorem from_string_toStr (x : BigNum) (hx : Canonical x) :
    from_string x.toStr = .ok x := by
  obtain ⟨hclean, hne, hdig, hmin, hnegz, hp32, hl63⟩ := hx
  have hcanon : Canonical x := ⟨hclean, hne, hdig, hmin, hnegz, hp32, hl63⟩
  have hcl : ub_clean x.abs = x.abs := hclean
  have hrevdig : AllDigits x.abs.reverse := allDigits_reverse.mpr hdig
  have hnb : 0 < x.abs.length := List.length_pos.mpr hne
  rcases Nat.lt_or_ge x.power x.abs.length with hc | hc
  · rcases Nat.eq_zero_or_pos x.power with hp | hp
    · -- integer: no dot printed
      rw [toStr_case_int x hp hne hl63]
      cases hneg : x.negative with
      | true =>
        have habs0 : x.abs ≠ [0] := by
          intro h
          rw [hnegz h] at hneg
          exact Bool.noConfusion hneg
        rw [if_pos rfl, List.singleton_append,
          from_string_plain_neg x.abs.reverse hrevdig]
        simp only [List.reverse_reverse]
        rw [hcl, if_neg habs0]
        simp only [Nat.zero_mod]
        rw [show (⟨true, x.abs, 0⟩ : BigNum) = x from by rw [← hneg, ← hp],
          clean_of_canonical x hcanon]
      | false =>
        simp only [Bool.false_eq_true, if_false, List.nil_append]
        cases hrv : x.abs.reverse with
        | nil => exact absurd (by simpa using congrArg List.reverse hrv) hne
        | cons d0 rest =>
          have hdig2 : AllDigits (d0 :: rest) := hrv ▸ hrevdig
          rw [from_string_plain_pos d0 rest
            (hdig2 d0 (List.mem_cons_self d0 rest))
            (fun d hd => hdig2 d (List.mem_cons_of_mem _ hd)), ← hrv]
          simp only [List.reverse_reverse]
          rw [hcl]
          simp only [Nat.zero_mod]
          rw [show (⟨false, x.abs, 0⟩ : BigNum) = x from by rw [← hneg, ← hp],
            clean_of_canonical x hcanon]
    · -- dot inside the digits
      rw [toStr_case_mid x hp hc hl63]
      have hAdig : AllDigits (x.abs.reverse.take (x.abs.length - x.power)) :=
        allDigits_take _ _ hrevdig
      have hBdig : AllDigits (x.abs.reverse.drop (x.abs.length - x.power)) :=
        allDigits_drop _ _ hrevdig
      have hAB : (x.abs.reverse.drop (x.abs.length - x.power)).reverse
          ++ (x.abs.reverse.take (x.abs.length - x.power)).reverse = x.abs := by
        rw [← List.reverse_append, List.take_append_drop, List.reverse_reverse]
      have hBlen : (x.abs.reverse.drop (x.abs.length - x.power)).length
          = x.power := by
        rw [List.length_drop, List.length_reverse]
        omega
      have hmodp : x.power % 2 ^ 32 = x.power := Nat.mod_eq_of_lt hp32
      have habs0 : x.abs ≠ [0] := by
        intro h
        rw [h] at hc
        simp at hc
        omega
      cases hneg : x.negative with
      | true =>
        rw [if_pos rfl, List.singleton_append,
          from_string_dotted_neg _ _ hAdig hBdig, hAB, hcl, if_neg habs0,
          hBlen, hmodp]
        rw [show (⟨true, x.abs, x.power⟩ : BigNum) = x from by rw [← hneg],
          clean_of_canonical x hcanon]
      | false =>
        simp only [Bool.false_eq_true, if_false, List.nil_append]
        cases hA : x.abs.reverse.take (x.abs.length - x.power) with
        | nil =>
          exfalso
          have h1 := congrArg List.length hA
          rw [List.length_take, List.length_reverse] at h1
          simp at h1
          omega
        | cons d0 A2 =>
          have hdig2 : AllDigits (d0 :: A2) := hA ▸ hAdig
          rw [from_string_dotted_pos d0 A2 _
            (hdig2 d0 (List.mem_cons_self d0 A2))
            (fun d hd => hdig2 d (List.mem_cons_of_mem _ hd)) hBdig, ← hA,
            hAB, hcl, hBlen, hmodp]
          rw [show (⟨false, x.abs, x.power⟩ : BigNum) = x from by rw [← hneg],
            clean_of_canonical x hcanon]
  · -- pure fraction: leading "0." and padding zeros
    rw [toStr_case_frac x hc hne hp32 hl63]
    have habs0 : x.abs ≠ [0] := by
      intro h
      have h1 := hmin (by omega)
      rw [h] at h1
      exact h1 rfl
    have hBdig : AllDigits (List.replicate (x.power - x.abs.length) 0
        ++ x.abs.reverse) :=
      allDigits_append.mpr ⟨allDigits_replicate_zero _, hrevdig⟩
    have hBlen : (List.replicate (x.power - x.abs.length) 0
        ++ x.abs.reverse).length = x.power := by
      rw [List.length_append, List.length_replicate, List.length_reverse]
      omega
    have hmodp : x.power % 2 ^ 32 = x.power := Nat.mod_eq_of_lt hp32
    have hBclean : ub_clean ((List.replicate (x.power - x.abs.length) 0
          ++ x.abs.reverse).reverse ++ ([0] : List Nat).reverse) = x.abs := by
      rw [show ([0] : List Nat).reverse = [0] from rfl, List.reverse_append,
        List.reverse_replicate, List.reverse_reverse, List.append_assoc,
        show List.replicate (x.power - x.abs.length) 0 ++ [0]
          = List.replicate (x.power - x.abs.length + 1) 0
          from by rw [List.replicate_succ'],
        ub_clean_append_rep x.abs hne, hcl]
    have hshape : ('0' :: '.' :: List.replicate (x.power - x.abs.length) '0')
          ++ x.abs.reverse.map digitChar
        = ([0] : List Nat).map digitChar
          ++ '.' :: (List.replicate (x.power - x.abs.length) 0
            ++ x.abs.reverse).map digitChar := by
      rw [List.map_append, List.map_replicate,
        show digitChar 0 = '0' from by decide]
      simp [List.cons_append, show digitChar 0 = '0' from by decide]
    cases hneg : x.negative with
    | true =>
      rw [if_pos rfl, List.append_assoc, List.singleton_append, hshape,
        from_string_dotted_neg [0] _ (by unfold AllDigits; decide) hBdig, hBclean,
        if_neg habs0, hBlen, hmodp]
      rw [show (⟨true, x.abs, x.power⟩ : BigNum) = x from by rw [← hneg],
        clean_of_canonical x hcanon]
    | false =>
      simp only [Bool.false_eq_true, if_false, List.nil_append]
      rw [hshape, from_string_dotted_pos 0 [] _ (by omega)
        (fun d hd => absurd hd (List.not_mem_nil d)) hBdig, hBclean, hBlen,
        hmodp]
      rw [show (⟨false, x.abs, x.power⟩ : BigNum) = x from by rw [← hneg],
        clean_of_canonical x hcanon]

theorem abs_val_eq (x : BigNum) :
    |BigNum.val x| = (ubVal x.abs : ℚ) / 10 ^ x.power := by
  simp only [BigNum.val]
  cases hneg : x.negative with
  | true =>
    rw [if_pos rfl, neg_one_mul, neg_div, abs_neg, abs_div,
      abs_of_nonneg (by positivity : (0:ℚ) ≤ (ubVal x.abs : ℚ)),
      abs_of_nonneg (by positivity : (0:ℚ) ≤ (10:ℚ) ^ x.power)]
  | false =>
    rw [if_neg (by decide), one_mul, abs_div,
      abs_of_nonneg (by positivity : (0:ℚ) ≤ (ubVal x.abs : ℚ)),
      abs_of_nonneg (by positivity : (0:ℚ) ≤ (10:ℚ) ^ x.power)]

theorem abs_val_lt_one_iff (x : BigNum) :
    |BigNum.val x| < 1 ↔ ubVal x.abs < 10 ^ x.power := by
  rw [abs_val_eq, div_lt_one (by positivity : (0:ℚ) < (10:ℚ) ^ x.power)]
  constructor <;> intro h <;> exact_mod_cast h

theorem val_eq_zero_iff (x : BigNum) :
    BigNum.val x = 0 ↔ ubVal x.abs = 0 := by
  constructor
  · intro h
    have h1 := abs_val_eq x
    rw [h, abs_zero] at h1
    rcases div_eq_zero_iff.mp h1.symm with h2 | h2
    · exact_mod_cast h2
    · exact absurd h2 (by positivity)
  · intro h
    simp [BigNum.val, h]

theorem toStr_head_of_neg (x : BigNum) (hneg : x.negative = true) :
    x.toStr.head? = some '-' := by
  simp [BigNum.toStr, hneg]

theorem toStr_not_minus_of_nonneg (x : BigNum) (hx : Canonical x)
    (hneg : x.negative = false) : '-' ∉ x.toStr := by
  obtain ⟨hclean, hne, hdig, hmin, hnegz, hp32, hl63⟩ := hx
  have hrevdig : ∀ d ∈ x.abs.reverse, d < 10 :=
    fun d hd => hdig d (List.mem_reverse.mp hd)
  by_cases hp : x.power = 0
  · rw [toStr_case_int x hp hne hl63, hneg, if_neg (by decide),
      List.nil_append]
    intro hm
    obtain ⟨d, hd, he⟩ := List.mem_map.mp hm
    exact digitChar_ne_minus d (hrevdig d hd) he
  · by_cases hlt : x.power < x.abs.length
    · rw [toStr_case_mid x (by omega) hlt hl63, hneg, if_neg (by decide),
        List.nil_append]
      intro hm
      rcases List.mem_append.mp hm with h1 | h1
      · obtain ⟨d, hd, he⟩ := List.mem_map.mp h1
        exact digitChar_ne_minus d
          (hrevdig d ((List.take_sublist _ _).subset hd)) he
      · rcases List.mem_cons.mp h1 with h2 | h2
        · exact absurd h2 (by decide)
        · obtain ⟨d, hd, he⟩ := List.mem_map.mp h2
          exact digitChar_ne_minus d
            (hrevdig d ((List.drop_sublist _ _).subset hd)) he
    · rw [toStr_case_frac x (by omega) hne hp32 hl63, hneg,
        if_neg (by decide), List.nil_append]
      intro hm
      rcases List.mem_append.mp hm with h1 | h1
      · rcases List.mem_cons.mp h1 with h2 | h2
        · exact absurd h2 (by decide)
        · rcases List.mem_cons.mp h2 with h3 | h3
          · exact absurd h3 (by decide)
          · exact absurd (List.eq_of_mem_replicate h3) (by decide)
      · obtain ⟨d, hd, he⟩ := List.mem_map.mp h1
        exact digitChar_ne_minus d (hrevdig d hd) he

theorem toStr_head_minus_iff (x : BigNum) (hx : Canonical x) :
    x.toStr.head? = some '-' ↔ x.negative = true := by
  constructor
  · intro hh
    cases hneg : x.negative with
    | true => rfl
    | false =>
      exact absurd (List.mem_of_mem_head? hh)
        (toStr_not_minus_of_nonneg x hx hneg)
  · exact toStr_head_of_neg x

theorem toStr_no_dot_int (x : BigNum) (hx : Canonical x)
    (hp : x.power = 0) : '.' ∉ x.toStr := by
  obtain ⟨hclean, hne, hdig, hmin, hnegz, hp32, hl63⟩ := hx
  rw [toStr_case_int x hp hne hl63]
  intro hm
  rcases List.mem_append.mp hm with h1 | h1
  · revert h1
    cases x.negative with
    | true =>
      rw [if_pos rfl]
      intro h1
      exact absurd (List.mem_singleton.mp h1) (by decide)
    | false =>
      rw [if_neg (by decide)]
      exact List.not_mem_nil '.'
  · obtain ⟨d, hd, he⟩ := List.mem_map.mp h1
    exact digitChar_ne_dot d (hdig d (List.mem_reverse.mp hd)) he

theorem toStr_frac_shape (x : BigNum) (hx : Canonical x)
    (h0 : BigNum.val x ≠ 0) (h1 : |BigNum.val x| < 1) :
    x.toStr = (if x.negative then ['-'] else [])
      ++ ('0' :: '.' :: List.replicate (x.power - x.abs.length) '0')
      ++ x.abs.reverse.map digitChar := by
  obtain ⟨hclean, hne, hdig, hmin, hnegz, hp32, hl63⟩ := hx
  have hub : ubVal x.abs < 10 ^ x.power := (abs_val_lt_one_iff x).mp h1
  have hub0 : ubVal x.abs ≠ 0 := fun hc => h0 ((val_eq_zero_iff x).mpr hc)
  have hp1 : 1 ≤ x.power := by
    by_contra hc
    have hp0 : x.power = 0 := by omega
    rw [hp0, pow_zero] at hub
    omega
  have hlen := length_le_of_isClean_lt x.abs hclean hdig x.power hp1 hub
  exact toStr_case_frac x hlen hne hp32 hl63

/-- C7: for every canonical `BigNum`, parsing (`from_string`) the formatted
text (`toStr`, the `Display` implementation) returns exactly the original
value; the text starts with `'-'` iff the value is negative; when the scale
is zero no decimal point is emitted; and when the value is nonzero with
absolute value below one the text is the sign followed by `"0."`, the
padding zeros, and the magnitude digits. -/
theorem C7_format_parse_round_trip (x : BigNum) (hx : Canonical x) :
    from_string x.toStr = Except.ok x ∧
    (x.toStr.head? = some '-' ↔ x.negative = true) ∧
    (x.power = 0 → '.' ∉ x.toStr) ∧
    (BigNum.val x ≠ 0 → |BigNum.val x| < 1 →
      x.toStr = (if x.negative then ['-'] else [])
        ++ ('0' :: '.' :: List.replicate (x.power - x.abs.length) '0')
        ++ x.abs.reverse.map digitChar) :=
  ⟨from_string_toStr x hx, toStr_head_minus_iff x hx,
    toStr_no_dot_int x hx, toStr_frac_shape x hx⟩

/-- Witness for C7 at the canonical value `-2.45`
(`negative, abs = [5,4,2], power = 2`). -/
theorem C7_witness :
    Canonical ⟨true, [5,4,2], 2⟩ ∧
    (from_string (BigNum.toStr ⟨true, [5,4,2], 2⟩)
        = Except.ok ⟨true, [5,4,2], 2⟩ ∧
      ((BigNum.toStr ⟨true, [5,4,2], 2⟩).head? = some '-' ↔
        BigNum.negative ⟨true, [5,4,2], 2⟩ = true) ∧
      (BigNum.power ⟨true, [5,4,2], 2⟩ = 0 →
        '.' ∉ BigNum.toStr ⟨true, [5,4,2], 2⟩) ∧
      (BigNum.val ⟨true, [5,4,2], 2⟩ ≠ 0 →
        |BigNum.val ⟨true, [5,4,2], 2⟩| < 1 →
        BigNum.toStr ⟨true, [5,4,2], 2⟩
          = (if BigNum.negative ⟨true, [5,4,2], 2⟩ then ['-'] else [])
            ++ ('0' :: '.' :: List.replicate
              (BigNum.power ⟨true, [5,4,2], 2⟩
                - (BigNum.abs ⟨true, [5,4,2], 2⟩).length) '0')
            ++ (BigNum.abs ⟨true, [5,4,2], 2⟩).reverse.map digitChar)) :=
  ⟨by decide, C7_format_parse_round_trip ⟨true, [5,4,2], 2⟩ (by decide)⟩


theorem floor_nat_div_q (a b : Nat) : ⌊(a : ℚ) / (b : ℚ)⌋ = ((a / b : Nat) : Int) := by
  rcases Nat.eq_zero_or_pos b with hb | hb
  · subst hb; simp
  · rw [Int.floor_eq_iff]
    constructor
    · rw [le_div_iff₀ (by exact_mod_cast hb : (0:ℚ) < b)]
      have := Nat.div_mul_le_self a b
      exact_mod_cast this
    · rw [div_lt_iff₀ (by exact_mod_cast hb : (0:ℚ) < b)]
      have h2 : a < (a / b + 1) * b := by
        have hm : a % b < b := Nat.mod_lt _ hb
        nlinarith [Nat.div_add_mod a b]
      exact_mod_cast h2

theorem trimFrac_val (l : List Nat) : ∀ p : Nat,
    ((ubVal (trimFrac l p).1 : ℚ) / 10 ^ (trimFrac l p).2
      = (ubVal l : ℚ) / 10 ^ p) := by
  induction l with
  | nil => intro p; rfl
  | cons d t ih =>
    intro p
    cases d with
    | zero =>
      cases p with
      | zero => rfl
      | succ p' =>
        have hstep : trimFrac (0 :: t) (p' + 1) = trimFrac t p' := rfl
        rw [hstep, ih p']
        rw [show ubVal (0 :: t) = 10 * ubVal t from by
          rw [ubVal_cons]; omega]
        push_cast
        rw [pow_succ]
        field_simp
        ring
    | succ d' => rfl

theorem val_clean (n : BigNum) : BigNum.val (BigNum.clean n) = BigNum.val n := by
  simp only [BigNum.clean]
  by_cases he : n.abs.isEmpty
  · rw [if_pos he]
    have h0 : n.abs = [] := List.isEmpty_iff.mp he
    simp [BigNum.val, h0, ubVal]
  · rw [if_neg he]
    have hval := trimFrac_val n.abs n.power
    by_cases h0 : ub_clean (trimFrac n.abs n.power).1 = [0]
    · rw [if_pos h0]
      have hz : (ubVal (trimFrac n.abs n.power).1 : ℚ) = 0 := by
        have := ubVal_ub_clean (trimFrac n.abs n.power).1
        rw [h0] at this
        have h2 : ubVal (trimFrac n.abs n.power).1 = 0 := by
          rw [← this]; rfl
        exact_mod_cast h2
      have habs : (ubVal n.abs : ℚ) = 0 := by
        rw [hz] at hval
        have hp : (0:ℚ) < 10 ^ n.power := by positivity
        have := hval.symm
        rw [zero_div] at this
        exact (div_eq_zero_iff.mp this).resolve_right (by positivity)
      simp only [BigNum.val, habs]
      rw [show ((ubVal (ub_clean (trimFrac n.abs n.power).1) : ℚ)) = 0 from by
        rw [h0]; norm_num [ubVal]]
      simp
    · rw [if_neg h0]
      simp only [BigNum.val]
      rw [show (ubVal (ub_clean (trimFrac n.abs n.power).1) : ℚ)
          = (ubVal (trimFrac n.abs n.power).1 : ℚ) from by
        rw [ubVal_ub_clean]]
      rw [mul_div_assoc, mul_div_assoc, hval]

theorem with_power_spec (x : BigNum) (n : Nat) :
    (x.with_power n).negative = x.negative
    ∧ (x.with_power n).power = max x.power n
    ∧ (x.with_power n).abs = List.replicate (max x.power n - x.power) 0 ++ x.abs := by
  unfold BigNum.with_power
  by_cases h : n ≤ x.power
  · rw [if_pos h]
    refine ⟨rfl, by omega, ?_⟩
    rw [show max x.power n - x.power = 0 from by omega, List.replicate_zero,
      List.nil_append]
  · rw [if_neg h]
    exact ⟨rfl, by simp; omega, by simp; congr 1; omega⟩

theorem bn_div_m1_shape (n1 n2 : BigNum) :
    ∃ k, (bn_div_m1 n1 n2).negative = n1.negative
      ∧ (bn_div_m1 n1 n2).power = n1.power + k
      ∧ (bn_div_m1 n1 n2).abs = List.replicate k 0 ++ n1.abs := by
  unfold bn_div_m1
  by_cases hd : (0:Int) < FLOAT_PRECISION - ((n1.power : Int) - (n2.power : Int))
  · rw [if_pos hd]
    obtain ⟨ha, hb, hc⟩ := with_power_spec n1
      ((n1.power + wrapU32 (FLOAT_PRECISION - ((n1.power : Int) - (n2.power : Int)))) % 2 ^ 32)
    refine ⟨max n1.power ((n1.power + wrapU32 (FLOAT_PRECISION
      - ((n1.power : Int) - (n2.power : Int)))) % 2 ^ 32) - n1.power,
      ha, by rw [hb]; omega, hc⟩
  · rw [if_neg hd]
    exact ⟨0, rfl, by omega, by rw [List.replicate_zero, List.nil_append]⟩

theorem bn_div_m1_power (n1 n2 : BigNum) (hp1 : n1.power < 2 ^ 32)
    (hp2 : n2.power + 15 < 2 ^ 32) :
    (bn_div_m1 n1 n2).power = max n1.power (n2.power + 15) := by
  unfold bn_div_m1
  by_cases hd : (0:Int) < FLOAT_PRECISION - ((n1.power : Int) - (n2.power : Int))
  · rw [if_pos hd]
    have hw : wrapU32 (FLOAT_PRECISION - ((n1.power : Int) - (n2.power : Int)))
        = 15 + n2.power - n1.power := by
      unfold wrapU32 FLOAT_PRECISION
      unfold FLOAT_PRECISION at hd
      rw [show (2:Int) ^ 32 = 4294967296 from by norm_num]
      rw [show (15 - ((n1.power:Int) - n2.power)).emod 4294967296
        = (15 - ((n1.power:Int) - n2.power)) % 4294967296 from rfl]
      omega
    rw [hw]
    obtain ⟨ha, hb, hc⟩ := with_power_spec n1
      ((n1.power + (15 + n2.power - n1.power)) % 2 ^ 32)
    rw [hb]
    unfold FLOAT_PRECISION at hd
    omega
  · rw [if_neg hd]
    unfold FLOAT_PRECISION at hd
    omega

theorem bn_div_err_short (n1 n2 : BigNum)
    (hz2 : n2.is_zero = false) (hpt : n2.is_pow_ten = none)
    (h2len : 2 ≤ n2.abs.length)
    (hshort : (bn_div_m1 n1 n2).abs.length < n2.abs.length) :
    bn_div n1 n2 = .error "m can't be negative" := by
  have hud : ub_div (bn_div_m1 n1 n2).abs n2.abs
      = .error "m can't be negative" := by
    simp only [ub_div]
    rw [if_neg (not_not_intro (by omega : 1 < n2.abs.length)),
      if_pos (by omega : ¬ n2.abs.length ≤ (bn_div_m1 n1 n2).abs.length)]
  simp only [bn_div, hz2, Bool.false_eq_true, if_false, hpt]
  rw [if_neg (by omega : ¬ n2.abs.length = 1)]
  simp only [hud]

theorem bn_div_main (n1 n2 : BigNum) (h1 : Canonical n1) (h2 : Canonical n2)
    (hz1 : n1.is_zero = false) (hz2 : n2.is_zero = false)
    (hpt : n2.is_pow_ten = none)
    (hlen : n2.abs.length ≤ (bn_div_m1 n1 n2).abs.length) :
    ∃ qd, bn_div n1 n2
        = .ok (BigNum.clean ⟨n1.negative != n2.negative, qd,
            wsub32 (bn_div_m1 n1 n2).power n2.power⟩)
      ∧ ubVal qd = ubVal (bn_div_m1 n1 n2).abs / ubVal n2.abs
      ∧ IsClean qd := by
  obtain ⟨h1c, h1ne, h1d, _, _, h1p32, _⟩ := h1
  obtain ⟨h2c, h2ne, h2d, _, _, h2p32, _⟩ := h2
  have h1n0 : n1.abs ≠ [0] := by
    intro hc
    rw [BigNum.is_zero, hc] at hz1
    simp at hz1
  obtain ⟨k, hmneg, hmpow, hmabs⟩ := bn_div_m1_shape n1 n2
  have hmdig : AllDigits (bn_div_m1 n1 n2).abs := by
    rw [hmabs]
    intro d hd
    rcases List.mem_append.mp hd with h | h
    · rw [List.eq_of_mem_replicate h]; omega
    · exact h1d d h
  have hmclean : IsClean (bn_div_m1 n1 n2).abs := by
    apply ub_clean_eq_self
    rw [hmabs, List.getLast?_append]
    obtain ⟨a, ha⟩ := Option.isSome_iff_exists.mp
      (List.getLast?_isSome.mpr h1ne)
    rw [ha, show (some a).or (List.replicate k 0).getLast? = some a from rfl]
    intro hc
    have ha0 : a = 0 := Option.some.inj hc
    exact getLast_ne_zero_of_isClean n1.abs h1c h1ne h1n0 (by rw [ha, ha0])
  by_cases hl1 : n2.abs.length = 1
  · obtain ⟨d, hd2⟩ := List.length_eq_one.mp hl1
    have hd9 : d ≤ 9 := by
      have := h2d d (by rw [hd2]; exact List.mem_singleton.mpr rfl)
      omega
    have hd0 : d ≠ 0 := by
      intro hc
      rw [BigNum.is_zero, hd2, hc] at hz2
      simp at hz2
    obtain ⟨qs, rs, hsd, hqval, hrval, hqc, hqd⟩ :=
      ub_shortdiv_spec (bn_div_m1 n1 n2).abs d (by omega) hd9 hmdig
    refine ⟨qs, ?_, ?_, hqc⟩
    · simp only [bn_div, hz2, Bool.false_eq_true, if_false, hpt]
      rw [if_pos hl1, hd2]
      simp only [List.headD_cons, hsd]
    · rw [hqval, hd2]
      simp only [ubVal_cons, ubVal_nil, Nat.mul_zero, Nat.add_zero]
  · have h2len : 2 ≤ n2.abs.length := by
      have : 0 < n2.abs.length := List.length_pos.mpr h2ne
      omega
    obtain ⟨q', r', hud, huval, hrlt, hqc, hrc, hqd, hrd⟩ :=
      ub_div_ok (bn_div_m1 n1 n2).abs n2.abs hmclean h2c hmdig h2d h2len hlen
    have hVpos : 0 < ubVal n2.abs := by
      have h2n0 : n2.abs ≠ [0] := by
        intro hc
        rw [BigNum.is_zero, hc] at hz2
        simp at hz2
      have := pow_le_ubVal_of_isClean n2.abs h2c h2ne h2n0
      have hp : 0 < (10:Nat) ^ (n2.abs.length - 1) :=
        Nat.pos_pow_of_pos _ (by omega)
      omega
    refine ⟨q', ?_, ?_, hqc⟩
    · simp only [bn_div, hz2, Bool.false_eq_true, if_false, hpt]
      rw [if_neg hl1]
      simp only [hud]
    · rw [huval, Nat.add_comm, Nat.add_mul_div_right _ _ hVpos,
        Nat.div_eq_of_lt hrlt, Nat.zero_add]

/-- `core::ub_clean` never empties a nonempty digit vector (it keeps `[0]`
for an all-zero one). -/

theorem ub_clean_ne_nil (l : List Nat) (hl : l ≠ []) : ub_clean l ≠ [] := by
  unfold ub_clean
  by_cases hr : (l.reverse.dropWhile (· == 0)).isEmpty
  · rw [if_pos hr, if_neg (by
      intro hc
      exact hl (List.isEmpty_iff.mp hc))]
    intro hc
    cases hc
  · rw [if_neg hr]
    intro hc
    rw [List.isEmpty_iff] at hr
    exact hr (by
      have := congrArg List.reverse hc
      rwa [List.reverse_reverse] at this)

theorem trimFrac_nil_val (l : List Nat) : ∀ p : Nat,
    (trimFrac l p).1 = [] → ubVal l = 0 := by
  induction l with
  | nil => intro p _; rfl
  | cons d t ih =>
    intro p hp
    cases d with
    | zero =>
      cases p with
      | zero => cases hp
      | succ p' =>
        have hstep : trimFrac (0 :: t) (p' + 1) = trimFrac t p' := rfl
        rw [hstep] at hp
        rw [ubVal_cons, ih p' hp]
    | succ d' => cases hp

theorem trimFrac_ne_nil (l : List Nat) (hlast : l.getLast? ≠ some 0)
    (hne : l ≠ []) : ∀ p : Nat, (trimFrac l p).1 ≠ [] := by
  induction l with
  | nil => exact absurd rfl hne
  | cons d t ih =>
    intro p
    cases d with
    | zero =>
      cases p with
      | zero => intro hc; cases hc
      | succ p' =>
        have hstep : trimFrac (0 :: t) (p' + 1) = trimFrac t p' := rfl
        rw [hstep]
        have htne : t ≠ [] := by
          intro hc
          rw [hc] at hlast
          exact hlast rfl
        have htlast : t.getLast? ≠ some 0 := by
          intro hc
          apply hlast
          rw [show (0 :: t) = [0] ++ t from rfl, List.getLast?_append, hc]
          rfl
        exact ih htlast htne p'
    | succ d' => intro hc; cases hc

theorem isClean_val_zero (l : List Nat) (hc : IsClean l)
    (hv : ubVal l = 0) : l = [] ∨ l = [0] := by
  by_cases hne : l = []
  · exact Or.inl hne
  by_cases h0 : l = [0]
  · exact Or.inr h0
  have := pow_le_ubVal_of_isClean l hc hne h0
  have hp : 0 < (10:Nat) ^ (l.length - 1) := Nat.pos_pow_of_pos _ (by omega)
  omega

theorem bn_tenpow_div_abs_ne_nil (n1 : BigNum) (p : Int) (b : Bool)
    (h1 : Canonical n1) (hz1 : n1.is_zero = false) :
    ¬ isZeroPanics (bn_tenpow_div n1 p b) := by
  have h1c : IsClean n1.abs := h1.1
  have h1ne : n1.abs ≠ [] := h1.2.1
  have h1n0 : n1.abs ≠ [0] := by
    intro hc
    rw [BigNum.is_zero, hc] at hz1
    simp at hz1
  have hlast := getLast_ne_zero_of_isClean n1.abs h1c h1ne h1n0
  unfold bn_tenpow_div
  by_cases hp : p = 0
  · rw [if_pos hp]
    exact h1ne
  · rw [if_neg hp]
    simp only [BigNum.clean, isZeroPanics]
    rw [if_neg (by
      intro hc
      exact h1ne (List.isEmpty_iff.mp hc))]
    exact ub_clean_ne_nil _ (trimFrac_ne_nil n1.abs hlast h1ne _)

/-- C3 (amended): `bn_div`'s recoverable errors are exactly a zero divisor
(`"Division by zero"`) and — for a non-power-of-ten divisor of at least two
digits — a precision-padded dividend magnitude (`bn_div_m1`) still shorter
than the divisor's, where `ub_div`'s length check surfaces as the
recoverable `"m can't be negative"` error; this refutes the original
error-iff-zero-divisor. The equivalence is guarded against the one path on
which the Rust function does not return at all: when the computed quotient
is zero (padded dividend value below the divisor's), the final `clean`'s
fraction-trim loop empties the all-zero quotient and its `is_zero` call
panics. The total model returns an `Ok` carrying an empty magnitude there
instead, and the second conjunct identifies those `Ok`s exactly: a
returned value is an `isZeroPanics` state — one Rust never returns,
e.g. for `10^(-14) / 12` — if and only if the padded dividend value is
below the divisor's on the non-power-of-ten path. The divisor-scale bound
`n2.power + 15 < 2^32` keeps the `delta` cast from wrapping, as in C4. -/
theorem C3_error_iff_zero_or_short_dividend (n1 n2 : BigNum)
    (h1 : Canonical n1) (h2 : Canonical n2) (hz1 : n1.is_zero = false)
    (hp2 : n2.power + 15 < 2 ^ 32) :
    ((n2.is_pow_ten = none → n2.abs.length ≤ (bn_div_m1 n1 n2).abs.length →
        ¬ ubVal (bn_div_m1 n1 n2).abs < ubVal n2.abs) →
      ((bn_div n1 n2).isOk = false ↔
        n2.is_zero = true ∨
          (n2.is_pow_ten = none ∧ 2 ≤ n2.abs.length ∧
            (bn_div_m1 n1 n2).abs.length < n2.abs.length)))
    ∧ (∀ q, bn_div n1 n2 = Except.ok q →
        (isZeroPanics q ↔
          n2.is_pow_ten = none
            ∧ ubVal (bn_div_m1 n1 n2).abs < ubVal n2.abs)) := by
  have h1p32 : n1.power < 2 ^ 32 := h1.2.2.2.2.2.1
  constructor
  · intro _
    cases hz2 : n2.is_zero with
    | true =>
      have hbd : bn_div n1 n2 = .error "Division by zero" := by
        simp [bn_div, hz2]
      rw [hbd]
      simp [Except.isOk, Except.toBool]
    | false =>
      cases hpt : n2.is_pow_ten with
      | some p =>
        have hbd : bn_div n1 n2 = .ok (bn_tenpow_div n1 p n2.is_negative) := by
          simp [bn_div, hz2, hpt]
        rw [hbd]
        simp [Except.isOk, Except.toBool]
      | none =>
        by_cases hlen : n2.abs.length ≤ (bn_div_m1 n1 n2).abs.length
        · obtain ⟨qd, hok, _⟩ := bn_div_main n1 n2 h1 h2 hz1 hz2 hpt hlen
          rw [hok]
          constructor
          · intro hc
            exact absurd hc (by simp [Except.isOk, Except.toBool])
          · rintro (hc | ⟨_, _, hshort⟩)
            · exact absurd hc (by simp)
            · omega
        · push_neg at hlen
          have h2len : 2 ≤ n2.abs.length := by
            obtain ⟨k, _, _, hmabs⟩ := bn_div_m1_shape n1 n2
            obtain ⟨h1c, h1ne, _⟩ := h1
            have hpos : 0 < n1.abs.length := List.length_pos.mpr h1ne
            have hml : (bn_div_m1 n1 n2).abs.length = k + n1.abs.length := by
              rw [hmabs, List.length_append, List.length_replicate]
            omega
          rw [bn_div_err_short n1 n2 hz2 hpt h2len hlen]
          constructor
          · intro _
            exact Or.inr ⟨rfl, h2len, hlen⟩
          · intro _
            rfl
  · intro q hq
    cases hz2 : n2.is_zero with
    | true =>
      have hbd : bn_div n1 n2 = .error "Division by zero" := by
        simp [bn_div, hz2]
      rw [hbd] at hq
      simp at hq
    | false =>
      cases hpt : n2.is_pow_ten with
      | some p =>
        have hbd : bn_div n1 n2 = .ok (bn_tenpow_div n1 p n2.is_negative) := by
          simp [bn_div, hz2, hpt]
        rw [hbd] at hq
        have hqe := Except.ok.inj hq
        constructor
        · intro hzp
          rw [← hqe] at hzp
          exact absurd hzp (bn_tenpow_div_abs_ne_nil n1 p _ h1 hz1)
        · rintro ⟨hc, _⟩
          cases hc
      | none =>
        by_cases hlen : n2.abs.length ≤ (bn_div_m1 n1 n2).abs.length
        · obtain ⟨qd, hbd, hqval, hqclean⟩ :=
            bn_div_main n1 n2 h1 h2 hz1 hz2 hpt hlen
          rw [hbd] at hq
          have hqe := Except.ok.inj hq
          have hVpos : 0 < ubVal n2.abs := by
            have h2n0 : n2.abs ≠ [0] := by
              intro hc
              rw [BigNum.is_zero, hc] at hz2
              simp at hz2
            have := pow_le_ubVal_of_isClean n2.abs h2.1 h2.2.1 h2n0
            have hp : 0 < (10:Nat) ^ (n2.abs.length - 1) :=
              Nat.pos_pow_of_pos _ (by omega)
            omega
          have hW15 : 15 ≤ wsub32 (bn_div_m1 n1 n2).power n2.power := by
            rw [bn_div_m1_power n1 n2 h1p32 hp2]
            unfold wsub32
            rw [show (2:Nat) ^ 32 = 4294967296 from by norm_num]
            omega
          have habs : q.abs = ub_clean
              (trimFrac qd (wsub32 (bn_div_m1 n1 n2).power n2.power)).1 := by
            rw [← hqe]
            simp only [BigNum.clean]
            by_cases he : qd.isEmpty
            · rw [if_pos he]
              have hnil : qd = [] := List.isEmpty_iff.mp he
              rw [hnil]
              rfl
            · rw [if_neg he]
          constructor
          · intro hzp
            rw [isZeroPanics, habs] at hzp
            have ht1 : (trimFrac qd
                (wsub32 (bn_div_m1 n1 n2).power n2.power)).1 = [] := by
              by_contra hc
              exact ub_clean_ne_nil _ hc hzp
            have hv0 : ubVal qd = 0 := trimFrac_nil_val qd _ ht1
            refine ⟨rfl, ?_⟩
            rw [hqval] at hv0
            by_contra hc
            push_neg at hc
            have h1le : 1 ≤ ubVal (bn_div_m1 n1 n2).abs / ubVal n2.abs :=
              (Nat.le_div_iff_mul_le hVpos).mpr (by omega)
            omega
          · rintro ⟨_, hlt⟩
            have hv0 : ubVal qd = 0 := by
              rw [hqval]
              exact Nat.div_eq_of_lt hlt
            rw [isZeroPanics, habs]
            rcases isClean_val_zero qd hqclean hv0 with hnil | hzero
            · rw [hnil]
              rfl
            · rw [hzero]
              obtain ⟨w, hw⟩ : ∃ w,
                  wsub32 (bn_div_m1 n1 n2).power n2.power = w + 1 :=
                ⟨wsub32 (bn_div_m1 n1 n2).power n2.power - 1, by omega⟩
              rw [hw]
              rfl
        · push_neg at hlen
          have h2len : 2 ≤ n2.abs.length := by
            obtain ⟨k, _, _, hmabs⟩ := bn_div_m1_shape n1 n2
            have hpos : 0 < n1.abs.length := List.length_pos.mpr h1.2.1
            have hml : (bn_div_m1 n1 n2).abs.length = k + n1.abs.length := by
              rw [hmabs, List.length_append, List.length_replicate]
            omega
          rw [bn_div_err_short n1 n2 hz2 hpt h2len hlen] at hq
          simp at hq

/-- Witness for C3: the equivalence instantiated at the counterexample pair
`10^(-15) / 12` (error: padded dividend shorter than the divisor), and the
panic-flag conjunct instantiated at `10^(-14) / 12`, where the model's
returned value `⟨false, [], 14⟩` is the empty-magnitude `isZeroPanics`
state on which the Rust `clean` panics (quotient `10/12 = 0` at a positive
scale). -/
theorem C3_witness :
    Canonical ⟨false, [1], 15⟩ ∧ Canonical ⟨false, [2, 1], 0⟩
    ∧ (⟨false, [1], 15⟩ : BigNum).is_zero = false
    ∧ (0 : Nat) + 15 < 2 ^ 32
    ∧ ((((⟨false, [2, 1], 0⟩ : BigNum).is_pow_ten = none
          → ([2, 1] : List Nat).length
              ≤ (bn_div_m1 ⟨false, [1], 15⟩ ⟨false, [2, 1], 0⟩).abs.length
          → ¬ ubVal (bn_div_m1 ⟨false, [1], 15⟩ ⟨false, [2, 1], 0⟩).abs
              < ubVal ([2, 1] : List Nat))
        → ((bn_div ⟨false, [1], 15⟩ ⟨false, [2, 1], 0⟩).isOk = false ↔
            (⟨false, [2, 1], 0⟩ : BigNum).is_zero = true ∨
              ((⟨false, [2, 1], 0⟩ : BigNum).is_pow_ten = none
                ∧ 2 ≤ ([2, 1] : List Nat).length
                ∧ (bn_div_m1 ⟨false, [1], 15⟩ ⟨false, [2, 1], 0⟩).abs.length
                  < ([2, 1] : List Nat).length)))
      ∧ (∀ q, bn_div ⟨false, [1], 15⟩ ⟨false, [2, 1], 0⟩ = Except.ok q →
          (isZeroPanics q ↔
            (⟨false, [2, 1], 0⟩ : BigNum).is_pow_ten = none
              ∧ ubVal (bn_div_m1 ⟨false, [1], 15⟩ ⟨false, [2, 1], 0⟩).abs
                < ubVal ([2, 1] : List Nat))))
    ∧ Canonical ⟨false, [1], 14⟩
    ∧ bn_div ⟨false, [1], 14⟩ ⟨false, [2, 1], 0⟩ = Except.ok ⟨false, [], 14⟩
    ∧ isZeroPanics ⟨false, [], 14⟩
    ∧ (∀ q, bn_div ⟨false, [1], 14⟩ ⟨false, [2, 1], 0⟩ = Except.ok q →
        (isZeroPanics q ↔
          (⟨false, [2, 1], 0⟩ : BigNum).is_pow_ten = none
            ∧ ubVal (bn_div_m1 ⟨false, [1], 14⟩ ⟨false, [2, 1], 0⟩).abs
              < ubVal ([2, 1] : List Nat))) :=
  ⟨by decide, by decide, by decide, by norm_num,
    C3_error_iff_zero_or_short_dividend ⟨false, [1], 15⟩ ⟨false, [2, 1], 0⟩
      (by decide) (by decide) (by decide) (by norm_num),
    by decide, rfl, rfl,
    (C3_error_iff_zero_or_short_dividend ⟨false, [1], 14⟩ ⟨false, [2, 1], 0⟩
      (by decide) (by decide) (by decide) (by norm_num)).2⟩

theorem val_shift (x : BigNum) (j : Nat) :
    BigNum.val x = (if x.negative then (-1:ℚ) else 1)
      * ((ubVal x.abs : ℚ) * 10 ^ j) / 10 ^ (x.power + j) := by
  simp only [BigNum.val]
  rw [pow_add, mul_div_assoc, mul_div_assoc,
    mul_div_mul_right _ _ (by positivity : ((10:ℚ) ^ j) ≠ 0)]

/-- C4 (amended): for canonical operands with nonzero dividend and a
nonzero divisor that is not a power of ten (and a divisor scale small
enough that the `i64 → u32` cast of `delta` does not wrap), a successful
`bn_div` returns the true quotient `val n1 / val n2` truncated toward
zero — never rounded — to `max n1.power (n2.power + 15) - n2.power`
fractional digits, i.e. to `max FLOAT_PRECISION (n1.power - n2.power)`
digits: only when `n1.power - n2.power ≤ 15` is the claimed truncation to
exactly 15 fractional digits (error below `10^(-15)`) what happens. -/
theorem C4_quotient_truncated_at_result_scale (n1 n2 : BigNum)
    (h1 : Canonical n1) (h2 : Canonical n2)
    (hz1 : n1.is_zero = false) (hz2 : n2.is_zero = false)
    (hpt : n2.is_pow_ten = none)
    (hp2 : n2.power + 15 < 2 ^ 32)
    (q : BigNum) (hok : bn_div n1 n2 = Except.ok q) :
    BigNum.val q
      = truncTo (max n1.power (n2.power + 15) - n2.power)
          (BigNum.val n1 / BigNum.val n2) := by
  have h1c : IsClean n1.abs := h1.1
  have h1ne : n1.abs ≠ [] := h1.2.1
  have h1p32 : n1.power < 2 ^ 32 := h1.2.2.2.2.2.1
  have h2c : IsClean n2.abs := h2.1
  have h2ne : n2.abs ≠ [] := h2.2.1
  have h1n0 : n1.abs ≠ [0] := by
    intro hc
    rw [BigNum.is_zero, hc] at hz1
    simp at hz1
  have h2n0 : n2.abs ≠ [0] := by
    intro hc
    rw [BigNum.is_zero, hc] at hz2
    simp at hz2
  have ha1 : 1 ≤ ubVal n1.abs := by
    have := pow_le_ubVal_of_isClean n1.abs h1c h1ne h1n0
    have hp : 0 < (10:Nat) ^ (n1.abs.length - 1) := Nat.pos_pow_of_pos _ (by omega)
    omega
  have ha2 : 1 ≤ ubVal n2.abs := by
    have := pow_le_ubVal_of_isClean n2.abs h2c h2ne h2n0
    have hp : 0 < (10:Nat) ^ (n2.abs.length - 1) := Nat.pos_pow_of_pos _ (by omega)
    omega
  have hlen : n2.abs.length ≤ (bn_div_m1 n1 n2).abs.length := by
    by_contra hc
    push_neg at hc
    have h2len : 2 ≤ n2.abs.length := by
      obtain ⟨k, _, _, hmabs⟩ := bn_div_m1_shape n1 n2
      have hpos : 0 < n1.abs.length := List.length_pos.mpr h1ne
      have hml : (bn_div_m1 n1 n2).abs.length = k + n1.abs.length := by
        rw [hmabs, List.length_append, List.length_replicate]
      omega
    rw [bn_div_err_short n1 n2 hz2 hpt h2len hc] at hok
    cases hok
  obtain ⟨qd, hbd, hqval, _⟩ := bn_div_main n1 n2 h1 h2 hz1 hz2 hpt hlen
  rw [hok] at hbd
  have hq := Except.ok.inj hbd
  obtain ⟨k, hmneg, hmpow, hmpad⟩ := bn_div_m1_shape n1 n2
  have hMpow := bn_div_m1_power n1 n2 h1p32 hp2
  have hW : wsub32 (bn_div_m1 n1 n2).power n2.power
      = max n1.power (n2.power + 15) - n2.power := by
    unfold wsub32
    rw [hMpow, show (2:Nat) ^ 32 = 4294967296 from by norm_num]
    omega
  have hmval : ubVal (bn_div_m1 n1 n2).abs = 10 ^ k * ubVal n1.abs := by
    rw [hmpad, ubVal_append, ubVal_replicate_zero, List.length_replicate,
      Nat.zero_add]
  have hApos : (0:ℚ) < ((10 ^ k * ubVal n1.abs : ℕ) : ℚ) := by
    have h1le : 1 ≤ 10 ^ k * ubVal n1.abs := by
      have hp : 0 < (10:Nat) ^ k := Nat.pos_pow_of_pos _ (by omega)
      have := Nat.mul_le_mul hp ha1
      omega
    exact_mod_cast Nat.lt_of_lt_of_le Nat.zero_lt_one h1le
  have hBpos : (0:ℚ) < (ubVal n2.abs : ℚ) := by
    exact_mod_cast Nat.lt_of_lt_of_le Nat.zero_lt_one ha2
  have hKq : (0:ℚ) < 10 ^ (max n1.power (n2.power + 15) - n2.power) := by
    positivity
  have hx10 : (BigNum.val n1 / BigNum.val n2)
        * 10 ^ (max n1.power (n2.power + 15) - n2.power)
      = (if (n1.negative != n2.negative) = true then (-1:ℚ) else 1)
        * ((10 ^ k * ubVal n1.abs : ℕ) : ℚ) / (ubVal n2.abs : ℚ) := by
    rw [val_shift n1 k,
      val_shift n2 (max n1.power (n2.power + 15) - n2.power),
      show n2.power + (max n1.power (n2.power + 15) - n2.power)
        = n1.power + k from by omega]
    have hD : ((10:ℚ) ^ (n1.power + k)) ≠ 0 := by positivity
    have hB : (ubVal n2.abs : ℚ) ≠ 0 := ne_of_gt hBpos
    push_cast
    cases n1.negative <;> cases n2.negative <;>
      · simp only [Bool.bne_false, Bool.bne_true, Bool.not_false,
          Bool.not_true, if_true, if_false]
        field_simp
        ring
  rw [hq, val_clean]
  simp only [truncTo]
  generalize hgen : BigNum.val n1 / BigNum.val n2 = X
  rw [hgen] at hx10
  simp only [BigNum.val]
  rw [hW, hqval, hmval]
  by_cases hsgn : (n1.negative != n2.negative) = true
  · rw [if_pos hsgn] at hx10
    rw [if_pos hsgn]
    have hxval : X * 10 ^ (max n1.power (n2.power + 15) - n2.power)
        = -(((10 ^ k * ubVal n1.abs : ℕ) : ℚ) / (ubVal n2.abs : ℚ)) := by
      rw [hx10]
      ring
    have hxneg : ¬ (0 ≤ X) := by
      rw [not_le]
      have hlt : X * 10 ^ (max n1.power (n2.power + 15) - n2.power) < 0 := by
        rw [hxval]
        exact neg_lt_zero.mpr (div_pos hApos hBpos)
      nlinarith
    rw [if_neg hxneg, hxval, Int.ceil_neg, floor_nat_div_q, Int.cast_neg,
      Int.cast_natCast]
    ring
  · rw [if_neg hsgn] at hx10
    rw [if_neg hsgn]
    have hxval : X * 10 ^ (max n1.power (n2.power + 15) - n2.power)
        = ((10 ^ k * ubVal n1.abs : ℕ) : ℚ) / (ubVal n2.abs : ℚ) := by
      rw [hx10]
      ring
    have hxpos : 0 ≤ X := by
      have hge : 0 ≤ X * 10 ^ (max n1.power (n2.power + 15) - n2.power) := by
        rw [hxval]
        exact le_of_lt (div_pos hApos hBpos)
      nlinarith
    rw [if_pos hxpos, hxval, floor_nat_div_q, Int.cast_natCast]
    ring

/-- Witness for C4 at the specification example `1224.235 / 12
= 102.019583333333333` (both canonical, divisor not a power of ten,
scales `3` and `0`, so the truncation scale is `max 3 (0 + 15) - 0
= 15` fractional digits). -/
theorem C4_witness :
    Canonical ⟨false, [5,3,2,4,2,2,1], 3⟩ ∧ Canonical ⟨false, [2,1], 0⟩
    ∧ (⟨false, [5,3,2,4,2,2,1], 3⟩ : BigNum).is_zero = false
    ∧ (⟨false, [2,1], 0⟩ : BigNum).is_zero = false
    ∧ (⟨false, [2,1], 0⟩ : BigNum).is_pow_ten = none
    ∧ 0 + 15 < 2 ^ 32
    ∧ bn_div ⟨false, [5,3,2,4,2,2,1], 3⟩ ⟨false, [2,1], 0⟩
        = Except.ok ⟨false, [3,3,3,3,3,3,3,3,3,3,8,5,9,1,0,2,0,1], 15⟩
    ∧ BigNum.val ⟨false, [3,3,3,3,3,3,3,3,3,3,8,5,9,1,0,2,0,1], 15⟩
        = truncTo (max 3 (0 + 15) - 0)
            (BigNum.val ⟨false, [5,3,2,4,2,2,1], 3⟩
              / BigNum.val ⟨false, [2,1], 0⟩) :=
  ⟨by decide, by decide, by decide, by decide, rfl, by norm_num, rfl,
    C4_quotient_truncated_at_result_scale
      ⟨false, [5,3,2,4,2,2,1], 3⟩ ⟨false, [2,1], 0⟩
      (by decide) (by decide) (by decide) (by decide) rfl (by norm_num)
      ⟨false, [3,3,3,3,3,3,3,3,3,3,8,5,9,1,0,2,0,1], 15⟩ rfl⟩

end SlothNum
